import Mathlib

/-!
# Mandelbrot visualizer: the renderer core

A shallow embedding of `src/renderer.cpp` and of the constants of
`include/mandelbrot.h`, followed by the properties proved about it.

Conventions of the embedding.

* `double` values are rationals (`ℚ`): every statement about the escape-time
  evaluator is a statement in exact arithmetic.
* `size_t` values are natural numbers.  Where the source relies on unsigned
  wrap-around (the pointer rewind of `workerImprecise`) the wrap is written
  explicitly with `% 2 ^ 64`.
* A `for`/`while` loop is a recursive function over a fuel argument that
  counts the iterations the loop has left.
-/

namespace mandelbrot

/-- The plane point `mandelbrot::Pos` (two `double` fields). -/
structure Pos where
  x : ℚ
  y : ℚ
deriving DecidableEq

/-- The constant `DOWNSCALE_LEVEL` of `mandelbrot.h`. -/
def DOWNSCALE_LEVEL : Nat := 4

/-- The constant `MIN_ITERATIONS_BY_PIXEL` of `mandelbrot.h`. -/
def MIN_ITERATIONS_BY_PIXEL : Nat := 64

/-- The constant `MAX_ITERATIONS_BY_PIXEL` of `mandelbrot.h`. -/
def MAX_ITERATIONS_BY_PIXEL : Nat := 2048

/-- The constant `DROPPED_FRAME_CHECK_THRESHOLD` of `mandelbrot.h`. -/
def DROPPED_FRAME_CHECK_THRESHOLD : Nat := 256

/-- The constant `PERIODICITY_CHECK_THRESHOLD` of `mandelbrot.h`. -/
def PERIODICITY_CHECK_THRESHOLD : Nat := 19

/-- The constant `AVX_APPROXIMATION_STEPS` of `mandelbrot.h`. -/
def AVX_APPROXIMATION_STEPS : Nat := 1024

/-- The constant `DOWNSCALED_IMAGE_SIZE_MULTIPLIER` of `mandelbrot.h`. -/
def DOWNSCALED_IMAGE_SIZE_MULTIPLIER : Nat := 4

/-- The constant `MAX_SCALE_LOG` of `mandelbrot.h`. -/
def MAX_SCALE_LOG : Nat := 45

/-- The constant `MAX_THREADS_COUNT` of `mandelbrot.h`, which is initialised
with `QThread::idealThreadCount()`; the value of that call is the argument. -/
def MAX_THREADS_COUNT (idealThreadCount : Nat) : Nat := idealThreadCount

/-- The enum `mandelbrot::RendererState`. -/
inductive RendererState where
  | INITIAL_RENDERING
  | READY
  | RENDERING
  | OFFLINE
deriving DecidableEq

end mandelbrot

namespace Renderer

open mandelbrot

/-! ## Strip partitioning (`Renderer::runWorkers`, lines 113-120) -/

/-- The two statements under the comment "ceiling and aligning":
`stripHeight = (height + threadsCount - 1) / threadsCount;`
`stripHeight += DOWNSCALE_LEVEL - (stripHeight % DOWNSCALE_LEVEL);` -/
def stripHeight (height threadsCount : Nat) : Nat :=
  let stripHeight := (height + threadsCount - 1) / threadsCount
  stripHeight + (DOWNSCALE_LEVEL - stripHeight % DOWNSCALE_LEVEL)

/-- The launching loop
`for (i = 0, from = 0; i < threadsCount; ++i, from += stripHeight)`,
collecting the pair `(from, to)` handed to worker `i`.  The first argument is
the number of iterations left, `threadsCount - i`. -/
def launchLoop (stripHeight height : Nat) : Nat → Nat → List (Nat × Nat)
  | 0, _ => []
  | left + 1, «from» =>
    let «to» := min («from» + stripHeight) height
    («from», «to») :: launchLoop stripHeight height left («from» + stripHeight)

/-- The row ranges `(from, to)` that `runWorkers` hands to its workers, in
launch order. -/
def strips (height threadsCount : Nat) : List (Nat × Nat) :=
  launchLoop (stripHeight height threadsCount) height threadsCount 0

/-- The closed form of the range of worker `i`, as the claim writes it. -/
def stripFrom (height threadsCount i : Nat) : Nat :=
  i * stripHeight height threadsCount

/-- The closed form of the end of the range of worker `i`. -/
def stripTo (height threadsCount i : Nat) : Nat :=
  min (stripFrom height threadsCount i + stripHeight height threadsCount) height

/-! ## The escape-time evaluator (`Renderer::approxStepsPower2`, lines 304-363) -/

/-- The loop `for (size_t i = initialSteps; i < iterationsCount; ++i)` of
`approxStepsPower2`.  The first explicit argument is the number of iterations
the loop has left, `iterationsCount - i`; the others are the loop variables
`i`, `z`, `z_sqr`, `z_old` and `period`.  Falling out of the loop returns
`iterationsCount`.  The call `abs` is the absolute value of a `double`. -/
def approxLoop (c : Pos) (iterationsCount : Nat) (EPS : ℚ) :
    Nat → Nat → Pos → Pos → Pos → Nat → Nat
  | 0, _, _, _, _, _ => iterationsCount
  | left + 1, i, z, z_sqr, z_old, period =>
    if z_sqr.x + z_sqr.y ≥ 4 then i
    else
      let z_new : Pos := ⟨z_sqr.x - z_sqr.y + c.x, (2 * z.x) * z.y + c.y⟩
      let z := z_new
      let z_sqr : Pos := ⟨z.x * z.x, z.y * z.y⟩
      if |z.x - z_old.x| < EPS ∧ |z.y - z_old.y| < EPS then iterationsCount
      else
        let period := period + 1
        if period > PERIODICITY_CHECK_THRESHOLD then
          approxLoop c iterationsCount EPS left (i + 1) z z_sqr z 0
        else
          approxLoop c iterationsCount EPS left (i + 1) z z_sqr z_old period

/-- The function `Renderer::approxStepsPower2(z, initialSteps, c, iterationsCount, EPS)`. -/
def approxStepsPower2 (z : Pos) (initialSteps : Nat) (c : Pos) (iterationsCount : Nat)
    (EPS : ℚ) : Nat :=
  let z_old := z
  let z_sqr : Pos := ⟨z.x * z.x, z.y * z.y⟩
  let period := 0
  approxLoop c iterationsCount EPS (iterationsCount - initialSteps) initialSteps z z_sqr
    z_old period

/-! ### The exact orbit (specification side) -/

/-- One step `z ↦ z² + c` of the Mandelbrot iteration, in exact arithmetic. -/
def mandelStep (c z : Pos) : Pos :=
  ⟨z.x * z.x - z.y * z.y + c.x, 2 * z.x * z.y + c.y⟩

/-- The orbit `z_0 = 0`, `z_(j+1) = z_j² + c`. -/
def orbit (c : Pos) (j : Nat) : Pos :=
  (mandelStep c)^[j] ⟨0, 0⟩

/-- The squared modulus `|z|²`. -/
def normSq (z : Pos) : ℚ :=
  z.x * z.x + z.y * z.y

/-- The value `r` is the escape time of `c` under budget `n`: either `r < n`
is the first step whose iterate has `|z|² ≥ 4`, or `r = n` and no step below
`n` has. -/
def IsEscapeTime (c : Pos) (n r : Nat) : Prop :=
  (r = n ∧ ∀ j, j < n → normSq (orbit c j) < 4) ∨
    (r < n ∧ 4 ≤ normSq (orbit c r) ∧ ∀ j, j < r → normSq (orbit c j) < 4)

/-! ## Colouring (`Renderer::color`, lines 132-134) -/

/-- The Qt function `qRgb(r, g, b)`: `0xff000000 | r << 16 | g << 8 | b` with
each channel masked to 8 bits. -/
def qRgb (r g b : Nat) : Nat :=
  0xff000000 + (r % 256) * 65536 + (g % 256) * 256 + b % 256

/-- The Qt function `qRed`. -/
def qRed (rgb : Nat) : Nat := rgb / 65536 % 256

/-- The Qt function `qGreen`. -/
def qGreen (rgb : Nat) : Nat := rgb / 256 % 256

/-- The Qt function `qBlue`. -/
def qBlue (rgb : Nat) : Nat := rgb % 256

/-- The function `Renderer::color(steps)`, with `current.iterationsCount` as an
explicit argument: `qRgb(static_cast<unsigned char>(steps * 255. / iterationsCount), 0, 0)`.
The conversion to `unsigned char` truncates the non-negative quotient, which
is the natural-number division, and keeps 8 bits. -/
def color (iterationsCount steps : Nat) : Nat :=
  qRgb (steps * 255 / iterationsCount % 256) 0 0

/-! ## The vector pre-pass (`Renderer::approxStepsPower2AVX`, lines 277-301)

An `__m256d` register holds four `double` lanes; it is a function from the
lane index to the lane value.  The intrinsics are the lane-wise operations of
the Intel reference, in exact arithmetic. -/

/-- The AVX register type `__m256d`: four lanes. -/
abbrev __m256d : Type := Fin 4 → ℚ

/-- The intrinsic `_mm256_setzero_pd`. -/
def _mm256_setzero_pd : __m256d := fun _ => 0

/-- The intrinsic `_mm256_mul_pd`. -/
def _mm256_mul_pd (a b : __m256d) : __m256d := fun j => a j * b j

/-- The intrinsic `_mm256_add_pd`. -/
def _mm256_add_pd (a b : __m256d) : __m256d := fun j => a j + b j

/-- The intrinsic `_mm256_sub_pd`. -/
def _mm256_sub_pd (a b : __m256d) : __m256d := fun j => a j - b j

/-- The intrinsic `_mm256_fmadd_pd`: `a * b + c` in every lane. -/
def _mm256_fmadd_pd (a b c : __m256d) : __m256d := fun j => a j * b j + c j

/-- The intrinsic `_mm256_cmp_pd` with predicate `_CMP_NLT_UQ` (not less
than): lane `j` of the result is all ones when lane `j` of `a` is not less
than lane `j` of `b`. -/
def _mm256_cmp_pd_NLT_UQ (a b : __m256d) : Fin 4 → Bool :=
  fun j => decide (¬ a j < b j)

/-- The intrinsic `_mm256_movemask_pd`: bit `j` of the result is the sign bit
of lane `j`. -/
def _mm256_movemask_pd (res : Fin 4 → Bool) : Nat :=
  (if res 0 then 1 else 0) + (if res 1 then 2 else 0) +
    (if res 2 then 4 else 0) + (if res 3 then 8 else 0)

/-- The state left by `approxStepsPower2AVX`: the returned step count and the
two registers written back through the references `c_r` and `c_i`. -/
structure AVXResult where
  steps : Nat
  c_r : __m256d
  c_i : __m256d

/-- The loop `for (; i < iterationsCount; ++i)` of `approxStepsPower2AVX`; the
first explicit argument is the number of iterations left. -/
def avxLoop (c_r c_i : __m256d) : Nat → Nat → __m256d → __m256d → AVXResult
  | 0, i, z_r, z_i => ⟨i, z_r, z_i⟩
  | left + 1, i, z_r, z_i =>
    let radius : __m256d := fun _ => 4
    let z_i_sqr := _mm256_mul_pd z_i z_i
    let z_r_sqr := _mm256_mul_pd z_r z_r
    let check := _mm256_add_pd z_r_sqr z_i_sqr
    let res := _mm256_cmp_pd_NLT_UQ check radius
    if _mm256_movemask_pd res ≠ 0 then ⟨i, z_r, z_i⟩
    else
      let z_r_tmp := _mm256_add_pd (_mm256_sub_pd z_r_sqr z_i_sqr) c_r
      let z_i := _mm256_fmadd_pd (_mm256_add_pd z_r z_r) z_i c_i
      let z_r := z_r_tmp
      avxLoop c_r c_i left (i + 1) z_r z_i

/-- The function `Renderer::approxStepsPower2AVX(c_r, c_i, iterationsCount)`. -/
def approxStepsPower2AVX (c_r c_i : __m256d) (iterationsCount : Nat) : AVXResult :=
  avxLoop c_r c_i iterationsCount 0 _mm256_setzero_pd _mm256_setzero_pd

/-- The batched path of `workerPrecise` (AVX build, lines 212-239) for one
batch `probePoints` and lane `i`: the vector pre-pass with ceiling
`min (iterationsCount, AVX_APPROXIMATION_STEPS)`, then the scalar evaluator
resumed from the lane's `z` and the returned step count. -/
def batchedSteps (probePoints : Fin 4 → Pos) (iterationsCount : Nat) (EPS : ℚ)
    (i : Fin 4) : Nat :=
  let iterationsCountAVX := min iterationsCount AVX_APPROXIMATION_STEPS
  let c_r : __m256d := fun j => (probePoints j).x
  let c_i : __m256d := fun j => (probePoints j).y
  let r := approxStepsPower2AVX c_r c_i iterationsCountAVX
  let initialSteps := r.steps
  approxStepsPower2 ⟨r.c_r i, r.c_i i⟩ initialSteps (probePoints i) iterationsCount EPS

/-- A batch on which the two paths differ: lane 0 is
`c = (-2 + 10⁻⁸) + 10⁻⁴ i`, the other three lanes are `c = 1`. -/
def divergingBatch : Fin 4 → Pos :=
  fun j => if j = 0 then ⟨-2 + 1 / 100000000, 1 / 10000⟩ else ⟨1, 0⟩

/-! ## Request state and the workers (`renderer.h`, `Renderer::runWorkers`,
`Renderer::workerPrecise`, `Renderer::workerImprecise`) -/

/-- The operator `Pos::operator+`. -/
instance : Add Pos := ⟨fun a b => ⟨a.x + b.x, a.y + b.y⟩⟩

/-- The operator `Pos::operator*(double)`. -/
instance : HMul Pos ℚ Pos := ⟨fun a c => ⟨a.x * c, a.y * c⟩⟩

/-- The Qt value type `QSize`, for the non-negative sizes of an image. -/
structure QSize where
  width : Nat
  height : Nat
deriving DecidableEq

/-- The struct `mandelbrot::WorkerSettings` (with the fields it inherits from
`RendererSettings`). -/
structure WorkerSettings where
  threadsCount : Nat
  iterationsCount : Nat
  threadsCountAuto : Bool
  iterationsCountAuto : Bool
  frameSeqId : Nat
  originalSize : QSize
  size : QSize
  offset : Pos
  c : Pos
  scale : ℚ
  scaleLog : ℚ
  lowResolutionOnly : Bool
  EPS : ℚ

/-- Lines 105-111 of `runWorkers`: the size of the pass and the plane point
`current.c` of the top-left corner of the buffer.
`current.size = current.originalSize * sizeMultiplier;`
`current.c = {-width / 2., -height / 2.}; current.c *= scale; current.c += offset;` -/
def prepareCurrent (current : WorkerSettings) (sizeMultiplier : Nat) : WorkerSettings :=
  let size : QSize :=
    ⟨current.originalSize.width * sizeMultiplier, current.originalSize.height * sizeMultiplier⟩
  let c : Pos := ⟨-(size.width : ℚ) / 2, -(size.height : ℚ) / 2⟩
  let c := c * current.scale
  let c := c + current.offset
  { current with size := size, c := c }

/-- The state a worker acts on.  `bits` is the pixel memory of `buffer`,
indexed by the pixel offset from `buffer.bits()`; `data` is the write pointer
(`data` in `workerImprecise`, `imgData` in `workerPrecise`) as such an offset;
`pixelsCnt` is the local counter of the source.  `evaluated` is a ghost
counter of the calls of `approxStepsPower2` made so far: it is the time at
which the shared flags are read. -/
structure WorkerState where
  bits : Nat → Nat
  data : Nat
  pixelsCnt : Nat
  evaluated : Nat

/-- How a loop body inside a worker ends: the loop goes on (`next`) or the
worker has executed `return` (`ret`). -/
inductive Flow where
  | next (st : WorkerState)
  | ret (st : WorkerState)

/-- The cancellation check at the end of a loop body:
`++pixelsCnt; if (pixelsCnt >= DROPPED_FRAME_CHECK_THRESHOLD) { if (shutdown.load() ||
dropFrame.load()) return; pixelsCnt = 0; }`.
The argument `flags e` is the value of `shutdown || dropFrame` read after `e`
evaluations. -/
def cancellationCheck (flags : Nat → Bool) (st : WorkerState) : Flow :=
  let pixelsCnt := st.pixelsCnt + 1
  if pixelsCnt ≥ DROPPED_FRAME_CHECK_THRESHOLD then
    if flags st.evaluated then Flow.ret { st with pixelsCnt := pixelsCnt }
    else Flow.next { st with pixelsCnt := 0 }
  else Flow.next { st with pixelsCnt := pixelsCnt }

/-- The colour the workers write for the probe point at `offset` pixels from
the top-left corner: `color(approxStepsPower2({0, 0}, 0, current.c + offset *
current.scale, current.iterationsCount, current.EPS))`. -/
def probeColor (current : WorkerSettings) (offset : Pos) : Nat :=
  let probePoint := current.c + offset * current.scale
  let steps := approxStepsPower2 ⟨0, 0⟩ 0 probePoint current.iterationsCount current.EPS
  color current.iterationsCount steps

/-- The inner loop `for (size_t x = 0; x != (size_t) buffer.width(); ++x)` of
the scalar `workerPrecise` (lines 253-271).  The first explicit argument is
the fuel. -/
def preciseXLoop (current : WorkerSettings) (flags : Nat → Bool) (y : Nat) :
    Nat → Nat → WorkerState → Option Flow
  | 0, _, _ => none
  | fuel + 1, x, st =>
    if x = current.size.width then some (Flow.next st)
    else
      let offset : Pos := ⟨(x : ℚ) + 1 / 2, (y : ℚ) + 1 / 2⟩
      let pixel := probeColor current offset
      let st : WorkerState :=
        { st with bits := Function.update st.bits st.data pixel, data := st.data + 1,
                  evaluated := st.evaluated + 1 }
      match cancellationCheck flags st with
      | Flow.ret st => some (Flow.ret st)
      | Flow.next st => preciseXLoop current flags y fuel (x + 1) st

/-- The outer loop `for (size_t y = y0; y != y1; ++y)` of the scalar
`workerPrecise` (line 252).  The first argument is the fuel handed to each
inner loop, the first explicit argument the fuel of this loop. -/
def preciseYLoop (current : WorkerSettings) (flags : Nat → Bool) (fuel0 y1 : Nat) :
    Nat → Nat → WorkerState → Option Flow
  | 0, _, _ => none
  | fuel + 1, y, st =>
    if y = y1 then some (Flow.next st)
    else
      match preciseXLoop current flags y fuel0 0 st with
      | none => none
      | some (Flow.ret st) => some (Flow.ret st)
      | some (Flow.next st) => preciseYLoop current flags fuel0 y1 fuel (y + 1) st

/-- The worker `Renderer::workerPrecise(y0, y1)`, scalar build (lines 205-209
and 252-273), run on the pixel memory `bits` of a buffer of size
`current.size`.  The result is `none` when the fuel runs out and the final
state otherwise. -/
def workerPrecise (current : WorkerSettings) (flags : Nat → Bool) (fuel : Nat)
    (y0 y1 : Nat) (bits : Nat → Nat) : Option WorkerState :=
  let st : WorkerState :=
    { bits := bits, data := y0 * current.size.width, pixelsCnt := 0, evaluated := 0 }
  match preciseYLoop current flags fuel y1 fuel y0 st with
  | none => none
  | some (Flow.ret st) => some st
  | some (Flow.next st) => some st

/-- The request of the end-to-end scenario of the specification, as the
controller holds it: a 100 × 100 image, scale 0.01, centre `(-0.5, 0)`,
budget 256, epsilon `min (scale, 0.001)`. -/
def sampleCurrent : WorkerSettings :=
  { threadsCount := 4, iterationsCount := 256, threadsCountAuto := false,
    iterationsCountAuto := false, frameSeqId := 1, originalSize := ⟨100, 100⟩,
    size := ⟨100, 100⟩, offset := ⟨-1 / 2, 0⟩, c := ⟨0, 0⟩, scale := 1 / 100,
    scaleLog := 1, lowResolutionOnly := false, EPS := 1 / 1000 }

/-- Subtraction of `size_t` values, which wraps modulo `2 ^ 64`. -/
def wsub (a b : Nat) : Nat := (a + (2 ^ 64 - b % 2 ^ 64)) % 2 ^ 64

/-- The innermost loop `for (; j < x_next; ++j) *data++ = pixel;` of
`workerImprecise` (lines 180-182, the build without AVX stores); the first
explicit argument is the number of iterations left, `x_next - j`.  It
returns the memory and the pointer. -/
def fillRowLoop (pixel : Nat) : Nat → (Nat → Nat) → Nat → (Nat → Nat) × Nat
  | 0, bits, data => (bits, data)
  | left + 1, bits, data => fillRowLoop pixel left (Function.update bits data pixel) (data + 1)

/-- The loop `for (size_t i = y, j = x; i != y_next; ++i, j = x)` of
`workerImprecise` (lines 174-186), which paints one block line by line and
moves the pointer to the next line with `data += buffer.width() - x_next + x`.
The first explicit argument is the fuel. -/
def fillBlockLoop (width x x_next y_next pixel : Nat) :
    Nat → Nat → (Nat → Nat) → Nat → Option ((Nat → Nat) × Nat)
  | 0, _, _, _ => none
  | fuel + 1, i, bits, data =>
    if i = y_next then some (bits, data)
    else
      let r := fillRowLoop pixel (x_next - x) bits data
      let data := r.2 + (width - x_next + x)
      fillBlockLoop width x x_next y_next pixel fuel (i + 1) r.1 data

/-- The loop `for (size_t x = 0, x_next; x != (size_t) buffer.width(); x = x_next)`
of `workerImprecise` (lines 151-198).  After a block is painted the pointer is
rewound with `data += (x_next - x) - downscaledPixelHeight`, an unsigned
subtraction that wraps. -/
def impreciseXLoop (current : WorkerSettings) (flags : Nat → Bool) (fuel0 y y_next
    downscaledPixelHeight : Nat) : Nat → Nat → WorkerState → Option Flow
  | 0, _, _ => none
  | fuel + 1, x, st =>
    if x = current.size.width then some (Flow.next st)
    else
      let downscaleOffset : ℚ := (DOWNSCALE_LEVEL : ℚ) * (1 / 2)
      let offset : Pos := ⟨(x : ℚ) + downscaleOffset, (y : ℚ) + downscaleOffset⟩
      let pixel := probeColor current offset
      let x_next := min (x + DOWNSCALE_LEVEL) current.size.width
      match fillBlockLoop current.size.width x x_next y_next pixel fuel0 y st.bits st.data with
      | none => none
      | some (bits, data) =>
        let data := (data + wsub (x_next - x) downscaledPixelHeight) % 2 ^ 64
        let st : WorkerState :=
          { st with bits := bits, data := data, evaluated := st.evaluated + 1 }
        match cancellationCheck flags st with
        | Flow.ret st => some (Flow.ret st)
        | Flow.next st =>
          impreciseXLoop current flags fuel0 y y_next downscaledPixelHeight fuel x_next st

/-- The loop `for (size_t y = y0, y_next; y != y1; y = y_next)` of
`workerImprecise` (lines 145-202). -/
def impreciseYLoop (current : WorkerSettings) (flags : Nat → Bool) (fuel0 y1 : Nat) :
    Nat → Nat → WorkerState → Option Flow
  | 0, _, _ => none
  | fuel + 1, y, st =>
    if y = y1 then some (Flow.next st)
    else
      let newLineTransition := (DOWNSCALE_LEVEL - 1) * current.size.width
      let y_next := min (y + DOWNSCALE_LEVEL) y1
      let downscaledPixelHeight := current.size.width * wsub y_next y
      match impreciseXLoop current flags fuel0 y y_next downscaledPixelHeight fuel0 0 st with
      | none => none
      | some (Flow.ret st) => some (Flow.ret st)
      | some (Flow.next st) =>
        impreciseYLoop current flags fuel0 y1 fuel y_next
          { st with data := st.data + newLineTransition }

/-- The worker `Renderer::workerImprecise(y0, y1)` (lines 136-203), run on the
pixel memory `bits` of a buffer of size `current.size`.  The result is `none`
when the fuel runs out and the final state otherwise. -/
def workerImprecise (current : WorkerSettings) (flags : Nat → Bool) (fuel : Nat)
    (y0 y1 : Nat) (bits : Nat → Nat) : Option WorkerState :=
  let st : WorkerState :=
    { bits := bits, data := y0 * current.size.width, pixelsCnt := 0, evaluated := 0 }
  match impreciseYLoop current flags fuel y1 fuel y0 st with
  | none => none
  | some (Flow.ret st) => some st
  | some (Flow.next st) => some st

/-- The colour `workerImprecise`, started at row `y0`, gives the pixel at
offset `k`: that of the centre of the block of the pixel, blocks being counted
from row `y0` and column 0. -/
def coarsePixel (current : WorkerSettings) (y0 k : Nat) : Nat :=
  probeColor current
    ⟨((4 * (k % current.size.width / 4) : Nat) : ℚ) + 2,
      ((y0 + 4 * ((k / current.size.width - y0) / 4) : Nat) : ℚ) + 2⟩

/-- The position of the block of the pixel at offset `k` in the order in
which `workerImprecise`, started at row `y0`, evaluates the blocks. -/
def blockIndex (width y0 k : Nat) : Nat :=
  (k / width - y0) / 4 * ((width + 3) / 4) + k % width / 4

/-! ### Vocabulary for the worker theorems -/

/-- The state a loop body ended in. -/
def Flow.st : Flow → WorkerState
  | Flow.next st => st
  | Flow.ret st => st

/-- Whether the worker has executed `return`. -/
def Flow.isRet : Flow → Bool
  | Flow.next _ => false
  | Flow.ret _ => true

/-- The flag reads between evaluation counts `e0` and `e1`: every check
strictly between them (a check happens at each positive multiple of
`DROPPED_FRAME_CHECK_THRESHOLD`) read `false`; if the worker returned
(`r = true`) then `e1` is a check that read `true`, and otherwise a check at
`e1` read `false`. -/
def Checks (flags : Nat → Bool) (e0 e1 : Nat) (r : Bool) : Prop :=
  (∀ e, e0 < e → e < e1 → DROPPED_FRAME_CHECK_THRESHOLD ∣ e → flags e = false) ∧
  (r = true → e0 < e1 ∧ DROPPED_FRAME_CHECK_THRESHOLD ∣ e1 ∧ flags e1 = true) ∧
  (r = false → e0 < e1 → DROPPED_FRAME_CHECK_THRESHOLD ∣ e1 → flags e1 = false)

/-- The memory `b'` is `b` with the offsets of `S` overwritten by the values
`P`. -/
def Written (P : Nat → Nat) (S : Nat → Prop) (b b' : Nat → Nat) : Prop :=
  ∀ k, (S k → b' k = P k) ∧ (¬ S k → b' k = b k)

/-- The colour of the pixel centre at offset `k` of a buffer of the width of
`current.size`: column `k % width`, row `k / width`. -/
def precisePixel (current : WorkerSettings) (k : Nat) : Nat :=
  probeColor current
    ⟨((k % current.size.width : Nat) : ℚ) + 1 / 2, ((k / current.size.width : Nat) : ℚ) + 1 / 2⟩

/-! ### The loop variables of the evaluator, iteration by iteration -/

/-- The loop variables `z`, `z_old` and `period` of `approxStepsPower2`. -/
structure LoopVars where
  z : Pos
  z_old : Pos
  period : Nat

/-- The loop variables of a cold-started `approxStepsPower2` after `k` passes
through the loop body in which neither `return` was taken: the body computes
`z_new`, assigns it to `z`, increments `period`, and when
`period > PERIODICITY_CHECK_THRESHOLD` resets `period` and assigns `z` to
`z_old` (lines 345-360). -/
def loopVarsAfter (c : Pos) : Nat → LoopVars
  | 0 => ⟨⟨0, 0⟩, ⟨0, 0⟩, 0⟩
  | k + 1 =>
    let s := loopVarsAfter c k
    let z_sqr : Pos := ⟨s.z.x * s.z.x, s.z.y * s.z.y⟩
    let z_new : Pos := ⟨z_sqr.x - z_sqr.y + c.x, (2 * s.z.x) * s.z.y + c.y⟩
    let period := s.period + 1
    if period > PERIODICITY_CHECK_THRESHOLD then ⟨z_new, z_new, 0⟩
    else ⟨z_new, s.z_old, period⟩

/-! ## Settings and requests (`Renderer::setSettings`, `Renderer::getSettings`,
`Renderer::iterationsCountAuto`, `Renderer::threadsCountAuto`,
`Renderer::request`, lines 12-74) -/

/-- The struct `mandelbrot::RendererSettings`. -/
structure RendererSettings where
  threadsCount : Nat
  iterationsCount : Nat
  threadsCountAuto : Bool
  iterationsCountAuto : Bool
deriving DecidableEq

/-- The Qt function `qBound(min, val, max)`, which is `qMax(min, qMin(max, val))`. -/
def qBound (min val max : Nat) : Nat := Nat.max min (Nat.min max val)

/-- The function `Renderer::iterationsCountAuto(size_t scaleLog)`:
`qBound(MIN_ITERATIONS_BY_PIXEL, (size_t) floor(30 * scaleLog), MAX_ITERATIONS_BY_PIXEL)`.
The parameter is a `size_t`, so `30 * scaleLog` is an integer and `floor`
leaves it as it is. -/
def iterationsCountAuto (scaleLog : Nat) : Nat :=
  qBound MIN_ITERATIONS_BY_PIXEL (30 * scaleLog) MAX_ITERATIONS_BY_PIXEL

/-- The function `Renderer::threadsCountAuto()`:
`std::min((size_t) QThread::idealThreadCount(), MAX_THREADS_COUNT)`. -/
def threadsCountAuto (idealThreadCount : Nat) : Nat :=
  min idealThreadCount (MAX_THREADS_COUNT idealThreadCount)

/-- The function `Renderer::setSettings(rs)`: the value it stores in
`settings`. -/
def setSettings (idealThreadCount : Nat) (rs : RendererSettings) : RendererSettings :=
  let rs :=
    if rs.threadsCountAuto then { rs with threadsCount := threadsCountAuto idealThreadCount }
    else rs
  let threadsCount := qBound 1 rs.threadsCount (MAX_THREADS_COUNT idealThreadCount)
  let rs := { rs with threadsCount := threadsCount }
  let iterationsCount :=
    qBound MIN_ITERATIONS_BY_PIXEL rs.iterationsCount MAX_ITERATIONS_BY_PIXEL
  let rs := { rs with iterationsCount := iterationsCount }
  rs

/-- The function `Renderer::getSettings()`, from the values of the atomics
`settings` and `requested`. -/
def getSettings (settings : RendererSettings) (requested : WorkerSettings) : RendererSettings :=
  let tmp := settings
  if tmp.iterationsCountAuto then { tmp with iterationsCount := requested.iterationsCount }
  else tmp

/-- The converting constructor `WorkerSettings(RendererSettings const& rs)`.
It leaves the other fields unset; they are written as zero here, and
`request` assigns all of them but `size` and `c`, which `runWorkers` assigns. -/
def WorkerSettings.ofRendererSettings (rs : RendererSettings) : WorkerSettings :=
  { threadsCount := rs.threadsCount, iterationsCount := rs.iterationsCount,
    threadsCountAuto := rs.threadsCountAuto, iterationsCountAuto := rs.iterationsCountAuto,
    frameSeqId := 0, originalSize := ⟨0, 0⟩, size := ⟨0, 0⟩, offset := ⟨0, 0⟩, c := ⟨0, 0⟩,
    scale := 0, scaleLog := 0, lowResolutionOnly := false, EPS := 0 }

/-- The function `Renderer::request(frameSeqId, offset, size, scale, scaleLog,
lowResOnly)` up to `requested.store` (lines 15-26): the value it publishes,
from the value of the atomic `settings`.  The call
`iterationsCountAuto(ws.scaleLog)` converts the `double` to the `size_t`
parameter, which truncates it. -/
def request (settings : RendererSettings) (frameSeqId : Nat) (offset : Pos) (size : QSize)
    (scale scaleLog : ℚ) (lowResOnly : Bool) : WorkerSettings :=
  let ws := WorkerSettings.ofRendererSettings settings
  let ws := { ws with offset := offset, originalSize := size, scale := scale,
                      scaleLog := scaleLog, frameSeqId := frameSeqId,
                      lowResolutionOnly := lowResOnly }
  let ws := { ws with EPS := min ws.scale (1 / 1000) }
  if ws.iterationsCountAuto then
    { ws with iterationsCount := iterationsCountAuto ⌊ws.scaleLog⌋₊ }
  else ws

/-! ## The controller protocol (`Renderer::request`, `Renderer::stop`,
`Renderer::run`, `Renderer::runWorkers` and the cancellation checks of the
workers)

The renderer is three kinds of threads acting on the atomics `shutdown`,
`dropFrame`, `settings` and `requested`.  Each thread is a program counter;
an atomic step of the system is one load or store of one thread.  The steps
are interleaved in any order (sequential consistency). -/

/-- Where the calling thread is inside `request` or `stop`. -/
inductive CallerPc where
  /-- Outside any call (in its event loop). -/
  | idle
  /-- In `request`, after `requested.store`, before `isRunning()` (line 28). -/
  | requestIsRunning
  /-- In `request`, before `shutdown.store(false)` (line 29). -/
  | requestShutdown
  /-- In `request`, before `dropFrame.store(false)` (line 30). -/
  | requestDropFrame
  /-- In `request`, before `start` (line 33). -/
  | requestStart
  /-- In `request`, before `dropFrame.store(true)` (line 35). -/
  | requestRetarget
  /-- In `stop`, after `shutdown.store(true)`, before `dropFrame.store(true)`
  (line 42). -/
  | stopDropFrame
deriving DecidableEq

/-- Where a worker thread is. -/
inductive WorkerPc where
  /-- Inside its loops. -/
  | working
  /-- In a cancellation check, after `shutdown` was read `false`, before
  `dropFrame` is read (lines 193, 266). -/
  | checking
  /-- Has executed `return` at a cancellation check, with part of its strip
  not written. -/
  | returned
  /-- Has fallen out of its loops: its strip is written. -/
  | finished
deriving DecidableEq

/-- Whether the worker thread has ended, so that `join` returns. -/
def WorkerPc.ended : WorkerPc → Bool
  | WorkerPc.returned => true
  | WorkerPc.finished => true
  | _ => false

/-- Whether the worker has written its whole strip. -/
def WorkerPc.complete : WorkerPc → Bool
  | WorkerPc.finished => true
  | _ => false

/-- Where the controller thread is inside `run`. -/
inductive ControllerPc where
  /-- The thread was not started, or `run` has returned. -/
  | notRunning
  /-- Before `shutdown.load` of the `while` condition (line 79). -/
  | loopHead
  /-- Before `current = requested.load` (line 80). -/
  | loadRequest
  /-- In `runWorkers`, workers launched, `join` pending (lines 117-124). -/
  | pass (downscaled : Bool) (workers : List WorkerPc)
  /-- In `runWorkers`, all workers joined, before `dropFrame.load` (line 126);
  `complete` records whether every worker has written its whole strip. -/
  | deliver (downscaled : Bool) (complete : Bool)
  /-- In `runWorkers`, blocked in `emit frameDelivery` (line 128) until the
  calling thread has run the slot. -/
  | emitting (downscaled : Bool)
  /-- Before the condition of line 83. -/
  | gate
  /-- Before `dropFrame.load` of the wait loop (line 89), or blocked in
  `cv.wait`. -/
  | waiting
  /-- Before `dropFrame.store(false)` (line 92). -/
  | resetDropFrame
deriving DecidableEq

/-- A frame handed to `frameDelivery`: the pass flag and the sequence id of
the signal, and whether every worker of the pass had written its whole
strip. -/
structure FrameEvent where
  downscaled : Bool
  frameSeqId : Nat
  complete : Bool
deriving DecidableEq

/-- The state of the renderer: the atomics, `current`, the program counters
and the frames emitted so far, oldest first. -/
structure Sys where
  settings : RendererSettings
  requested : WorkerSettings
  current : WorkerSettings
  shutdown : Bool
  dropFrame : Bool
  caller : CallerPc
  controller : ControllerPc
  delivered : List FrameEvent

/-- The atomic steps. -/
inductive Action where
  /-- The calling thread, idle, enters `request` and executes it up to
  `requested.store` (lines 15-26). -/
  | callRequest (frameSeqId : Nat) (offset : Pos) (size : QSize) (scale scaleLog : ℚ)
      (lowResOnly : Bool)
  /-- The calling thread, idle, enters `stop` and executes
  `shutdown.store(true)` (line 41). -/
  | callStop
  /-- The calling thread, idle, executes `setSettings(rs)`. -/
  | callSetSettings (idealThreadCount : Nat) (rs : RendererSettings)
  /-- The calling thread executes the next step of the call it is in. -/
  | callerStep
  /-- The controller thread executes its next step. -/
  | controllerStep
  /-- Worker `k` executes the next load of a cancellation check. -/
  | workerCheck (k : Nat)
  /-- Worker `k` falls out of its loops. -/
  | workerFinish (k : Nat)

/-- The next step of the calling thread inside `request` or `stop`. -/
def callerStep (s : Sys) : Sys :=
  match s.caller with
  | CallerPc.idle => s
  | CallerPc.requestIsRunning =>
    if s.controller = ControllerPc.notRunning then { s with caller := CallerPc.requestShutdown }
    else { s with caller := CallerPc.requestRetarget }
  | CallerPc.requestShutdown => { s with shutdown := false, caller := CallerPc.requestDropFrame }
  | CallerPc.requestDropFrame => { s with dropFrame := false, caller := CallerPc.requestStart }
  | CallerPc.requestStart =>
    if s.controller = ControllerPc.notRunning then
      { s with controller := ControllerPc.loopHead, caller := CallerPc.idle }
    else { s with caller := CallerPc.idle }
  | CallerPc.requestRetarget => { s with dropFrame := true, caller := CallerPc.idle }
  | CallerPc.stopDropFrame => { s with dropFrame := true, caller := CallerPc.idle }

/-- The next step of the controller thread inside `run` and `runWorkers`. -/
def controllerStep (s : Sys) : Sys :=
  match s.controller with
  | ControllerPc.notRunning => s
  | ControllerPc.loopHead =>
    if s.shutdown then { s with controller := ControllerPc.notRunning }
    else { s with controller := ControllerPc.loadRequest }
  | ControllerPc.loadRequest =>
    let current := prepareCurrent s.requested DOWNSCALED_IMAGE_SIZE_MULTIPLIER
    let workers := List.replicate current.threadsCount WorkerPc.working
    { s with current := current, controller := ControllerPc.pass true workers }
  | ControllerPc.pass downscaled workers =>
    if workers.all WorkerPc.ended then
      { s with controller := ControllerPc.deliver downscaled (workers.all WorkerPc.complete) }
    else s
  | ControllerPc.deliver downscaled complete =>
    if s.dropFrame then
      { s with controller := if downscaled then ControllerPc.gate else ControllerPc.waiting }
    else
      let frame : FrameEvent := ⟨downscaled, s.current.frameSeqId, complete⟩
      { s with delivered := s.delivered ++ [frame], controller := ControllerPc.emitting downscaled }
  | ControllerPc.emitting downscaled =>
    if s.caller = CallerPc.idle then
      { s with controller := if downscaled then ControllerPc.gate else ControllerPc.waiting }
    else s
  | ControllerPc.gate =>
    if !s.current.lowResolutionOnly && !s.dropFrame then
      let current := prepareCurrent s.current 1
      let workers := List.replicate current.threadsCount WorkerPc.working
      { s with current := current, controller := ControllerPc.pass false workers }
    else { s with controller := ControllerPc.waiting }
  | ControllerPc.waiting =>
    if s.dropFrame then { s with controller := ControllerPc.resetDropFrame } else s
  | ControllerPc.resetDropFrame =>
    { s with dropFrame := false, controller := ControllerPc.loopHead }

/-- The next load of the cancellation check
`shutdown.load() || dropFrame.load()` of worker `k`. -/
def workerCheck (k : Nat) (s : Sys) : Sys :=
  match s.controller with
  | ControllerPc.pass downscaled workers =>
    match workers[k]? with
    | some WorkerPc.working =>
      let pc := if s.shutdown then WorkerPc.returned else WorkerPc.checking
      { s with controller := ControllerPc.pass downscaled (workers.set k pc) }
    | some WorkerPc.checking =>
      let pc := if s.dropFrame then WorkerPc.returned else WorkerPc.working
      { s with controller := ControllerPc.pass downscaled (workers.set k pc) }
    | _ => s
  | _ => s

/-- Worker `k` falls out of its loops. -/
def workerFinish (k : Nat) (s : Sys) : Sys :=
  match s.controller with
  | ControllerPc.pass downscaled workers =>
    match workers[k]? with
    | some WorkerPc.working =>
      { s with controller := ControllerPc.pass downscaled (workers.set k WorkerPc.finished) }
    | _ => s
  | _ => s

/-- One atomic step; an action that is not enabled leaves the state as it
is. -/
def step (a : Action) (s : Sys) : Sys :=
  match a with
  | Action.callRequest frameSeqId offset size scale scaleLog lowResOnly =>
    if s.caller = CallerPc.idle then
      let ws := request s.settings frameSeqId offset size scale scaleLog lowResOnly
      { s with requested := ws, caller := CallerPc.requestIsRunning }
    else s
  | Action.callStop =>
    if s.caller = CallerPc.idle then { s with shutdown := true, caller := CallerPc.stopDropFrame }
    else s
  | Action.callSetSettings idealThreadCount rs =>
    if s.caller = CallerPc.idle then { s with settings := setSettings idealThreadCount rs }
    else s
  | Action.callerStep => callerStep s
  | Action.controllerStep => controllerStep s
  | Action.workerCheck k => workerCheck k s
  | Action.workerFinish k => workerFinish k s

/-- The state after a sequence of atomic steps. -/
def exec (actions : List Action) (s : Sys) : Sys :=
  actions.foldl (fun s a => step a s) s

/-- The state of a renderer that was constructed and not yet used: both
flags are `false` and no thread runs; `settings` and `requested` hold whatever
their constructors left. -/
def initial (settings : RendererSettings) (requested : WorkerSettings) : Sys :=
  { settings := settings, requested := requested, current := requested, shutdown := false,
    dropFrame := false, caller := CallerPc.idle, controller := ControllerPc.notRunning,
    delivered := [] }

/-! ### Vocabulary for the protocol theorems -/

/-- The calling thread is in the branch of `request` that starts the
controller thread (lines 29-33). -/
def CallerPc.isStarting : CallerPc → Bool
  | CallerPc.requestShutdown => true
  | CallerPc.requestDropFrame => true
  | CallerPc.requestStart => true
  | _ => false

/-- The controller is between the decision of line 126 for the coarse pass
and the condition of line 83. -/
def ControllerPc.isAfterCoarse : ControllerPc → Bool
  | ControllerPc.gate => true
  | ControllerPc.emitting true => true
  | _ => false

/-- The controller is inside `runWorkers` for the precise pass. -/
def ControllerPc.isPrecise : ControllerPc → Bool
  | ControllerPc.pass false _ => true
  | ControllerPc.deliver false _ => true
  | ControllerPc.emitting false => true
  | _ => false

/-- A coarse frame with sequence id `id` is among the emitted frames. -/
def CoarseDelivered (id : Nat) (frames : List FrameEvent) : Prop :=
  ∃ c, (⟨true, id, c⟩ : FrameEvent) ∈ frames

/-- Every precise frame in the list is preceded by a coarse frame with the
same sequence id. -/
def CoarseFirst (frames : List FrameEvent) : Prop :=
  ∀ (i id : Nat) (c : Bool), frames[i]? = some (FrameEvent.mk false id c) →
    ∃ (j : Nat) (c' : Bool), j < i ∧ frames[j]? = some (FrameEvent.mk true id c')

/-- The invariant of the protocol: the calling thread is in the starting
branch of `request` only while the controller thread does not run; after a
coarse pass that was not delivered `dropFrame` is still `true`; the precise
pass runs only after the coarse frame of the same request was emitted; and
the emitted frames are in coarse-first order. -/
def Inv (s : Sys) : Prop :=
  (s.caller.isStarting = true → s.controller = ControllerPc.notRunning) ∧
  (s.controller.isAfterCoarse = true →
    s.dropFrame = true ∨ CoarseDelivered s.current.frameSeqId s.delivered) ∧
  (s.controller.isPrecise = true → CoarseDelivered s.current.frameSeqId s.delivered) ∧
  CoarseFirst s.delivered

/-! ### The reference loop (specification side) -/

/-- The loop `for (size_t i = 0; i < iterationsCount; ++i)` of the "basic
check" quoted in the comment of `approxStepsPower2` (lines 322-329):
`if (z.imag() * z.imag() + z.real() * z.real() >= 4.) return i; z = z * z + c;`,
with `z * z` the product of `std::complex<double>`.  The first explicit
argument is the number of iterations left.  Falling out of the loop returns
`iterationsCount`, the value the claim takes for "inside". -/
def basicCheckLoop (c : Pos) (iterationsCount : Nat) : Nat → Nat → Pos → Nat
  | 0, _, _ => iterationsCount
  | left + 1, i, z =>
    if z.y * z.y + z.x * z.x ≥ 4 then i
    else basicCheckLoop c iterationsCount left (i + 1)
      ⟨z.x * z.x - z.y * z.y + c.x, z.x * z.y + z.y * z.x + c.y⟩

/-- The naive escape-time loop: the "basic check" started at `z = 0`. -/
def basicCheck (c : Pos) (iterationsCount : Nat) : Nat :=
  basicCheckLoop c iterationsCount iterationsCount 0 ⟨0, 0⟩

end Renderer

/-! ## The viewport (`viewport.h`, `viewport.cpp`)

`Viewport::updateFrame` is the slot connected to `Renderer::frameDelivery`.
The widget is modelled by its data members; the calls `update()` and
`emit widgetInfoDelivery(..)` are recorded as a list of effects. -/

/-- A `QPointF`. -/
structure QPointF where
  x : ℚ
  y : ℚ
deriving DecidableEq

/-- A `QImage`: `none` is the null image, otherwise the size and the pixel
data. -/
abbrev QImage := Option (Renderer.QSize × List Nat)

/-- A `QPixmap`: `none` is the null pixmap `QPixmap()`. -/
abbrev QPixmap := Option (Renderer.QSize × List Nat)

/-- `QPixmap::fromImage`. -/
def QPixmap.fromImage (image : QImage) : QPixmap := image

/-- `QPixmap::isNull`. -/
def QPixmap.isNull (pixmap : QPixmap) : Bool := pixmap.isNone

namespace mandelbrot

/-- `mandelbrot::Frame` of `viewport.h`. -/
structure Frame where
  frame : QPixmap
  dragOffset : QPointF
  scale : ℚ
  savedDragOffset : QPointF
  savedScale : ℚ

/-- `Frame::restore`: `dragOffset -= savedDragOffset; dragOffset *= savedScale;
scale /= savedScale; savedDragOffset = QPointF(); savedScale = 1;`. -/
def Frame.restore (f : Frame) : Frame :=
  let d1 : QPointF := ⟨f.dragOffset.x - f.savedDragOffset.x, f.dragOffset.y - f.savedDragOffset.y⟩
  let d2 : QPointF := ⟨d1.x * f.savedScale, d1.y * f.savedScale⟩
  { f with dragOffset := d2, scale := f.scale / f.savedScale, savedDragOffset := ⟨0, 0⟩, savedScale := 1 }

/-- `Frame::setPixmap`. -/
def Frame.setPixmap (f : Frame) (frame : QPixmap) : Frame :=
  { f with frame := frame }

/-- `mandelbrot::ViewportInfo`. -/
structure ViewportInfo where
  offset : Pos
  scaleLog : ℚ
  state : RendererState
  frameSeqId : Nat

end mandelbrot

/-- The data members of `Viewport`. -/
structure Viewport where
  scale : ℚ
  centerOffset : mandelbrot.Pos
  scaleLog : ℚ
  downscaledFrame : mandelbrot.Frame
  detailedFrame : mandelbrot.Frame
  delayedFrame : QPixmap
  prevDragPos : QPointF
  cursorDependentZoom : Bool
  lowResolution : Bool
  rendererState : mandelbrot.RendererState
  renderer : Renderer.Sys
  frameSeqId : Nat

namespace Viewport

/-- What a slot of the viewport does besides changing the data members. -/
inductive Effect where
  /-- The call `update()`, which schedules a repaint. -/
  | update
  /-- The signal `widgetInfoDelivery`. -/
  | widgetInfoDelivery (info : mandelbrot.ViewportInfo)

/-- `Viewport::getOffline`. -/
def getOffline (v : Viewport) : Bool :=
  match v.rendererState with
  | mandelbrot.RendererState.OFFLINE => true
  | _ => false

/-- `Viewport::broadcastWidgetInfo`. -/
def broadcastWidgetInfo (v : Viewport) : Effect :=
  Effect.widgetInfoDelivery ⟨v.centerOffset, v.scaleLog, v.rendererState, v.frameSeqId⟩

/-- The body of `if (!getOffline()) { .. }` in `Viewport::updateFrame`, up to
the assignment of `rendererState` (lines 262-283). -/
def acceptFrame (v : Viewport) (frame : QImage) (downscaled : Bool) : Viewport :=
  let v1 : Viewport :=
    if downscaled then
      if !v.lowResolution then { v with delayedFrame := QPixmap.fromImage frame }
      else { v with downscaledFrame := (v.downscaledFrame.setPixmap (QPixmap.fromImage frame)).restore }
    else
      let v2 : Viewport := { v with detailedFrame := (v.detailedFrame.setPixmap (QPixmap.fromImage frame)).restore }
      if !v2.delayedFrame.isNull then
        { v2 with downscaledFrame := (v2.downscaledFrame.setPixmap v2.delayedFrame).restore, delayedFrame := none }
      else v2
  if v1.lowResolution || !downscaled then { v1 with rendererState := mandelbrot.RendererState.READY }
  else v1

/-- `Viewport::updateFrame` (lines 255-288): the new data members and the
effects, in the order in which they happen. -/
def updateFrame (v : Viewport) (frame : QImage) (downscaled : Bool) (frameSeqId : Nat) :
    Viewport × List Effect :=
  if frameSeqId ≠ v.frameSeqId then (v, [])
  else if !v.getOffline then
    let v1 := v.acceptFrame frame downscaled
    (v1, [Effect.update, v1.broadcastWidgetInfo])
  else (v, [v.broadcastWidgetInfo])

end Viewport

namespace Renderer

open mandelbrot

/-! ## Theorems: strip partitioning -/

theorem launchLoop_length (sh H : Nat) (left start : Nat) :
    (launchLoop sh H left start).length = left := by
  induction left generalizing start with
  | zero => rfl
  | succ k ih => simp [launchLoop, ih]

theorem launchLoop_getElem? (sh H : Nat) (left start i : Nat) (hi : i < left) :
    (launchLoop sh H left start)[i]? =
      some (start + i * sh, min (start + i * sh + sh) H) := by
  induction left generalizing start i with
  | zero => omega
  | succ k ih =>
    cases i with
    | zero => simp [launchLoop]
    | succ j =>
      have hj : j < k := by omega
      simp only [launchLoop, List.getElem?_cons_succ]
      rw [ih (start + sh) j hj]
      have e : start + sh + j * sh = start + (j + 1) * sh := by ring
      rw [e]

/-- The launching loop hands worker `i` the range of the closed form. -/
theorem strips_getElem? (H T i : Nat) (hi : i < T) :
    (strips H T)[i]? = some (stripFrom H T i, stripTo H T i) := by
  unfold strips stripFrom stripTo
  rw [launchLoop_getElem? _ _ _ _ _ hi]
  simp [stripFrom]

theorem stripHeight_eq (H T : Nat) :
    stripHeight H T = 4 * ((H + T - 1) / T / 4 + 1) := by
  unfold stripHeight DOWNSCALE_LEVEL
  simp only
  generalize (H + T - 1) / T = q
  omega

theorem stripHeight_dvd (H T : Nat) : 4 ∣ stripHeight H T :=
  ⟨_, stripHeight_eq H T⟩

theorem stripHeight_pos (H T : Nat) : 0 < stripHeight H T := by
  rw [stripHeight_eq]
  generalize (H + T - 1) / T = q
  omega

theorem le_mul_ceil (H T : Nat) (hT : 1 ≤ T) : H ≤ T * ((H + T - 1) / T) := by
  have h1 := Nat.div_add_mod (H + T - 1) T
  have h2 := Nat.mod_lt (H + T - 1) (show T > 0 by omega)
  omega

theorem ceil_lt_stripHeight (H T : Nat) : (H + T - 1) / T < stripHeight H T := by
  rw [stripHeight_eq]
  generalize (H + T - 1) / T = q
  omega

theorem le_mul_stripHeight (H T : Nat) (hT : 1 ≤ T) : H ≤ T * stripHeight H T := by
  have h1 := le_mul_ceil H T hT
  have h2 := ceil_lt_stripHeight H T
  have h3 : T * ((H + T - 1) / T) ≤ T * stripHeight H T :=
    Nat.mul_le_mul_left T (Nat.le_of_lt h2)
  omega

/-- C1 (claim as stated, refuted): for height 5 and 4 threads the launched
ranges are `[0,4)`, `[4,5)`, `(8,5)`, `(12,5)`; strip 1 is not the last strip
(index 3) and its height 1 is not a multiple of `DOWNSCALE_LEVEL`. -/
theorem strips_height_counterexample :
    strips 5 4 = [(0, 4), (4, 5), (8, 5), (12, 5)] ∧
      stripFrom 5 4 1 = 4 ∧ stripTo 5 4 1 = 5 ∧ 1 < 4 ∧ 1 ≠ 4 - 1 ∧
      ¬ DOWNSCALE_LEVEL ∣ stripTo 5 4 1 - stripFrom 5 4 1 := by
  decide

/-- C1 (amended): for every height `H ≥ 1` and thread count `T ≥ 1` the loop
launches `T` ranges, range `i` being `[i * stripHeight, min (i * stripHeight +
stripHeight) H)`; as sets of rows they are pairwise disjoint and their union is
exactly `[0, H)`; every strip whose end `from + stripHeight` is not clipped at
`H` has height `stripHeight`, a multiple of `DOWNSCALE_LEVEL`.  So among the
strips that hold a row only the one that contains row `H - 1` can have a
height that is not a multiple of 4, and it need not be strip `T - 1`. -/
theorem strips_partition (H T : Nat) (_hH : 1 ≤ H) (hT : 1 ≤ T) :
    (strips H T).length = T ∧
    (∀ i, i < T → (strips H T)[i]? = some (stripFrom H T i, stripTo H T i)) ∧
    (∀ i j y, i < j → j < T →
      ¬ ((stripFrom H T i ≤ y ∧ y < stripTo H T i) ∧
          (stripFrom H T j ≤ y ∧ y < stripTo H T j))) ∧
    (∀ y, y < H ↔ ∃ i, i < T ∧ stripFrom H T i ≤ y ∧ y < stripTo H T i) ∧
    (∀ i, i < T → stripFrom H T i + stripHeight H T ≤ H →
      stripTo H T i - stripFrom H T i = stripHeight H T ∧
        DOWNSCALE_LEVEL ∣ stripTo H T i - stripFrom H T i) := by
  have hsh := stripHeight_pos H T
  have hcover := le_mul_stripHeight H T hT
  refine ⟨launchLoop_length _ _ _ _, fun i hi => strips_getElem? H T i hi, ?_, ?_, ?_⟩
  · rintro i j y hij hj ⟨⟨_, h2⟩, ⟨h3, _⟩⟩
    unfold stripTo stripFrom at *
    have h5 : (i + 1) * stripHeight H T ≤ j * stripHeight H T :=
      Nat.mul_le_mul_right _ hij
    have h6 : (i + 1) * stripHeight H T = i * stripHeight H T + stripHeight H T := by ring
    have h7 : y < i * stripHeight H T + stripHeight H T :=
      lt_of_lt_of_le h2 (min_le_left _ _)
    omega
  · intro y
    constructor
    · intro hy
      refine ⟨y / stripHeight H T, ?_, ?_, ?_⟩
      · rw [Nat.div_lt_iff_lt_mul hsh]
        omega
      · unfold stripFrom
        exact Nat.div_mul_le_self y _
      · unfold stripTo stripFrom
        have h1 := Nat.div_add_mod y (stripHeight H T)
        have h2 := Nat.mod_lt y hsh
        have h3 : stripHeight H T * (y / stripHeight H T) = y / stripHeight H T * stripHeight H T :=
          Nat.mul_comm _ _
        exact lt_min (by omega) hy
    · rintro ⟨i, _, _, h3⟩
      exact lt_of_lt_of_le h3 (min_le_right _ _)
  · intro i _ hle
    have h1 : stripTo H T i = stripFrom H T i + stripHeight H T := by
      unfold stripTo
      exact min_eq_left hle
    have h2 : stripTo H T i - stripFrom H T i = stripHeight H T := by omega
    exact ⟨h2, by rw [h2]; exact stripHeight_dvd H T⟩

/-- C1 (witness): the amended statement at height 5 with 4 threads. -/
theorem strips_partition_witness :
    1 ≤ 5 ∧ 1 ≤ 4 ∧ (strips 5 4).length = 4 ∧
      (∀ y, y < 5 ↔ ∃ i, i < 4 ∧ stripFrom 5 4 i ≤ y ∧ y < stripTo 5 4 i) :=
  ⟨by decide, by decide, (strips_partition 5 4 (by decide) (by decide)).1,
    (strips_partition 5 4 (by decide) (by decide)).2.2.2.1⟩

/-- C2 (the code at the failing input): for height 16 and 4 threads the code
computes `stripHeight = 8`, although `ceil (16 / 4) = 4` is itself a multiple
of `DOWNSCALE_LEVEL`, so that the least multiple of 4 that is `≥ ceil (H / T)`
is 4. -/
theorem stripHeight_aligned_input :
    stripHeight 16 4 = 8 ∧ (16 + 4 - 1) / 4 = 4 ∧ DOWNSCALE_LEVEL ∣ 4 ∧
      4 < stripHeight 16 4 := by
  decide


/-! ## Theorems: the escape-time evaluator -/

theorem approxLoop_zero (c : Pos) (n : Nat) (EPS : ℚ) (i : Nat) (z z_sqr z_old : Pos)
    (period : Nat) : approxLoop c n EPS 0 i z z_sqr z_old period = n := rfl

/-- One iteration of the loop, with the new `z` written as `mandelStep c z`. -/
theorem approxLoop_succ (c : Pos) (n : Nat) (EPS : ℚ) (left i : Nat) (z z_old : Pos)
    (period : Nat) :
    approxLoop c n EPS (left + 1) i z ⟨z.x * z.x, z.y * z.y⟩ z_old period =
      if 4 ≤ normSq z then i
      else if |(mandelStep c z).x - z_old.x| < EPS ∧ |(mandelStep c z).y - z_old.y| < EPS then n
      else if PERIODICITY_CHECK_THRESHOLD < period + 1 then
        approxLoop c n EPS left (i + 1) (mandelStep c z)
          ⟨(mandelStep c z).x * (mandelStep c z).x, (mandelStep c z).y * (mandelStep c z).y⟩
          (mandelStep c z) 0
      else
        approxLoop c n EPS left (i + 1) (mandelStep c z)
          ⟨(mandelStep c z).x * (mandelStep c z).x, (mandelStep c z).y * (mandelStep c z).y⟩
          z_old (period + 1) := rfl

theorem orbit_zero (c : Pos) : orbit c 0 = ⟨0, 0⟩ := rfl

theorem orbit_succ (c : Pos) (j : Nat) : orbit c (j + 1) = mandelStep c (orbit c j) := by
  unfold orbit
  rw [Function.iterate_succ_apply']

theorem iterate_orbit (c : Pos) (i j : Nat) :
    (mandelStep c)^[j] (orbit c i) = orbit c (i + j) := by
  unfold orbit
  rw [Nat.add_comm, Function.iterate_add_apply]

/-- What the loop can return when it is entered at step `i` with value `z`:
either the budget, or a step `r ≥ i` at which the iterate started from `z`
first reaches `|z|² ≥ 4`. -/
theorem approxLoop_result (c : Pos) (n : Nat) (EPS : ℚ) :
    ∀ (left i : Nat) (z z_old : Pos) (period : Nat), i + left = n →
      approxLoop c n EPS left i z ⟨z.x * z.x, z.y * z.y⟩ z_old period = n ∨
      (i ≤ approxLoop c n EPS left i z ⟨z.x * z.x, z.y * z.y⟩ z_old period ∧
        approxLoop c n EPS left i z ⟨z.x * z.x, z.y * z.y⟩ z_old period < n ∧
        4 ≤ normSq ((mandelStep c)^[approxLoop c n EPS left i z ⟨z.x * z.x, z.y * z.y⟩
          z_old period - i] z) ∧
        ∀ j, j < approxLoop c n EPS left i z ⟨z.x * z.x, z.y * z.y⟩ z_old period - i →
          normSq ((mandelStep c)^[j] z) < 4) := by
  intro left
  induction left with
  | zero => intro i z z_old period _; left; rfl
  | succ k ih =>
    intro i z z_old period hi
    rw [approxLoop_succ]
    by_cases hesc : 4 ≤ normSq z
    · rw [if_pos hesc]
      right
      refine ⟨le_refl _, by omega, ?_, ?_⟩
      · simpa using hesc
      · intro j hj; omega
    · rw [if_neg hesc]
      by_cases hper : |(mandelStep c z).x - z_old.x| < EPS ∧ |(mandelStep c z).y - z_old.y| < EPS
      · rw [if_pos hper]; left; rfl
      · rw [if_neg hper]
        have key : ∀ (zo : Pos) (p : Nat),
            approxLoop c n EPS k (i + 1) (mandelStep c z)
              ⟨(mandelStep c z).x * (mandelStep c z).x, (mandelStep c z).y * (mandelStep c z).y⟩
              zo p = n ∨
            (i ≤ approxLoop c n EPS k (i + 1) (mandelStep c z)
              ⟨(mandelStep c z).x * (mandelStep c z).x, (mandelStep c z).y * (mandelStep c z).y⟩
              zo p ∧
             approxLoop c n EPS k (i + 1) (mandelStep c z)
              ⟨(mandelStep c z).x * (mandelStep c z).x, (mandelStep c z).y * (mandelStep c z).y⟩
              zo p < n ∧
             4 ≤ normSq ((mandelStep c)^[approxLoop c n EPS k (i + 1) (mandelStep c z)
              ⟨(mandelStep c z).x * (mandelStep c z).x, (mandelStep c z).y * (mandelStep c z).y⟩
              zo p - i] z) ∧
             ∀ j, j < approxLoop c n EPS k (i + 1) (mandelStep c z)
              ⟨(mandelStep c z).x * (mandelStep c z).x, (mandelStep c z).y * (mandelStep c z).y⟩
              zo p - i → normSq ((mandelStep c)^[j] z) < 4) := by
          intro zo p
          rcases ih (i + 1) (mandelStep c z) zo p (by omega) with h | ⟨h1, h2, h3, h4⟩
          · left; exact h
          · right
            generalize approxLoop c n EPS k (i + 1) (mandelStep c z)
              ⟨(mandelStep c z).x * (mandelStep c z).x, (mandelStep c z).y * (mandelStep c z).y⟩
              zo p = r at h1 h2 h3 h4
            have hr : r - i = (r - (i + 1)) + 1 := by omega
            refine ⟨by omega, h2, ?_, ?_⟩
            · rw [hr, Function.iterate_succ_apply]; exact h3
            · intro j hj
              cases j with
              | zero => simpa using lt_of_not_le hesc
              | succ j' =>
                rw [Function.iterate_succ_apply]
                exact h4 j' (by omega)
        by_cases hp : PERIODICITY_CHECK_THRESHOLD < period + 1
        · rw [if_pos hp]; exact key _ _
        · rw [if_neg hp]; exact key _ _

/-- A cold start returns the budget or the first escape step of the orbit. -/
theorem approxStepsPower2_cold (c : Pos) (n : Nat) (EPS : ℚ) :
    approxStepsPower2 ⟨0, 0⟩ 0 c n EPS = n ∨
      (approxStepsPower2 ⟨0, 0⟩ 0 c n EPS < n ∧
        4 ≤ normSq (orbit c (approxStepsPower2 ⟨0, 0⟩ 0 c n EPS)) ∧
        ∀ j, j < approxStepsPower2 ⟨0, 0⟩ 0 c n EPS → normSq (orbit c j) < 4) := by
  have h := approxLoop_result c n EPS (n - 0) 0 ⟨0, 0⟩ ⟨0, 0⟩ 0 (by omega)
  unfold approxStepsPower2
  simp only [Nat.sub_zero] at h ⊢
  rcases h with h | ⟨_, h2, h3, h4⟩
  · left; exact h
  · right; exact ⟨h2, h3, h4⟩


theorem mandelStep_origin (c : Pos) : mandelStep c ⟨0, 0⟩ = c := by
  cases c
  simp [mandelStep]

theorem orbit_one (c : Pos) : orbit c 1 = c := by
  rw [orbit_succ, orbit_zero, mandelStep_origin]

/-- A point with `|c|² ≥ 4` is reported at step 1: the first pass of the loop
tests `z_0 = 0`, the second tests `z_1 = c`; with budget 1 the loop ends after
the first pass and the budget, which is 1 as well, is returned. -/
theorem approxStepsPower2_of_escaped_point (c : Pos) (n : Nat) (EPS : ℚ)
    (hc : 4 ≤ normSq c) (hn : 1 ≤ n) (hEPS : EPS ≤ 1 / 1000) :
    approxStepsPower2 ⟨0, 0⟩ 0 c n EPS = 1 := by
  obtain ⟨m, rfl⟩ : ∃ m, n = m + 1 := ⟨n - 1, by omega⟩
  unfold approxStepsPower2
  simp only [Nat.sub_zero]
  rw [approxLoop_succ, mandelStep_origin]
  have h0 : ¬ 4 ≤ normSq ⟨0, 0⟩ := by norm_num [normSq]
  have hper : ¬ (|c.x - (⟨0, 0⟩ : Pos).x| < EPS ∧ |c.y - (⟨0, 0⟩ : Pos).y| < EPS) := by
    rintro ⟨hx, hy⟩
    simp only [sub_zero] at hx hy
    rw [abs_lt] at hx hy
    unfold normSq at hc
    nlinarith [hx.1, hx.2, hy.1, hy.2]
  have hp : ¬ PERIODICITY_CHECK_THRESHOLD < 0 + 1 := by decide
  rw [if_neg h0, if_neg hper, if_neg hp]
  cases m with
  | zero => rfl
  | succ k => rw [approxLoop_succ, if_pos hc]

/-- C3 (claim as stated, refuted): for `c = 2 + 0i`, budget 64 and epsilon
`0.001` the cold-started evaluator returns 1, not 0. -/
theorem approxStepsPower2_two_counterexample :
    4 ≤ normSq ⟨2, 0⟩ ∧ 1 ≤ 64 ∧ (0 : ℚ) < 1 / 1000 ∧
      approxStepsPower2 ⟨0, 0⟩ 0 ⟨2, 0⟩ 64 (1 / 1000) = 1 ∧
      approxStepsPower2 ⟨0, 0⟩ 0 ⟨2, 0⟩ 64 (1 / 1000) ≠ 0 := by
  have h : approxStepsPower2 ⟨0, 0⟩ 0 ⟨2, 0⟩ 64 (1 / 1000) = 1 :=
    approxStepsPower2_of_escaped_point ⟨2, 0⟩ 64 (1 / 1000) (by norm_num [normSq]) (by decide)
      (le_refl _)
  refine ⟨by norm_num [normSq], by decide, by norm_num, h, ?_⟩
  rw [h]
  decide

/-- C3 (amended): for every point `c` with `|c|² ≥ 4`, every budget `n ≥ 1`
and every epsilon with `0 < ε ≤ 0.001`, the cold-started evaluator returns
exactly 1, the index of the first iterate `z_1 = c` with `|z|² ≥ 4` in the
numbering `z_0 = 0` of the loop. -/
theorem approxStepsPower2_escaped_point (c : Pos) (n : Nat) (EPS : ℚ)
    (hc : 4 ≤ normSq c) (hn : 1 ≤ n) (_hpos : 0 < EPS) (hEPS : EPS ≤ 1 / 1000) :
    approxStepsPower2 ⟨0, 0⟩ 0 c n EPS = 1 ∧
      4 ≤ normSq (orbit c 1) ∧ normSq (orbit c 0) < 4 := by
  refine ⟨approxStepsPower2_of_escaped_point c n EPS hc hn hEPS, ?_, ?_⟩
  · rw [orbit_one]; exact hc
  · rw [orbit_zero]; norm_num [normSq]

/-- C3 (witness): the amended statement at `c = 2 + 0i`, budget 64, epsilon
`0.001`. -/
theorem approxStepsPower2_escaped_point_witness :
    4 ≤ normSq ⟨2, 0⟩ ∧ approxStepsPower2 ⟨0, 0⟩ 0 ⟨2, 0⟩ 64 (1 / 1000) = 1 :=
  ⟨by norm_num [normSq],
    (approxStepsPower2_escaped_point ⟨2, 0⟩ 64 (1 / 1000) (by norm_num [normSq]) (by decide)
      (by norm_num) (le_refl _)).1⟩

theorem orbit_origin (j : Nat) : orbit ⟨0, 0⟩ j = ⟨0, 0⟩ := by
  induction j with
  | zero => rfl
  | succ k ih => rw [orbit_succ, ih, mandelStep_origin]

/-- C4: with a cold start, if no iterate `z_j`, `j < n`, of the exact orbit
has `|z_j|² ≥ 4`, then the evaluator returns the budget `n`; and for `c = 0`
it returns `n` for every budget and every epsilon. -/
theorem approxStepsPower2_inside (c : Pos) (n : Nat) (EPS : ℚ) :
    ((∀ j, j < n → normSq (orbit c j) < 4) → approxStepsPower2 ⟨0, 0⟩ 0 c n EPS = n) ∧
      approxStepsPower2 ⟨0, 0⟩ 0 ⟨0, 0⟩ n EPS = n := by
  have gen : ∀ c' : Pos, (∀ j, j < n → normSq (orbit c' j) < 4) →
      approxStepsPower2 ⟨0, 0⟩ 0 c' n EPS = n := by
    intro c' h
    rcases approxStepsPower2_cold c' n EPS with h1 | ⟨h1, h2, _⟩
    · exact h1
    · exact absurd (h _ h1) (not_lt.mpr h2)
  refine ⟨gen c, gen ⟨0, 0⟩ ?_⟩
  intro j _
  rw [orbit_origin]
  norm_num [normSq]

/-- C4 (witness): `c = -1` with budget 3, whose orbit `0, -1, 0` stays below
the escape radius. -/
theorem approxStepsPower2_inside_witness :
    (∀ j, j < 3 → normSq (orbit ⟨-1, 0⟩ j) < 4) ∧
      approxStepsPower2 ⟨0, 0⟩ 0 ⟨-1, 0⟩ 3 (1 / 1000) = 3 := by
  have h : ∀ j, j < 3 → normSq (orbit ⟨-1, 0⟩ j) < 4 := by
    intro j hj
    interval_cases j <;> norm_num [orbit, mandelStep, normSq]
  exact ⟨h, (approxStepsPower2_inside ⟨-1, 0⟩ 3 (1 / 1000)).1 h⟩

/-- C5: with a cold start, whenever the evaluator returns a value `k < n`,
`k` is the first escape step of the exact orbit: `|z_k|² ≥ 4` and
`|z_j|² < 4` for every `j < k`. -/
theorem approxStepsPower2_first_escape (c : Pos) (n : Nat) (EPS : ℚ) (k : Nat)
    (hk : approxStepsPower2 ⟨0, 0⟩ 0 c n EPS = k) (hlt : k < n) :
    4 ≤ normSq (orbit c k) ∧ ∀ j, j < k → normSq (orbit c j) < 4 := by
  subst hk
  rcases approxStepsPower2_cold c n EPS with h1 | ⟨_, h2, h3⟩
  · omega
  · exact ⟨h2, h3⟩

/-- C5 (witness): `c = 2 + 0i` with budget 64 returns 1, the first escape
step. -/
theorem approxStepsPower2_first_escape_witness :
    approxStepsPower2 ⟨0, 0⟩ 0 ⟨2, 0⟩ 64 (1 / 1000) = 1 ∧ 1 < 64 ∧
      4 ≤ normSq (orbit ⟨2, 0⟩ 1) ∧ ∀ j, j < 1 → normSq (orbit ⟨2, 0⟩ j) < 4 :=
  ⟨approxStepsPower2_of_escaped_point ⟨2, 0⟩ 64 (1 / 1000) (by norm_num [normSq]) (by decide)
      (le_refl _),
    by decide,
    approxStepsPower2_first_escape ⟨2, 0⟩ 64 (1 / 1000) 1
      (approxStepsPower2_of_escaped_point ⟨2, 0⟩ 64 (1 / 1000) (by norm_num [normSq])
        (by decide) (le_refl _)) (by decide)⟩


/-! ## Theorems: colouring -/

theorem qRed_qRgb (r : Nat) : qRed (qRgb r 0 0) = r % 256 := by
  unfold qRed qRgb
  have h := Nat.mod_lt r (show 256 > 0 by decide)
  generalize r % 256 = t at h ⊢
  omega

theorem qGreen_qRgb (r : Nat) : qGreen (qRgb r 0 0) = 0 := by
  unfold qGreen qRgb
  have h := Nat.mod_lt r (show 256 > 0 by decide)
  generalize r % 256 = t at h ⊢
  omega

theorem qBlue_qRgb (r : Nat) : qBlue (qRgb r 0 0) = 0 := by
  unfold qBlue qRgb
  have h := Nat.mod_lt r (show 256 > 0 by decide)
  generalize r % 256 = t at h ⊢
  omega

theorem ramp_le (n s : Nat) (hs : s ≤ n) : s * 255 / n ≤ 255 := by
  apply Nat.div_le_of_le_mul
  calc s * 255 ≤ n * 255 := Nat.mul_le_mul_right _ hs

theorem qRed_color (n s : Nat) (hs : s ≤ n) :
    qRed (color n s) = s * 255 / n := by
  unfold color
  have h := ramp_le n s hs
  rw [qRed_qRgb]
  generalize s * 255 / n = t at h ⊢
  omega

/-- C9: for every budget `n` in `[64, 2048]` and every step count `s ≤ n`,
`color` has green = blue = 0 and red = `floor (255 * s / n)`, which is at most
255, is monotone non-decreasing in `s`, and equals 255 exactly when `s = n`.
Both workers colour through this one function. -/
theorem color_ramp (n s : Nat) (hmin : MIN_ITERATIONS_BY_PIXEL ≤ n)
    (_hmax : n ≤ MAX_ITERATIONS_BY_PIXEL) (hs : s ≤ n) :
    qGreen (color n s) = 0 ∧ qBlue (color n s) = 0 ∧
      qRed (color n s) = 255 * s / n ∧ qRed (color n s) ≤ 255 ∧
      (∀ s', s ≤ s' → s' ≤ n → qRed (color n s) ≤ qRed (color n s')) ∧
      (qRed (color n s) = 255 ↔ s = n) := by
  have hn : 0 < n := by unfold MIN_ITERATIONS_BY_PIXEL at hmin; omega
  have hred := qRed_color n s hs
  refine ⟨qGreen_qRgb _, qBlue_qRgb _, ?_, ?_, ?_, ?_⟩
  · rw [hred, Nat.mul_comm]
  · rw [hred]; exact ramp_le n s hs
  · intro s' hss' hs'
    rw [hred, qRed_color n s' hs']
    exact Nat.div_le_div_right (Nat.mul_le_mul_right _ hss')
  · rw [hred]
    constructor
    · intro h
      have h1 : 255 ≤ s * 255 / n := by omega
      rw [Nat.le_div_iff_mul_le hn] at h1
      have h2 : n ≤ s := by omega
      omega
    · intro h
      subst h
      exact Nat.mul_div_cancel_left 255 hn

/-- C9 (witness): budget 64, 32 steps: red is `floor (255 * 32 / 64) = 127`. -/
theorem color_ramp_witness :
    MIN_ITERATIONS_BY_PIXEL ≤ 64 ∧ 64 ≤ MAX_ITERATIONS_BY_PIXEL ∧ 32 ≤ 64 ∧
      qRed (color 64 32) = 255 * 32 / 64 ∧ qRed (color 64 32) = 127 :=
  ⟨by decide, by decide, by decide,
    (color_ramp 64 32 (by decide) (by decide) (by decide)).2.2.1, by decide⟩


/-! ## Theorems: the vector pre-pass and the batched path -/

theorem movemask_ne_zero_iff (res : Fin 4 → Bool) :
    _mm256_movemask_pd res ≠ 0 ↔ ∃ j, res j = true := by
  unfold _mm256_movemask_pd
  constructor
  · intro h
    by_contra hne
    push_neg at hne
    have h0 := hne 0
    have h1 := hne 1
    have h2 := hne 2
    have h3 := hne 3
    simp [h0, h1, h2, h3] at h
  · rintro ⟨j, hj⟩
    fin_cases j <;> simp at hj <;> simp [hj]

/-- The lanes of a pair of registers, read as plane points. -/
theorem lane_step (c_r c_i z_r z_i : __m256d) (j : Fin 4) :
    (⟨_mm256_add_pd (_mm256_sub_pd (_mm256_mul_pd z_r z_r) (_mm256_mul_pd z_i z_i)) c_r j,
      _mm256_fmadd_pd (_mm256_add_pd z_r z_r) z_i c_i j⟩ : Pos) =
      mandelStep ⟨c_r j, c_i j⟩ ⟨z_r j, z_i j⟩ := by
  simp only [_mm256_add_pd, _mm256_sub_pd, _mm256_mul_pd, _mm256_fmadd_pd, mandelStep,
    Pos.mk.injEq, true_and]
  ring

theorem avxLoop_zero (c_r c_i : __m256d) (i : Nat) (z_r z_i : __m256d) :
    avxLoop c_r c_i 0 i z_r z_i = ⟨i, z_r, z_i⟩ := rfl

theorem avxLoop_succ (c_r c_i : __m256d) (left i : Nat) (z_r z_i : __m256d) :
    avxLoop c_r c_i (left + 1) i z_r z_i =
      if ∃ j, 4 ≤ normSq ⟨z_r j, z_i j⟩ then ⟨i, z_r, z_i⟩
      else avxLoop c_r c_i left (i + 1)
        (_mm256_add_pd (_mm256_sub_pd (_mm256_mul_pd z_r z_r) (_mm256_mul_pd z_i z_i)) c_r)
        (_mm256_fmadd_pd (_mm256_add_pd z_r z_r) z_i c_i) := by
  have hiff : _mm256_movemask_pd (_mm256_cmp_pd_NLT_UQ
      (_mm256_add_pd (_mm256_mul_pd z_r z_r) (_mm256_mul_pd z_i z_i)) (fun _ => 4)) ≠ 0 ↔
      ∃ j, 4 ≤ normSq ⟨z_r j, z_i j⟩ := by
    rw [movemask_ne_zero_iff]
    simp [_mm256_cmp_pd_NLT_UQ, _mm256_add_pd, _mm256_mul_pd, normSq]
  by_cases h : ∃ j, 4 ≤ normSq ⟨z_r j, z_i j⟩
  · rw [if_pos h]
    simp only [avxLoop]
    rw [if_pos (hiff.mpr h)]
  · rw [if_neg h]
    simp only [avxLoop]
    rw [if_neg (fun h' => h (hiff.mp h'))]

/-- What the vector loop leaves when entered at step `i`: it advances every
lane by the same number of steps, never past an iterate with `|z|² ≥ 4` in any
lane, and stops early only at a step where some lane has `|z|² ≥ 4`. -/
theorem avxLoop_result (c_r c_i : __m256d) :
    ∀ (left i : Nat) (z_r z_i : __m256d),
      i ≤ (avxLoop c_r c_i left i z_r z_i).steps ∧
      (avxLoop c_r c_i left i z_r z_i).steps ≤ i + left ∧
      (∀ j, (⟨(avxLoop c_r c_i left i z_r z_i).c_r j,
          (avxLoop c_r c_i left i z_r z_i).c_i j⟩ : Pos) =
        (mandelStep ⟨c_r j, c_i j⟩)^[(avxLoop c_r c_i left i z_r z_i).steps - i]
          ⟨z_r j, z_i j⟩) ∧
      (∀ k, k < (avxLoop c_r c_i left i z_r z_i).steps - i → ∀ j,
        normSq ((mandelStep ⟨c_r j, c_i j⟩)^[k] ⟨z_r j, z_i j⟩) < 4) ∧
      ((avxLoop c_r c_i left i z_r z_i).steps = i + left ∨
        ∃ j, 4 ≤ normSq ((mandelStep ⟨c_r j, c_i j⟩)^[(avxLoop c_r c_i left i z_r z_i).steps - i]
          ⟨z_r j, z_i j⟩)) := by
  intro left
  induction left with
  | zero =>
    intro i z_r z_i
    simp [avxLoop_zero]
  | succ m ih =>
    intro i z_r z_i
    rw [avxLoop_succ]
    by_cases h : ∃ j, 4 ≤ normSq ⟨z_r j, z_i j⟩
    · rw [if_pos h]
      refine ⟨le_refl _, Nat.le_add_right i (m + 1), ?_, ?_, ?_⟩
      · intro j; simp
      · intro k hk; simp at hk
      · right; simpa using h
    · rw [if_neg h]
      obtain ⟨h1, h2, h3, h4, h5⟩ := ih (i + 1)
        (_mm256_add_pd (_mm256_sub_pd (_mm256_mul_pd z_r z_r) (_mm256_mul_pd z_i z_i)) c_r)
        (_mm256_fmadd_pd (_mm256_add_pd z_r z_r) z_i c_i)
      generalize avxLoop c_r c_i m (i + 1)
        (_mm256_add_pd (_mm256_sub_pd (_mm256_mul_pd z_r z_r) (_mm256_mul_pd z_i z_i)) c_r)
        (_mm256_fmadd_pd (_mm256_add_pd z_r z_r) z_i c_i) = r at h1 h2 h3 h4 h5
      have hr : r.steps - i = (r.steps - (i + 1)) + 1 := by omega
      push_neg at h
      refine ⟨by omega, by omega, ?_, ?_, ?_⟩
      · intro j
        rw [h3 j, lane_step, hr, Function.iterate_succ_apply]
      · intro k hk j
        cases k with
        | zero => simpa using h j
        | succ k' =>
          rw [Function.iterate_succ_apply, ← lane_step]
          exact h4 k' (by omega) j
      · rcases h5 with h5 | ⟨j, hj⟩
        · left; omega
        · right
          refine ⟨j, ?_⟩
          rw [hr, Function.iterate_succ_apply, ← lane_step]
          exact hj

/-- The vector pre-pass on the batch `P` with ceiling `m`: the step count is
at most `m`, every lane holds that iterate of its own orbit, no lane had
`|z|² ≥ 4` at an earlier step, and the loop stopped at the ceiling or at a
step where some lane has `|z|² ≥ 4`. -/
theorem approxStepsPower2AVX_result (P : Fin 4 → Pos) (m : Nat) :
    (approxStepsPower2AVX (fun j => (P j).x) (fun j => (P j).y) m).steps ≤ m ∧
    (∀ j, (⟨(approxStepsPower2AVX (fun j => (P j).x) (fun j => (P j).y) m).c_r j,
        (approxStepsPower2AVX (fun j => (P j).x) (fun j => (P j).y) m).c_i j⟩ : Pos) =
      orbit (P j) (approxStepsPower2AVX (fun j => (P j).x) (fun j => (P j).y) m).steps) ∧
    (∀ k, k < (approxStepsPower2AVX (fun j => (P j).x) (fun j => (P j).y) m).steps →
      ∀ j, normSq (orbit (P j) k) < 4) ∧
    ((approxStepsPower2AVX (fun j => (P j).x) (fun j => (P j).y) m).steps = m ∨
      ∃ j, 4 ≤ normSq (orbit (P j)
        (approxStepsPower2AVX (fun j => (P j).x) (fun j => (P j).y) m).steps)) := by
  obtain ⟨_, h2, h3, h4, h5⟩ := avxLoop_result (fun j => (P j).x) (fun j => (P j).y) m 0
    _mm256_setzero_pd _mm256_setzero_pd
  unfold approxStepsPower2AVX
  generalize avxLoop (fun j => (P j).x) (fun j => (P j).y) m 0 _mm256_setzero_pd
    _mm256_setzero_pd = r at h2 h3 h4 h5
  simp only [Nat.sub_zero, Nat.zero_add, _mm256_setzero_pd] at h2 h3 h4 h5
  exact ⟨h2, h3, h4, h5⟩


/-- With `EPS ≤ 0` the convergence test never holds, so the loop returns the
budget only by running out of iterations. -/
theorem approxLoop_exhaust (c : Pos) (n : Nat) (EPS : ℚ) (hEPS : EPS ≤ 0) :
    ∀ (left i : Nat) (z z_old : Pos) (period : Nat), i + left = n →
      approxLoop c n EPS left i z ⟨z.x * z.x, z.y * z.y⟩ z_old period = n →
      ∀ j, j < left → normSq ((mandelStep c)^[j] z) < 4 := by
  intro left
  induction left with
  | zero => intro i z z_old period _ _ j hj; omega
  | succ k ih =>
    intro i z z_old period hi hres j hj
    rw [approxLoop_succ] at hres
    by_cases hesc : 4 ≤ normSq z
    · rw [if_pos hesc] at hres; omega
    · rw [if_neg hesc] at hres
      have hper : ¬ (|(mandelStep c z).x - z_old.x| < EPS ∧
          |(mandelStep c z).y - z_old.y| < EPS) := by
        rintro ⟨hx, _⟩
        have := abs_nonneg ((mandelStep c z).x - z_old.x)
        linarith
      rw [if_neg hper] at hres
      cases j with
      | zero => simpa using lt_of_not_le hesc
      | succ j' =>
        rw [Function.iterate_succ_apply]
        by_cases hp : PERIODICITY_CHECK_THRESHOLD < period + 1
        · rw [if_pos hp] at hres
          exact ih (i + 1) (mandelStep c z) _ _ (by omega) hres j' (by omega)
        · rw [if_neg hp] at hres
          exact ih (i + 1) (mandelStep c z) _ _ (by omega) hres j' (by omega)

/-- The evaluator resumed at step `m ≤ n` from the `m`-th iterate, when no
earlier iterate escaped: it returns the budget or the first escape step. -/
theorem approxStepsPower2_warm (c : Pos) (n m : Nat) (EPS : ℚ) (hm : m ≤ n)
    (hpre : ∀ k, k < m → normSq (orbit c k) < 4) :
    approxStepsPower2 (orbit c m) m c n EPS = n ∨
      (approxStepsPower2 (orbit c m) m c n EPS < n ∧
        4 ≤ normSq (orbit c (approxStepsPower2 (orbit c m) m c n EPS)) ∧
        ∀ j, j < approxStepsPower2 (orbit c m) m c n EPS → normSq (orbit c j) < 4) := by
  have h := approxLoop_result c n EPS (n - m) m (orbit c m) (orbit c m) 0 (by omega)
  unfold approxStepsPower2
  simp only at h ⊢
  generalize approxLoop c n EPS (n - m) m (orbit c m)
    ⟨(orbit c m).x * (orbit c m).x, (orbit c m).y * (orbit c m).y⟩ (orbit c m) 0 = r at h ⊢
  rcases h with h | ⟨h1, h2, h3, h4⟩
  · left; exact h
  · right
    rw [iterate_orbit] at h3
    have e : m + (r - m) = r := by omega
    rw [e] at h3
    refine ⟨h2, h3, ?_⟩
    intro j hj
    by_cases hjm : j < m
    · exact hpre j hjm
    · have h5 := h4 (j - m) (by omega)
      rw [iterate_orbit] at h5
      have e2 : m + (j - m) = j := by omega
      rw [e2] at h5
      exact h5

/-- With `EPS ≤ 0` the resumed evaluator returns exactly the escape time. -/
theorem approxStepsPower2_warm_exact (c : Pos) (n m : Nat) (EPS : ℚ) (hEPS : EPS ≤ 0)
    (hm : m ≤ n) (hpre : ∀ k, k < m → normSq (orbit c k) < 4) :
    IsEscapeTime c n (approxStepsPower2 (orbit c m) m c n EPS) := by
  rcases approxStepsPower2_warm c n m EPS hm hpre with h | h
  · left
    refine ⟨h, ?_⟩
    have h' := h
    unfold approxStepsPower2 at h'
    simp only at h'
    have hex := approxLoop_exhaust c n EPS hEPS (n - m) m (orbit c m) (orbit c m) 0
      (by omega) h'
    intro j hj
    by_cases hjm : j < m
    · exact hpre j hjm
    · have h5 := hex (j - m) (by omega)
      rw [iterate_orbit] at h5
      have e2 : m + (j - m) = j := by omega
      rw [e2] at h5
      exact h5
  · right; exact h

theorem isEscapeTime_unique {c : Pos} {n r r' : Nat} (h : IsEscapeTime c n r)
    (h' : IsEscapeTime c n r') : r = r' := by
  rcases h with ⟨h1, h2⟩ | ⟨h1, h2, h3⟩ <;> rcases h' with ⟨h1', h2'⟩ | ⟨h1', h2', h3'⟩
  · omega
  · exact absurd (h2 r' h1') (not_lt.mpr h2')
  · exact absurd (h2' r h1) (not_lt.mpr h2)
  · rcases Nat.lt_trichotomy r r' with hlt | heq | hgt
    · exact absurd (h3' r hlt) (not_lt.mpr h2)
    · exact heq
    · exact absurd (h3 r' hgt) (not_lt.mpr h2')

/-- The batched path is the scalar evaluator resumed from the iterate reached
by the vector pre-pass. -/
theorem batchedSteps_eq (P : Fin 4 → Pos) (n : Nat) (EPS : ℚ) (i : Fin 4) :
    batchedSteps P n EPS i =
      approxStepsPower2
        (orbit (P i) (approxStepsPower2AVX (fun j => (P j).x) (fun j => (P j).y)
          (min n AVX_APPROXIMATION_STEPS)).steps)
        (approxStepsPower2AVX (fun j => (P j).x) (fun j => (P j).y)
          (min n AVX_APPROXIMATION_STEPS)).steps (P i) n EPS := by
  obtain ⟨_, h2, _, _⟩ := approxStepsPower2AVX_result P (min n AVX_APPROXIMATION_STEPS)
  unfold batchedSteps
  simp only
  rw [h2 i]

/-- The batched path returns the budget or the first escape step of its lane. -/
theorem batchedSteps_result (P : Fin 4 → Pos) (n : Nat) (EPS : ℚ) (i : Fin 4) :
    batchedSteps P n EPS i = n ∨
      (batchedSteps P n EPS i < n ∧ 4 ≤ normSq (orbit (P i) (batchedSteps P n EPS i)) ∧
        ∀ j, j < batchedSteps P n EPS i → normSq (orbit (P i) j) < 4) := by
  obtain ⟨h1, _, h3, _⟩ := approxStepsPower2AVX_result P (min n AVX_APPROXIMATION_STEPS)
  rw [batchedSteps_eq]
  exact approxStepsPower2_warm (P i) n _ EPS (le_trans h1 (min_le_left _ _))
    (fun k hk => h3 k hk i)

/-- With `EPS ≤ 0` the batched path returns exactly the escape time. -/
theorem batchedSteps_exact (P : Fin 4 → Pos) (n : Nat) (EPS : ℚ) (hEPS : EPS ≤ 0)
    (i : Fin 4) : IsEscapeTime (P i) n (batchedSteps P n EPS i) := by
  obtain ⟨h1, _, h3, _⟩ := approxStepsPower2AVX_result P (min n AVX_APPROXIMATION_STEPS)
  rw [batchedSteps_eq]
  exact approxStepsPower2_warm_exact (P i) n _ EPS hEPS (le_trans h1 (min_le_left _ _))
    (fun k hk => h3 k hk i)

/-- With `EPS ≤ 0` the cold-started evaluator returns exactly the escape time. -/
theorem approxStepsPower2_cold_exact (c : Pos) (n : Nat) (EPS : ℚ) (hEPS : EPS ≤ 0) :
    IsEscapeTime c n (approxStepsPower2 ⟨0, 0⟩ 0 c n EPS) :=
  approxStepsPower2_warm_exact c n 0 EPS hEPS (Nat.zero_le _) (fun k hk => absurd hk (by omega))


theorem approxLoop_pos (c : Pos) (n : Nat) (EPS : ℚ) (left i : Nat) (z z_old : Pos)
    (period : Nat) (h : 0 < left) :
    approxLoop c n EPS left i z ⟨z.x * z.x, z.y * z.y⟩ z_old period =
      if 4 ≤ normSq z then i
      else if |(mandelStep c z).x - z_old.x| < EPS ∧ |(mandelStep c z).y - z_old.y| < EPS then n
      else if PERIODICITY_CHECK_THRESHOLD < period + 1 then
        approxLoop c n EPS (left - 1) (i + 1) (mandelStep c z)
          ⟨(mandelStep c z).x * (mandelStep c z).x, (mandelStep c z).y * (mandelStep c z).y⟩
          (mandelStep c z) 0
      else
        approxLoop c n EPS (left - 1) (i + 1) (mandelStep c z)
          ⟨(mandelStep c z).x * (mandelStep c z).x, (mandelStep c z).y * (mandelStep c z).y⟩
          z_old (period + 1) := by
  obtain ⟨k, rfl⟩ : ∃ k, left = k + 1 := ⟨left - 1, by omega⟩
  rw [approxLoop_succ]
  rfl

theorem divergingBatch_zero : divergingBatch 0 = ⟨-2 + 1 / 100000000, 1 / 10000⟩ := rfl

theorem divergingBatch_steps :
    (approxStepsPower2AVX (fun j => (divergingBatch j).x) (fun j => (divergingBatch j).y)
      (min 64 AVX_APPROXIMATION_STEPS)).steps = 2 := by
  obtain ⟨h1, _, h3, h4⟩ := approxStepsPower2AVX_result divergingBatch
    (min 64 AVX_APPROXIMATION_STEPS)
  generalize (approxStepsPower2AVX (fun j => (divergingBatch j).x)
    (fun j => (divergingBatch j).y) (min 64 AVX_APPROXIMATION_STEPS)).steps = m at h1 h3 h4
  have hle : m ≤ 2 := by
    by_contra hgt
    have h := h3 2 (by omega) 1
    norm_num [orbit, mandelStep, normSq, divergingBatch] at h
  have hmin : min 64 AVX_APPROXIMATION_STEPS = 64 := by decide
  rw [hmin] at h4
  rcases h4 with h4 | ⟨j, hj⟩
  · omega
  · interval_cases m
    · norm_num [orbit, normSq] at hj
    · fin_cases j <;> norm_num [orbit, mandelStep, normSq, divergingBatch, Fin.ext_iff] at hj
    · rfl


theorem divergingBatch_orbit_two :
    orbit (divergingBatch 0) 2 =
      ⟨19999999600000001 / 10000000000000000, -149999999 / 500000000000⟩ := by
  norm_num [orbit, mandelStep, divergingBatch]

theorem divergingBatch_orbit_three :
    mandelStep (divergingBatch 0)
        ⟨19999999600000001 / 10000000000000000, -149999999 / 500000000000⟩ =
      ⟨199999976000000319999998800000001 / 100000000000000000000000000000000,
        -2749999920000000549999999 / 2500000000000000000000000000⟩ := by
  norm_num [mandelStep, divergingBatch]

/-- C6 (claim as stated, refuted): on the batch `divergingBatch` with budget
64 and epsilon `0.001`, lane 0 gets 64 ("inside") from the batched path and 3
from the fully scalar path.  The pre-pass stops at step 2, where the other
lanes escape; the resumed evaluator takes `z_2` as its reference point and
finds `z_3` within epsilon of it, while the cold evaluator compares against
`z_old = 0` and reaches the escape test of `z_3`. -/
theorem batchedSteps_counterexample :
    batchedSteps divergingBatch 64 (1 / 1000) 0 = 64 ∧
      approxStepsPower2 ⟨0, 0⟩ 0 (divergingBatch 0) 64 (1 / 1000) = 3 ∧
      batchedSteps divergingBatch 64 (1 / 1000) 0 ≠
        approxStepsPower2 ⟨0, 0⟩ 0 (divergingBatch 0) 64 (1 / 1000) := by
  have hb : batchedSteps divergingBatch 64 (1 / 1000) 0 = 64 := by
    rw [batchedSteps_eq, divergingBatch_steps, divergingBatch_orbit_two]
    unfold approxStepsPower2
    simp only
    rw [approxLoop_pos _ _ _ _ _ _ _ _ (by decide), divergingBatch_orbit_three,
      if_neg (by norm_num [normSq]), if_pos (by constructor <;> norm_num [abs_lt])]
  have hs : approxStepsPower2 ⟨0, 0⟩ 0 (divergingBatch 0) 64 (1 / 1000) = 3 := by
    have e1 : mandelStep (divergingBatch 0) (divergingBatch 0) =
        ⟨19999999600000001 / 10000000000000000, -149999999 / 500000000000⟩ := by
      norm_num [mandelStep, divergingBatch]
    unfold approxStepsPower2
    simp only
    rw [approxLoop_pos _ _ _ _ _ _ _ _ (by decide), mandelStep_origin,
      if_neg (by norm_num [normSq]),
      if_neg (by rw [divergingBatch_zero]; norm_num [abs_lt]),
      if_neg (by decide)]
    rw [approxLoop_pos _ _ _ _ _ _ _ _ (by decide), e1,
      if_neg (by rw [divergingBatch_zero]; norm_num [normSq]),
      if_neg (by norm_num [abs_lt]),
      if_neg (by decide)]
    rw [approxLoop_pos _ _ _ _ _ _ _ _ (by decide), divergingBatch_orbit_three,
      if_neg (by norm_num [normSq]),
      if_neg (by norm_num [abs_lt]),
      if_neg (by decide)]
    rw [approxLoop_pos _ _ _ _ _ _ _ _ (by decide), if_pos (by norm_num [normSq])]
  refine ⟨hb, hs, ?_⟩
  rw [hb, hs]
  decide

/-- C6 (amended): for every batch of 4 points, every budget `n`, every
epsilon and every lane `i`, the batched path and the fully scalar cold path
each return either `n` or the first escape step of the lane's exact orbit.
Hence they return the same count whenever both return a value below `n`,
whenever the orbit does not escape below step `n` (both return `n`), and
whenever `ε ≤ 0`, where the convergence test is off. -/
theorem batchedSteps_vs_scalar (P : Fin 4 → Pos) (n : Nat) (EPS : ℚ) (i : Fin 4) :
    (batchedSteps P n EPS i = n ∨
      (batchedSteps P n EPS i < n ∧ 4 ≤ normSq (orbit (P i) (batchedSteps P n EPS i)) ∧
        ∀ j, j < batchedSteps P n EPS i → normSq (orbit (P i) j) < 4)) ∧
    (approxStepsPower2 ⟨0, 0⟩ 0 (P i) n EPS = n ∨
      (approxStepsPower2 ⟨0, 0⟩ 0 (P i) n EPS < n ∧
        4 ≤ normSq (orbit (P i) (approxStepsPower2 ⟨0, 0⟩ 0 (P i) n EPS)) ∧
        ∀ j, j < approxStepsPower2 ⟨0, 0⟩ 0 (P i) n EPS → normSq (orbit (P i) j) < 4)) ∧
    (batchedSteps P n EPS i < n → approxStepsPower2 ⟨0, 0⟩ 0 (P i) n EPS < n →
      batchedSteps P n EPS i = approxStepsPower2 ⟨0, 0⟩ 0 (P i) n EPS) ∧
    ((∀ j, j < n → normSq (orbit (P i) j) < 4) →
      batchedSteps P n EPS i = n ∧ approxStepsPower2 ⟨0, 0⟩ 0 (P i) n EPS = n) ∧
    (EPS ≤ 0 → batchedSteps P n EPS i = approxStepsPower2 ⟨0, 0⟩ 0 (P i) n EPS) := by
  have hb := batchedSteps_result P n EPS i
  have hs := approxStepsPower2_cold (P i) n EPS
  refine ⟨hb, hs, ?_, ?_, ?_⟩
  · intro hbn hsn
    rcases hb with hb | hb
    · omega
    · rcases hs with hs | hs
      · omega
      · exact isEscapeTime_unique (Or.inr hb) (Or.inr hs)
  · intro hin
    constructor
    · rcases hb with hb | ⟨hb1, hb2, _⟩
      · exact hb
      · exact absurd (hin _ hb1) (not_lt.mpr hb2)
    · rcases hs with hs | ⟨hs1, hs2, _⟩
      · exact hs
      · exact absurd (hin _ hs1) (not_lt.mpr hs2)
  · intro hEPS
    exact isEscapeTime_unique (batchedSteps_exact P n EPS hEPS i)
      (approxStepsPower2_cold_exact (P i) n EPS hEPS)

/-- C6 (witness): on `divergingBatch` with epsilon 0 the two paths agree on
lane 0. -/
theorem batchedSteps_vs_scalar_witness :
    (0 : ℚ) ≤ 0 ∧ batchedSteps divergingBatch 64 0 0 =
      approxStepsPower2 ⟨0, 0⟩ 0 (divergingBatch 0) 64 0 :=
  ⟨le_refl 0, (batchedSteps_vs_scalar divergingBatch 64 0 0).2.2.2.2 (le_refl 0)⟩


/-! ## Theorems: the workers -/

theorem checks_refl (flags : Nat → Bool) (e : Nat) : Checks flags e e false := by
  refine ⟨?_, ?_, ?_⟩
  · intro e' h1 h2; omega
  · intro h; cases h
  · intro _ h; omega

theorem checks_trans {flags : Nat → Bool} {e0 e1 e2 : Nat} {r : Bool}
    (h1 : Checks flags e0 e1 false) (h01 : e0 ≤ e1) (h2 : Checks flags e1 e2 r)
    (h12 : e1 ≤ e2) : Checks flags e0 e2 r := by
  obtain ⟨a1, _, a3⟩ := h1
  obtain ⟨b1, b2, b3⟩ := h2
  refine ⟨?_, ?_, ?_⟩
  · intro e he0 he2 hd
    rcases Nat.lt_trichotomy e e1 with h | h | h
    · exact a1 e he0 h hd
    · subst h; exact a3 rfl he0 hd
    · exact b1 e h he2 hd
  · intro hr
    obtain ⟨c1, c2, c3⟩ := b2 hr
    exact ⟨by omega, c2, c3⟩
  · intro hr he hd
    rcases Nat.lt_or_ge e1 e2 with h | h
    · exact b3 hr h hd
    · have : e1 = e2 := by omega
      subst this
      exact a3 rfl he hd

theorem written_trans {P : Nat → Nat} {S1 S2 S : Nat → Prop} {b b' b'' : Nat → Nat}
    (h1 : Written P S1 b b') (h2 : Written P S2 b' b'') (hS : ∀ k, S k ↔ S1 k ∨ S2 k) :
    Written P S b b'' := by
  intro k
  constructor
  · intro hk
    by_cases h2k : S2 k
    · exact (h2 k).1 h2k
    · rw [(h2 k).2 h2k]
      rcases (hS k).mp hk with h | h
      · exact (h1 k).1 h
      · exact absurd h h2k
  · intro hk
    have hn1 : ¬ S1 k := fun h => hk ((hS k).mpr (Or.inl h))
    have hn2 : ¬ S2 k := fun h => hk ((hS k).mpr (Or.inr h))
    rw [(h2 k).2 hn2, (h1 k).2 hn1]

theorem written_nothing (P : Nat → Nat) (S : Nat → Prop) (b : Nat → Nat) (hS : ∀ k, ¬ S k) :
    Written P S b b :=
  fun k => ⟨fun h => absurd h (hS k), fun _ => rfl⟩

theorem offset_mod_div (W y x : Nat) (hx : x < W) :
    (y * W + x) % W = x ∧ (y * W + x) / W = y := by
  have hW : 0 < W := by omega
  constructor
  · rw [Nat.add_comm, Nat.add_mul_mod_self_right, Nat.mod_eq_of_lt hx]
  · rw [Nat.add_comm, Nat.add_mul_div_right _ _ hW, Nat.div_eq_of_lt hx, Nat.zero_add]

/-- The cancellation check, for a state whose counter is in step with the
number of evaluations: the worker returns exactly when the evaluation count is
a multiple of the threshold and the flags read `true`. -/
theorem cancellationCheck_eq (flags : Nat → Bool) (st : WorkerState) (e : Nat)
    (hcnt : st.pixelsCnt = e % 256) (hev : st.evaluated = e + 1) :
    cancellationCheck flags st =
      if DROPPED_FRAME_CHECK_THRESHOLD ∣ e + 1 ∧ flags (e + 1) = true then
        Flow.ret { st with pixelsCnt := st.pixelsCnt + 1 }
      else Flow.next { st with pixelsCnt := (e + 1) % 256 } := by
  unfold cancellationCheck DROPPED_FRAME_CHECK_THRESHOLD
  simp only [hev]
  have hmod := Nat.mod_lt e (show 256 > 0 by decide)
  by_cases hd : 256 ∣ e + 1
  · have h1 : st.pixelsCnt + 1 ≥ 256 := by omega
    have h2 : (e + 1) % 256 = 0 := Nat.mod_eq_zero_of_dvd hd
    rw [if_pos h1]
    by_cases hf : flags (e + 1) = true
    · rw [if_pos hf, if_pos ⟨hd, hf⟩]
    · rw [if_neg hf, if_neg (fun h => hf h.2), h2]
  · have h1 : ¬ st.pixelsCnt + 1 ≥ 256 := by omega
    have h2 : (e + 1) % 256 = st.pixelsCnt + 1 := by omega
    rw [if_neg h1, if_neg (fun h => hd h.1), h2]


/-- The inner loop of `workerPrecise`, entered at column `x` of row `y` with
the pointer on that pixel: it writes the colours of consecutive pixels of the
row, as many as it evaluates, and ends the row unless a check reads `true`. -/
theorem preciseXLoop_spec (current : WorkerSettings) (flags : Nat → Bool) (y : Nat) :
    ∀ (fuel x : Nat) (st : WorkerState), x ≤ current.size.width →
      current.size.width - x < fuel → st.data = y * current.size.width + x →
      st.pixelsCnt = st.evaluated % 256 →
      ∃ fl, preciseXLoop current flags y fuel x st = some fl ∧
        st.evaluated ≤ fl.st.evaluated ∧
        fl.st.evaluated ≤ st.evaluated + (current.size.width - x) ∧
        fl.st.data = st.data + (fl.st.evaluated - st.evaluated) ∧
        Written (precisePixel current) (fun k => st.data ≤ k ∧ k < fl.st.data)
          st.bits fl.st.bits ∧
        Checks flags st.evaluated fl.st.evaluated fl.isRet ∧
        (fl.isRet = false →
          fl.st.evaluated = st.evaluated + (current.size.width - x) ∧
          fl.st.pixelsCnt = fl.st.evaluated % 256) := by
  intro fuel
  induction fuel with
  | zero => intro x st _ h; omega
  | succ f ih =>
    intro x st hx hfuel hdata hcnt
    by_cases hxW : x = current.size.width
    · refine ⟨Flow.next st, ?_, le_refl _, by simp [Flow.st], by simp [Flow.st], ?_,
        checks_refl _ _, ?_⟩
      · simp only [preciseXLoop]; rw [if_pos hxW]
      · exact written_nothing _ _ _ (fun k h => by simp only [Flow.st] at h; omega)
      · intro _; simp only [Flow.st]; exact ⟨by omega, hcnt⟩
    · have hlt : x < current.size.width := by omega
      obtain ⟨hmod, hdiv⟩ := offset_mod_div current.size.width y x hlt
      have hpix : probeColor current ⟨(x : ℚ) + 1 / 2, (y : ℚ) + 1 / 2⟩ =
          precisePixel current st.data := by
        unfold precisePixel; rw [hdata, hmod, hdiv]
      have hw1 : Written (precisePixel current) (fun k => st.data ≤ k ∧ k < st.data + 1) st.bits
          (Function.update st.bits st.data
            (probeColor current ⟨(x : ℚ) + 1 / 2, (y : ℚ) + 1 / 2⟩)) := by
        intro k
        constructor
        · rintro ⟨h1, h2⟩
          have : k = st.data := by omega
          subst this
          rw [Function.update_same, hpix]
        · intro h
          have : k ≠ st.data := fun hk => h ⟨by omega, by omega⟩
          rw [Function.update_noteq this]
      have hcc := cancellationCheck_eq flags
        { bits := Function.update st.bits st.data
            (probeColor current ⟨(x : ℚ) + 1 / 2, (y : ℚ) + 1 / 2⟩),
          data := st.data + 1, pixelsCnt := st.pixelsCnt, evaluated := st.evaluated + 1 }
        st.evaluated hcnt rfl
      simp only [preciseXLoop]
      rw [if_neg hxW, hcc]
      by_cases hstop : DROPPED_FRAME_CHECK_THRESHOLD ∣ st.evaluated + 1 ∧
          flags (st.evaluated + 1) = true
      · rw [if_pos hstop]
        refine ⟨_, rfl, ?_, ?_, ?_, ?_, ?_, ?_⟩
        · simp only [Flow.st]; omega
        · simp only [Flow.st]; omega
        · simp only [Flow.st]; omega
        · simpa only [Flow.st] using hw1
        · simp only [Flow.st, Flow.isRet]
          exact ⟨fun e h1 h2 => by omega, fun _ => ⟨by omega, hstop.1, hstop.2⟩,
            fun h => by cases h⟩
        · intro h; simp [Flow.isRet] at h
      · rw [if_neg hstop]
        obtain ⟨fl, hfl, h1, h2, h3, h4, h5, h6⟩ := ih (x + 1)
          { bits := Function.update st.bits st.data
              (probeColor current ⟨(x : ℚ) + 1 / 2, (y : ℚ) + 1 / 2⟩),
            data := st.data + 1, pixelsCnt := (st.evaluated + 1) % 256,
            evaluated := st.evaluated + 1 }
          (by omega) (by omega) (by simp only; omega) rfl
        simp only at h1 h2 h3 h4 h5 h6
        have hc1 : Checks flags st.evaluated (st.evaluated + 1) false := by
          refine ⟨fun e a b => by omega, fun h => (by cases h), ?_⟩
          intro _ _ hd
          by_contra hf
          exact hstop ⟨hd, by simpa using hf⟩
        refine ⟨fl, hfl, by omega, by omega, by omega, ?_, ?_, ?_⟩
        · exact written_trans hw1 h4 (fun k => by omega)
        · exact checks_trans hc1 (by omega) h5 h1
        · intro hr
          obtain ⟨a, b⟩ := h6 hr
          exact ⟨by omega, b⟩


/-- The outer loop of `workerPrecise`, entered at row `y ≤ y1` with the
pointer on the first pixel of the row. -/
theorem preciseYLoop_spec (current : WorkerSettings) (flags : Nat → Bool) (fuel0 y1 : Nat)
    (hfuel0 : current.size.width < fuel0) :
    ∀ (fuel y : Nat) (st : WorkerState), y ≤ y1 → y1 - y < fuel →
      st.data = y * current.size.width → st.pixelsCnt = st.evaluated % 256 →
      ∃ fl, preciseYLoop current flags fuel0 y1 fuel y st = some fl ∧
        st.evaluated ≤ fl.st.evaluated ∧
        fl.st.evaluated ≤ st.evaluated + (y1 - y) * current.size.width ∧
        fl.st.data = st.data + (fl.st.evaluated - st.evaluated) ∧
        Written (precisePixel current) (fun k => st.data ≤ k ∧ k < fl.st.data)
          st.bits fl.st.bits ∧
        Checks flags st.evaluated fl.st.evaluated fl.isRet ∧
        (fl.isRet = false →
          fl.st.evaluated = st.evaluated + (y1 - y) * current.size.width ∧
          fl.st.pixelsCnt = fl.st.evaluated % 256) := by
  intro fuel
  induction fuel with
  | zero => intro y st _ h; omega
  | succ f ih =>
    intro y st hy hfuel hdata hcnt
    by_cases hyy : y = y1
    · refine ⟨Flow.next st, ?_, le_refl _, by simp [Flow.st], by simp [Flow.st], ?_,
        checks_refl _ _, ?_⟩
      · simp only [preciseYLoop]; rw [if_pos hyy]
      · exact written_nothing _ _ _ (fun k h => by simp only [Flow.st] at h; omega)
      · intro _; simp only [Flow.st]; subst hyy; exact ⟨by simp, hcnt⟩
    · have hrows : (y1 - y) * current.size.width =
          (y1 - (y + 1)) * current.size.width + current.size.width := by
        have : y1 - y = (y1 - (y + 1)) + 1 := by omega
        rw [this, Nat.add_mul, Nat.one_mul]
      obtain ⟨fl1, hfl1, a1, a2, a3, a4, a5, a6⟩ := preciseXLoop_spec current flags y fuel0 0 st
        (Nat.zero_le _) (by omega) (by omega) hcnt
      simp only [Nat.sub_zero] at a2 a6
      simp only [preciseYLoop]
      rw [if_neg hyy, hfl1]
      cases fl1 with
      | ret s =>
        simp only [Flow.st, Flow.isRet] at a1 a2 a3 a4 a5 a6
        refine ⟨Flow.ret s, rfl, a1, ?_, a3, a4, a5, ?_⟩
        · simp only [Flow.st]; omega
        · intro h; simp [Flow.isRet] at h
      | next s =>
        simp only [Flow.st, Flow.isRet] at a1 a2 a3 a4 a5 a6
        obtain ⟨b1, b2⟩ := a6 trivial
        obtain ⟨fl, hfl, c1, c2, c3, c4, c5, c6⟩ := ih (y + 1) s (by omega) (by omega)
          (by rw [a3, hdata, b1, Nat.add_mul, Nat.one_mul]; omega) b2
        refine ⟨fl, hfl, by omega, by omega, by omega, ?_, ?_, ?_⟩
        · exact written_trans a4 c4 (fun k => by omega)
        · exact checks_trans a5 a1 c5 c1
        · intro hr
          obtain ⟨d1, d2⟩ := c6 hr
          exact ⟨by omega, d2⟩

/-- The scalar `workerPrecise` on a strip `[y0, y1)` with `y0 ≤ y1`, for any
behaviour of the flags: with enough fuel it ends; it has then evaluated some
number `e` of pixels, at most the size of the strip, and written exactly the
first `e` pixels of the strip, each with the colour of its own centre; the
flag reads are as `Checks` says, and a run that was not stopped by a check has
evaluated the whole strip. -/
theorem workerPrecise_spec (current : WorkerSettings) (flags : Nat → Bool)
    (fuel y0 y1 : Nat) (bits : Nat → Nat) (h01 : y0 ≤ y1) (hfuel : y1 - y0 < fuel)
    (hfuelW : current.size.width < fuel) :
    ∃ st r, workerPrecise current flags fuel y0 y1 bits = some st ∧
      st.evaluated ≤ (y1 - y0) * current.size.width ∧
      Written (precisePixel current)
        (fun k => y0 * current.size.width ≤ k ∧ k < y0 * current.size.width + st.evaluated)
        bits st.bits ∧
      Checks flags 0 st.evaluated r ∧
      (r = false → st.evaluated = (y1 - y0) * current.size.width) := by
  obtain ⟨fl, hfl, _, a2, a3, a4, a5, a6⟩ := preciseYLoop_spec current flags fuel y1 hfuelW fuel y0
    { bits := bits, data := y0 * current.size.width, pixelsCnt := 0, evaluated := 0 }
    h01 hfuel rfl rfl
  simp only [Nat.zero_add, Nat.sub_zero] at a2 a3 a4 a5 a6
  refine ⟨fl.st, fl.isRet, ?_, a2, ?_, a5, fun h => (a6 h).1⟩
  · unfold workerPrecise
    simp only
    rw [hfl]
    cases fl <;> rfl
  · rw [← a3]; exact a4


theorem checks_never {flags : Nat → Bool} {e : Nat} {r : Bool} (hflags : ∀ e, flags e = false)
    (h : Checks flags 0 e r) : r = false := by
  cases r with
  | false => rfl
  | true =>
    obtain ⟨_, _, h3⟩ := h.2.1 rfl
    rw [hflags e] at h3
    cases h3

theorem checks_always {flags : Nat → Bool} {e total : Nat} {r : Bool}
    (hflags : ∀ e, flags e = true) (h : Checks flags 0 e r) (hle : e ≤ total)
    (hdone : r = false → e = total) : e = min DROPPED_FRAME_CHECK_THRESHOLD total := by
  obtain ⟨h1, h2, h3⟩ := h
  unfold DROPPED_FRAME_CHECK_THRESHOLD at *
  have hup : e ≤ 256 := by
    by_contra hgt
    have := h1 256 (by omega) (by omega) (dvd_refl _)
    rw [hflags 256] at this
    cases this
  cases r with
  | true =>
    obtain ⟨a, b, _⟩ := h2 rfl
    have : 256 ≤ e := Nat.le_of_dvd a b
    omega
  | false =>
    have he := hdone rfl
    have hne : e ≠ 256 := by
      intro h256
      have := h3 rfl (by omega) (by rw [h256])
      rw [hflags e] at this
      cases this
    omega

theorem strip_offset_bounds (W y0 y1 x y : Nat) (hx : x < W) (hy0 : y0 ≤ y) (hy1 : y < y1) :
    y0 * W ≤ y * W + x ∧ y * W + x < y0 * W + (y1 - y0) * W := by
  have h1 : y0 * W ≤ y * W := Nat.mul_le_mul_right W hy0
  have h2 : (y + 1) * W ≤ y1 * W := Nat.mul_le_mul_right W hy1
  have h3 : (y + 1) * W = y * W + W := by rw [Nat.add_mul, Nat.one_mul]
  have h4 : y0 * W + (y1 - y0) * W = y1 * W := by
    rw [← Nat.add_mul]
    congr 1
    omega
  omega

theorem pos_add_x (a b : Pos) : (a + b).x = a.x + b.x := rfl

theorem pos_add_y (a b : Pos) : (a + b).y = a.y + b.y := rfl

theorem pos_mul_x (a : Pos) (s : ℚ) : (a * s).x = a.x * s := rfl

theorem pos_mul_y (a : Pos) (s : ℚ) : (a * s).y = a.y * s := rfl

theorem pos_eta (a : Pos) : (⟨a.x, a.y⟩ : Pos) = a := rfl

/-- The plane point of a pixel centre, after `prepareCurrent`. -/
theorem precisePixel_prepare (current0 : WorkerSettings) (m x y : Nat)
    (hx : x < (prepareCurrent current0 m).size.width) :
    precisePixel (prepareCurrent current0 m)
        (y * (prepareCurrent current0 m).size.width + x) =
      color current0.iterationsCount (approxStepsPower2 ⟨0, 0⟩ 0
        ⟨current0.offset.x +
            ((x : ℚ) + 1 / 2 - ((prepareCurrent current0 m).size.width : ℚ) / 2) *
              current0.scale,
          current0.offset.y +
            ((y : ℚ) + 1 / 2 - ((prepareCurrent current0 m).size.height : ℚ) / 2) *
              current0.scale⟩
        current0.iterationsCount current0.EPS) := by
  obtain ⟨hmod, hdiv⟩ := offset_mod_div _ y x hx
  unfold precisePixel probeColor
  rw [hmod, hdiv]
  have hp : (prepareCurrent current0 m).c +
      (⟨(x : ℚ) + 1 / 2, (y : ℚ) + 1 / 2⟩ : Pos) * (prepareCurrent current0 m).scale =
      ⟨current0.offset.x +
          ((x : ℚ) + 1 / 2 - ((prepareCurrent current0 m).size.width : ℚ) / 2) *
            current0.scale,
        current0.offset.y +
          ((y : ℚ) + 1 / 2 - ((prepareCurrent current0 m).size.height : ℚ) / 2) *
            current0.scale⟩ := by
    rw [← pos_eta ((prepareCurrent current0 m).c + _)]
    simp only [prepareCurrent, Pos.mk.injEq, pos_add_x, pos_add_y, pos_mul_x, pos_mul_y]
    constructor <;> ring
  simp only [hp]
  rfl

/-- C8: on a buffer of the size set up by `runWorkers` and a strip `[y0, y1)`
with `y0 ≤ y1 ≤ H`, a run of the scalar `workerPrecise` in which no flag read
is `true` ends with every pixel `(x, y)` of the strip equal to the colour of
the escape time at `offset + ((x + 0.5 - W/2) * scale, (y + 0.5 - H/2) * scale)`,
a value that depends on that pixel alone; no pixel outside the rows of the
strip is changed, and one evaluation was made per pixel of the strip. -/
theorem workerPrecise_fill (current0 : WorkerSettings) (sizeMultiplier : Nat)
    (flags : Nat → Bool) (fuel y0 y1 : Nat) (bits : Nat → Nat)
    (hflags : ∀ e, flags e = false) (h01 : y0 ≤ y1)
    (_h1H : y1 ≤ (prepareCurrent current0 sizeMultiplier).size.height)
    (hfuel : y1 - y0 < fuel)
    (hfuelW : (prepareCurrent current0 sizeMultiplier).size.width < fuel) :
    ∃ st, workerPrecise (prepareCurrent current0 sizeMultiplier) flags fuel y0 y1 bits =
        some st ∧
      (∀ x y, x < (prepareCurrent current0 sizeMultiplier).size.width → y0 ≤ y → y < y1 →
        st.bits (y * (prepareCurrent current0 sizeMultiplier).size.width + x) =
          color current0.iterationsCount (approxStepsPower2 ⟨0, 0⟩ 0
            ⟨current0.offset.x +
                ((x : ℚ) + 1 / 2 -
                  ((prepareCurrent current0 sizeMultiplier).size.width : ℚ) / 2) *
                  current0.scale,
              current0.offset.y +
                ((y : ℚ) + 1 / 2 -
                  ((prepareCurrent current0 sizeMultiplier).size.height : ℚ) / 2) *
                  current0.scale⟩
            current0.iterationsCount current0.EPS)) ∧
      (∀ k, (k < y0 * (prepareCurrent current0 sizeMultiplier).size.width ∨
          y1 * (prepareCurrent current0 sizeMultiplier).size.width ≤ k) →
        st.bits k = bits k) ∧
      st.evaluated = (y1 - y0) * (prepareCurrent current0 sizeMultiplier).size.width := by
  obtain ⟨st, r, hst, _, hw, hc, hdone⟩ := workerPrecise_spec
    (prepareCurrent current0 sizeMultiplier) flags fuel y0 y1 bits h01 hfuel hfuelW
  have hr : r = false := checks_never hflags hc
  have he := hdone hr
  refine ⟨st, hst, ?_, ?_, he⟩
  · intro x y hx hy0 hy1
    have hb := strip_offset_bounds _ y0 y1 x y hx hy0 hy1
    rw [(hw _).1 ⟨hb.1, by rw [he]; exact hb.2⟩]
    exact precisePixel_prepare current0 sizeMultiplier x y hx
  · intro k hk
    apply (hw k).2
    rintro ⟨h1, h2⟩
    rw [he] at h2
    have h4 : y0 * (prepareCurrent current0 sizeMultiplier).size.width +
        (y1 - y0) * (prepareCurrent current0 sizeMultiplier).size.width =
        y1 * (prepareCurrent current0 sizeMultiplier).size.width := by
      rw [← Nat.add_mul]
      congr 1
      omega
    omega


/-- C8 (witness): the precise pass of the sample request on its first two
rows. -/
theorem workerPrecise_fill_witness :
    ∃ st, workerPrecise (prepareCurrent sampleCurrent 1) (fun _ => false) 101 0 2
        (fun _ => 0) = some st ∧
      st.evaluated = (2 - 0) * (prepareCurrent sampleCurrent 1).size.width := by
  obtain ⟨st, h1, _, _, h4⟩ := workerPrecise_fill sampleCurrent 1 (fun _ => false) 101 0 2
    (fun _ => 0) (fun _ => rfl) (by decide) (by decide) (by decide) (by decide)
  exact ⟨st, h1, h4⟩

theorem fillRowLoop_spec (pixel : Nat) :
    ∀ (left : Nat) (bits : Nat → Nat) (data : Nat),
      (fillRowLoop pixel left bits data).2 = data + left ∧
      ∀ k, ((data ≤ k ∧ k < data + left) → (fillRowLoop pixel left bits data).1 k = pixel) ∧
        (¬ (data ≤ k ∧ k < data + left) → (fillRowLoop pixel left bits data).1 k = bits k) := by
  intro left
  induction left with
  | zero =>
    intro bits data
    refine ⟨rfl, fun k => ⟨fun h => by omega, fun _ => rfl⟩⟩
  | succ n ih =>
    intro bits data
    obtain ⟨h1, h2⟩ := ih (Function.update bits data pixel) (data + 1)
    simp only [fillRowLoop]
    refine ⟨by rw [h1]; omega, fun k => ⟨?_, ?_⟩⟩
    · rintro ⟨a, b⟩
      by_cases hk : k = data
      · subst hk
        rw [(h2 k).2 (by omega), Function.update_same]
      · exact (h2 k).1 ⟨by omega, by omega⟩
    · intro h
      have hk : k ≠ data := fun hk => h ⟨by omega, by omega⟩
      rw [(h2 k).2 (fun h' => h ⟨by omega, by omega⟩), Function.update_noteq hk]

/-- The offsets of the segment `[x, x_next)` of row `i`. -/
theorem row_range_iff (W i x x_next k : Nat) (hx : x_next ≤ W) (hW : 0 < W) :
    (i * W + x ≤ k ∧ k < i * W + x_next) ↔ (k / W = i ∧ x ≤ k % W ∧ k % W < x_next) := by
  have hdm := Nat.div_add_mod k W
  have hmod := Nat.mod_lt k hW
  constructor
  · rintro ⟨h1, h2⟩
    have hq : k / W = i := by
      rcases Nat.lt_trichotomy (k / W) i with h | h | h
      · have : W * (k / W + 1) ≤ W * i := Nat.mul_le_mul_left W h
        rw [Nat.mul_add, Nat.mul_one, Nat.mul_comm W i] at this
        omega
      · exact h
      · have : W * (i + 1) ≤ W * (k / W) := Nat.mul_le_mul_left W h
        rw [Nat.mul_add, Nat.mul_one, Nat.mul_comm W i] at this
        omega
    rw [hq, Nat.mul_comm W i] at hdm
    exact ⟨hq, by omega, by omega⟩
  · rintro ⟨hq, h1, h2⟩
    rw [hq, Nat.mul_comm W i] at hdm
    exact ⟨by omega, by omega⟩

/-- The block-painting loop entered at line `i ≤ y_next` with the pointer on
column `x` of that line: it paints the columns `[x, x_next)` of the lines
`[i, y_next)` and leaves the pointer on column `x` of line `y_next`. -/
theorem fillBlockLoop_spec (W x x_next y_next pixel : Nat) (hx : x < x_next)
    (hxW : x_next ≤ W) :
    ∀ (fuel i : Nat) (bits : Nat → Nat) (data : Nat), i ≤ y_next → y_next - i < fuel →
      data = i * W + x →
      ∃ bits', fillBlockLoop W x x_next y_next pixel fuel i bits data =
          some (bits', y_next * W + x) ∧
        ∀ k, ((i ≤ k / W ∧ k / W < y_next ∧ x ≤ k % W ∧ k % W < x_next) → bits' k = pixel) ∧
          (¬ (i ≤ k / W ∧ k / W < y_next ∧ x ≤ k % W ∧ k % W < x_next) → bits' k = bits k) := by
  have hW : 0 < W := by omega
  intro fuel
  induction fuel with
  | zero => intro i bits data _ h; omega
  | succ f ih =>
    intro i bits data hi hfuel hdata
    by_cases hiy : i = y_next
    · refine ⟨bits, ?_, fun k => ⟨fun h => by omega, fun _ => rfl⟩⟩
      simp only [fillBlockLoop]
      rw [if_pos hiy, hdata, hiy]
    · obtain ⟨r1, r2⟩ := fillRowLoop_spec pixel (x_next - x) bits data
      have hdata' : (fillRowLoop pixel (x_next - x) bits data).2 + (W - x_next + x) =
          (i + 1) * W + x := by
        rw [r1, hdata, Nat.add_mul, Nat.one_mul]; omega
      obtain ⟨bits', hb, hk⟩ := ih (i + 1) (fillRowLoop pixel (x_next - x) bits data).1
        ((fillRowLoop pixel (x_next - x) bits data).2 + (W - x_next + x)) (by omega) (by omega)
        hdata'
      refine ⟨bits', ?_, ?_⟩
      · simp only [fillBlockLoop]
        rw [if_neg hiy]
        exact hb
      · intro k
        have hrow := row_range_iff W i x x_next k hxW hW
        have hseg : (data ≤ k ∧ k < data + (x_next - x)) ↔
            (i * W + x ≤ k ∧ k < i * W + x_next) := by
          rw [hdata]; constructor <;> rintro ⟨a, b⟩ <;> exact ⟨by omega, by omega⟩
        constructor
        · rintro ⟨a, b, c, d⟩
          by_cases hki : k / W = i
          · rw [(hk k).2 (by omega)]
            exact (r2 k).1 (hseg.mpr (hrow.mpr ⟨hki, c, d⟩))
          · exact (hk k).1 ⟨by omega, b, c, d⟩
        · intro hn
          rw [(hk k).2 (fun h => hn ⟨by omega, h.2.1, h.2.2.1, h.2.2.2⟩)]
          apply (r2 k).2
          intro hs
          obtain ⟨a, b, c⟩ := hrow.mp (hseg.mp hs)
          exact hn ⟨by omega, by omega, b, c⟩


/-- The pointer rewind `data += (x_next - x) - downscaledPixelHeight` after a
block was painted: from column `x` of line `y_next` the wrapped addition
lands on column `x_next` of line `y`. -/
theorem rewind_eq (W x x_next y y_next : Nat) (hx : x < x_next) (hxW : x_next ≤ W)
    (hy : y < y_next) (hsz : y_next * W + W < 2 ^ 64) (hyn : y_next < 2 ^ 64) :
    (y_next * W + x + wsub (x_next - x) (W * wsub y_next y)) % 2 ^ 64 = y * W + x_next := by
  have hws : wsub y_next y = y_next - y := by
    unfold wsub
    omega
  rw [hws]
  have hD1 : W * 1 ≤ W * (y_next - y) := Nat.mul_le_mul_left W (by omega)
  have hD2 : y_next * W = y * W + W * (y_next - y) := by
    have : y_next = y + (y_next - y) := by omega
    conv_lhs => rw [this]
    rw [Nat.add_mul, Nat.mul_comm (y_next - y) W]
  unfold wsub
  generalize W * (y_next - y) = D at hD1 hD2
  generalize y * W = A at hD2
  rw [hD2]
  omega

/-- The block of a pixel, from its row and column. -/
theorem coarsePixel_block (current : WorkerSettings) (y0 x y y_next k : Nat)
    (hal : (y - y0) % 4 = 0) (hy0 : y0 ≤ y) (hyn : y_next ≤ y + 4) (hx4 : x % 4 = 0)
    (hrow : y ≤ k / current.size.width ∧ k / current.size.width < y_next)
    (hcol : x ≤ k % current.size.width ∧ k % current.size.width < x + 4) :
    probeColor current
        ⟨(x : ℚ) + (DOWNSCALE_LEVEL : ℚ) * (1 / 2), (y : ℚ) + (DOWNSCALE_LEVEL : ℚ) * (1 / 2)⟩ =
      coarsePixel current y0 k := by
  unfold coarsePixel
  have h1 : 4 * (k % current.size.width / 4) = x := by omega
  have h2 : y0 + 4 * ((k / current.size.width - y0) / 4) = y := by omega
  rw [h1, h2]
  norm_num [DOWNSCALE_LEVEL]

/-- The block loop of `workerImprecise` on the band of lines `[y, y_next)`,
entered at column `x` (a multiple of 4, or the width): it paints whole blocks
in order, as many as it evaluates, and ends the band unless a check reads
`true`. -/
theorem impreciseXLoop_spec (current : WorkerSettings) (flags : Nat → Bool)
    (fuel0 y0 y y_next : Nat) (hy : y < y_next) (hyn : y_next ≤ y + 4) (hy0 : y0 ≤ y)
    (hal : (y - y0) % 4 = 0) (hsz : y_next * current.size.width + current.size.width < 2 ^ 64)
    (hyn64 : y_next < 2 ^ 64) (hfuel0 : 4 < fuel0) :
    ∀ (fuel x : Nat) (st : WorkerState), x ≤ current.size.width →
      (x = current.size.width ∨ x % 4 = 0) → current.size.width - x < fuel →
      st.data = y * current.size.width + x → st.pixelsCnt = st.evaluated % 256 →
      ∃ fl, impreciseXLoop current flags fuel0 y y_next
          (current.size.width * wsub y_next y) fuel x st = some fl ∧
        st.evaluated ≤ fl.st.evaluated ∧
        fl.st.evaluated ≤ st.evaluated + ((current.size.width + 3) / 4 - (x + 3) / 4) ∧
        Written (coarsePixel current y0)
          (fun k => y ≤ k / current.size.width ∧ k / current.size.width < y_next ∧
            (x + 3) / 4 ≤ k % current.size.width / 4 ∧
            k % current.size.width / 4 < (x + 3) / 4 + (fl.st.evaluated - st.evaluated))
          st.bits fl.st.bits ∧
        Checks flags st.evaluated fl.st.evaluated fl.isRet ∧
        (fl.isRet = false →
          fl.st.evaluated = st.evaluated + ((current.size.width + 3) / 4 - (x + 3) / 4) ∧
          fl.st.pixelsCnt = fl.st.evaluated % 256 ∧
          fl.st.data = y * current.size.width + current.size.width) := by
  intro fuel
  induction fuel with
  | zero => intro x st _ _ h; omega
  | succ f ih =>
    intro x st hx hx4 hfuel hdata hcnt
    have hDL : DOWNSCALE_LEVEL = 4 := rfl
    by_cases hxW : x = current.size.width
    · refine ⟨Flow.next st, ?_, le_refl _, by simp [Flow.st], ?_, checks_refl _ _, ?_⟩
      · simp only [impreciseXLoop]; rw [if_pos hxW]
      · exact written_nothing _ _ _ (fun k h => by simp only [Flow.st] at h; omega)
      · intro _
        simp only [Flow.st]
        subst hxW
        exact ⟨by omega, hcnt, hdata⟩
    · have hlt : x < current.size.width := by omega
      have hx4' : x % 4 = 0 := by
        rcases hx4 with h | h
        · exact absurd h hxW
        · exact h
      have hW : 0 < current.size.width := by omega
      have hxn1 : x < min (x + DOWNSCALE_LEVEL) current.size.width := by
        unfold DOWNSCALE_LEVEL; omega
      have hxn2 : min (x + DOWNSCALE_LEVEL) current.size.width ≤ current.size.width :=
        min_le_right _ _
      obtain ⟨bits', hfill, hbits⟩ := fillBlockLoop_spec current.size.width x
        (min (x + DOWNSCALE_LEVEL) current.size.width) y_next
        (probeColor current ⟨(x : ℚ) + (DOWNSCALE_LEVEL : ℚ) * (1 / 2),
          (y : ℚ) + (DOWNSCALE_LEVEL : ℚ) * (1 / 2)⟩)
        hxn1 hxn2 fuel0 y st.bits st.data (by omega) (by omega) hdata
      have hrew := rewind_eq current.size.width x (min (x + DOWNSCALE_LEVEL) current.size.width)
        y y_next hxn1 hxn2 hy hsz hyn64
      have hw1 : Written (coarsePixel current y0)
          (fun k => y ≤ k / current.size.width ∧ k / current.size.width < y_next ∧
            (x + 3) / 4 ≤ k % current.size.width / 4 ∧
            k % current.size.width / 4 < (x + 3) / 4 + 1) st.bits bits' := by
        intro k
        have hm := Nat.mod_lt k hW
        have hmin : min (x + DOWNSCALE_LEVEL) current.size.width = x + 4 ∨
            min (x + DOWNSCALE_LEVEL) current.size.width = current.size.width := by
          unfold DOWNSCALE_LEVEL; omega
        constructor
        · rintro ⟨a, b, c, d⟩
          rw [(hbits k).1 ⟨a, b, by omega, by omega⟩]
          exact coarsePixel_block current y0 x y y_next k hal hy0 hyn hx4' ⟨a, b⟩
            ⟨by omega, by omega⟩
        · intro hn
          apply (hbits k).2
          rintro ⟨a, b, c, d⟩
          exact hn ⟨a, b, by omega, by omega⟩
      have hcc := cancellationCheck_eq flags
        { bits := bits', data := y * current.size.width +
            min (x + DOWNSCALE_LEVEL) current.size.width,
          pixelsCnt := st.pixelsCnt, evaluated := st.evaluated + 1 }
        st.evaluated hcnt rfl
      simp only [impreciseXLoop]
      rw [if_neg hxW, hfill]
      simp only
      rw [hrew, hcc]
      have hnb : (x + 3) / 4 < (current.size.width + 3) / 4 := by omega
      by_cases hstop : DROPPED_FRAME_CHECK_THRESHOLD ∣ st.evaluated + 1 ∧
          flags (st.evaluated + 1) = true
      · rw [if_pos hstop]
        refine ⟨_, rfl, ?_, ?_, ?_, ?_, ?_⟩
        · simp only [Flow.st]; omega
        · simp only [Flow.st]; omega
        · simp only [Flow.st]
          have e1 : st.evaluated + 1 - st.evaluated = 1 := by omega
          rw [e1]
          exact hw1
        · simp only [Flow.st, Flow.isRet]
          exact ⟨fun e h1 h2 => by omega, fun _ => ⟨by omega, hstop.1, hstop.2⟩,
            fun h => by cases h⟩
        · intro h; simp [Flow.isRet] at h
      · rw [if_neg hstop]
        have hbd : (min (x + DOWNSCALE_LEVEL) current.size.width + 3) / 4 = (x + 3) / 4 + 1 := by
          unfold DOWNSCALE_LEVEL; omega
        obtain ⟨fl, hfl, h1, h2, h4, h5, h6⟩ := ih
          (min (x + DOWNSCALE_LEVEL) current.size.width)
          { bits := bits', data := y * current.size.width +
              min (x + DOWNSCALE_LEVEL) current.size.width,
            pixelsCnt := (st.evaluated + 1) % 256, evaluated := st.evaluated + 1 }
          hxn2 (by unfold DOWNSCALE_LEVEL; omega) (by omega) rfl rfl
        simp only at h1 h2 h4 h5 h6
        rw [hbd] at h2 h4 h6
        have hc1 : Checks flags st.evaluated (st.evaluated + 1) false := by
          refine ⟨fun e a b => by omega, fun h => (by cases h), ?_⟩
          intro _ _ hd
          by_contra hf
          exact hstop ⟨hd, by simpa using hf⟩
        refine ⟨fl, hfl, by omega, by omega, ?_, ?_, ?_⟩
        · exact written_trans hw1 h4 (fun k => by omega)
        · exact checks_trans hc1 (by omega) h5 h1
        · intro hr
          obtain ⟨a, b, c⟩ := h6 hr
          exact ⟨by omega, b, c⟩


theorem written_congr {P : Nat → Nat} {S S' : Nat → Prop} {b b' : Nat → Nat}
    (h : Written P S b b') (hS : ∀ k, S' k ↔ S k) : Written P S' b b' :=
  fun k => ⟨fun hk => (h k).1 ((hS k).mp hk), fun hk => (h k).2 (fun h' => hk ((hS k).mpr h'))⟩

theorem blockIndex_band (W y0 y y_next k : Nat) (hal : (y - y0) % 4 = 0) (hy0 : y0 ≤ y)
    (hyn : y_next ≤ y + 4) (hrow : y ≤ k / W ∧ k / W < y_next) :
    blockIndex W y0 k = (y - y0 + 3) / 4 * ((W + 3) / 4) + k % W / 4 := by
  unfold blockIndex
  have h : (k / W - y0) / 4 = (y - y0 + 3) / 4 := by omega
  rw [h]

theorem blockIndex_beyond (W y0 y k : Nat) (hal : (y - y0) % 4 = 0) (hy0 : y0 ≤ y)
    (hrow : y + 4 ≤ k / W) :
    ((y - y0 + 3) / 4 + 1) * ((W + 3) / 4) ≤ blockIndex W y0 k := by
  unfold blockIndex
  have h : (y - y0 + 3) / 4 + 1 ≤ (k / W - y0) / 4 := by omega
  exact le_trans (Nat.mul_le_mul_right _ h) (Nat.le_add_right _ _)

/-- The band loop of `workerImprecise`, entered at line `y` (a multiple of 4
lines below `y0`, or `y1`) after the blocks of the bands above were
evaluated. -/
theorem impreciseYLoop_spec (current : WorkerSettings) (flags : Nat → Bool)
    (fuel0 y0 y1 : Nat) (hW : 0 < current.size.width)
    (hsz : y1 * current.size.width + current.size.width < 2 ^ 64) (hy64 : y1 < 2 ^ 64)
    (hfuel0 : 4 < fuel0) (hfuelW : current.size.width < fuel0) :
    ∀ (fuel y : Nat) (st : WorkerState), y0 ≤ y → y ≤ y1 → (y = y1 ∨ (y - y0) % 4 = 0) →
      y1 - y < fuel → (y ≠ y1 → st.data = y * current.size.width) →
      st.evaluated = (y - y0 + 3) / 4 * ((current.size.width + 3) / 4) →
      st.pixelsCnt = st.evaluated % 256 →
      ∃ fl, impreciseYLoop current flags fuel0 y1 fuel y st = some fl ∧
        st.evaluated ≤ fl.st.evaluated ∧
        fl.st.evaluated ≤ (y1 - y0 + 3) / 4 * ((current.size.width + 3) / 4) ∧
        Written (coarsePixel current y0)
          (fun k => y ≤ k / current.size.width ∧ k / current.size.width < y1 ∧
            blockIndex current.size.width y0 k < fl.st.evaluated)
          st.bits fl.st.bits ∧
        Checks flags st.evaluated fl.st.evaluated fl.isRet ∧
        (fl.isRet = false →
          fl.st.evaluated = (y1 - y0 + 3) / 4 * ((current.size.width + 3) / 4)) := by
  intro fuel
  induction fuel with
  | zero => intro y st _ _ _ h; omega
  | succ f ih =>
    intro y st hy0 hy1 hal hfuel hdata hev hcnt
    have hDL : DOWNSCALE_LEVEL = 4 := rfl
    by_cases hyy : y = y1
    · refine ⟨Flow.next st, ?_, le_refl _, ?_, ?_, checks_refl _ _, ?_⟩
      · simp only [impreciseYLoop]; rw [if_pos hyy]
      · simp only [Flow.st]; rw [hev, hyy]
      · exact written_nothing _ _ _ (fun k h => by omega)
      · intro _; simp only [Flow.st]; rw [hev, hyy]
    · have hal' : (y - y0) % 4 = 0 := by
        rcases hal with h | h
        · exact absurd h hyy
        · exact h
      have hyn1 : y < min (y + DOWNSCALE_LEVEL) y1 := by omega
      have hyn2 : min (y + DOWNSCALE_LEVEL) y1 ≤ y + 4 := by omega
      have hyn3 : min (y + DOWNSCALE_LEVEL) y1 ≤ y1 := min_le_right _ _
      have hszn : min (y + DOWNSCALE_LEVEL) y1 * current.size.width + current.size.width <
          2 ^ 64 := by
        have := Nat.mul_le_mul_right current.size.width hyn3
        omega
      have hrd : ((y - y0 + 3) / 4 + 1) * ((current.size.width + 3) / 4) =
          (y - y0 + 3) / 4 * ((current.size.width + 3) / 4) + (current.size.width + 3) / 4 := by
        rw [Nat.add_mul, Nat.one_mul]
      have htot : ((y - y0 + 3) / 4 + 1) * ((current.size.width + 3) / 4) ≤
          (y1 - y0 + 3) / 4 * ((current.size.width + 3) / 4) :=
        Nat.mul_le_mul_right _ (by omega)
      obtain ⟨fl1, hfl1, a1, a2, a4, a5, a6⟩ := impreciseXLoop_spec current flags fuel0 y0 y
        (min (y + DOWNSCALE_LEVEL) y1) hyn1 hyn2 hy0 hal' hszn (by omega) hfuel0 fuel0 0 st
        (Nat.zero_le _) (Or.inr rfl) (by omega) (by rw [hdata hyy]; rfl) hcnt
      simp only [Nat.zero_add, Nat.reduceDiv, Nat.sub_zero] at a2 a4 a6
      have a4' : Written (coarsePixel current y0)
          (fun k => y ≤ k / current.size.width ∧
            k / current.size.width < min (y + DOWNSCALE_LEVEL) y1 ∧
            blockIndex current.size.width y0 k < fl1.st.evaluated) st.bits fl1.st.bits := by
        apply written_congr a4
        intro k
        constructor
        · rintro ⟨h1, h2, h3⟩
          rw [blockIndex_band _ y0 y _ k hal' hy0 hyn2 ⟨h1, h2⟩, ← hev] at h3
          exact ⟨h1, h2, Nat.zero_le _, by omega⟩
        · rintro ⟨h1, h2, _, h4⟩
          refine ⟨h1, h2, ?_⟩
          rw [blockIndex_band _ y0 y _ k hal' hy0 hyn2 ⟨h1, h2⟩, ← hev]
          omega
      simp only [impreciseYLoop]
      rw [if_neg hyy, hfl1]
      cases fl1 with
      | ret s =>
        simp only [Flow.st, Flow.isRet] at a1 a2 a4' a5 a6
        refine ⟨Flow.ret s, rfl, a1, ?_, ?_, a5, ?_⟩
        · simp only [Flow.st]; omega
        · simp only [Flow.st]
          apply written_congr a4'
          intro k
          constructor
          · rintro ⟨h1, h2, h3⟩
            refine ⟨h1, ?_, h3⟩
            by_contra hge
            have hb := blockIndex_beyond current.size.width y0 y k hal' hy0 (by omega)
            omega
          · rintro ⟨h1, h2, h3⟩
            exact ⟨h1, by omega, h3⟩
        · intro h; simp [Flow.isRet] at h
      | next s =>
        simp only [Flow.st, Flow.isRet] at a1 a2 a4' a5 a6
        obtain ⟨b1, b2, b3⟩ := a6 trivial
        have hnext : (min (y + DOWNSCALE_LEVEL) y1 - y0 + 3) / 4 = (y - y0 + 3) / 4 + 1 := by
          omega
        obtain ⟨fl, hfl, c1, c2, c4, c5, c6⟩ := ih (min (y + DOWNSCALE_LEVEL) y1)
          { s with data := s.data + (DOWNSCALE_LEVEL - 1) * current.size.width }
          (by omega) hyn3 (by omega) (by omega)
          (by
            intro hne
            have h4 : min (y + DOWNSCALE_LEVEL) y1 = y + 4 := by omega
            simp only
            rw [b3, h4, hDL, Nat.add_mul]
            omega)
          (by simp only; rw [hnext, hrd, b1, hev])
          b2
        simp only at c1 c2 c4 c5 c6
        refine ⟨fl, hfl, by omega, c2, ?_, ?_, c6⟩
        · apply written_trans a4' c4
          intro k
          have hm := Nat.mod_lt k hW
          constructor
          · rintro ⟨h1, h2, h3⟩
            by_cases hband : k / current.size.width < min (y + DOWNSCALE_LEVEL) y1
            · left
              refine ⟨h1, hband, ?_⟩
              rw [blockIndex_band _ y0 y _ k hal' hy0 hyn2 ⟨h1, hband⟩, ← hev]
              omega
            · right
              exact ⟨by omega, h2, h3⟩
          · rintro (⟨h1, h2, h3⟩ | ⟨h1, h2, h3⟩)
            · exact ⟨h1, by omega, by omega⟩
            · exact ⟨by omega, h2, h3⟩
        · exact checks_trans a5 a1 c5 c1


theorem blockIndex_lt_total (W y0 y1 k : Nat) (hW : 0 < W)
    (hrow : y0 ≤ k / W ∧ k / W < y1) :
    blockIndex W y0 k < (y1 - y0 + 3) / 4 * ((W + 3) / 4) := by
  unfold blockIndex
  have hm := Nat.mod_lt k hW
  have h1 : (k / W - y0) / 4 + 1 ≤ (y1 - y0 + 3) / 4 := by omega
  have h2 := Nat.mul_le_mul_right ((W + 3) / 4) h1
  rw [Nat.add_mul, Nat.one_mul] at h2
  have h3 : k % W / 4 < (W + 3) / 4 := by omega
  omega

/-- On a buffer of width 0 the band loop evaluates and writes nothing. -/
theorem impreciseYLoop_width_zero (current : WorkerSettings) (flags : Nat → Bool)
    (fuel0 y1 : Nat) (hW : current.size.width = 0) (hfuel0 : 0 < fuel0) :
    ∀ (fuel y : Nat) (st : WorkerState), y ≤ y1 → y1 - y < fuel →
      ∃ st', impreciseYLoop current flags fuel0 y1 fuel y st = some (Flow.next st') ∧
        st'.bits = st.bits ∧ st'.evaluated = st.evaluated := by
  obtain ⟨g, rfl⟩ : ∃ g, fuel0 = g + 1 := ⟨fuel0 - 1, by omega⟩
  intro fuel
  induction fuel with
  | zero => intro y st _ h; omega
  | succ f ih =>
    intro y st hy hfuel
    have hDL : DOWNSCALE_LEVEL = 4 := rfl
    by_cases hyy : y = y1
    · refine ⟨st, ?_, rfl, rfl⟩
      simp only [impreciseYLoop]; rw [if_pos hyy]
    · obtain ⟨st', h1, h2, h3⟩ := ih (min (y + DOWNSCALE_LEVEL) y1)
        { st with data := st.data + (DOWNSCALE_LEVEL - 1) * current.size.width }
        (min_le_right _ _) (by omega)
      refine ⟨st', ?_, h2, h3⟩
      simp only [impreciseYLoop, impreciseXLoop]
      rw [if_neg hyy, if_pos hW.symm]
      exact h1

/-- The worker `workerImprecise` on a strip `[y0, y1)` with `y0 ≤ y1`, for any
behaviour of the flags: with enough fuel it ends; it has then evaluated some
number `e` of blocks, at most the number of blocks of the strip, and painted
exactly the first `e` blocks of the strip, each with the colour of its own
centre; the flag reads are as `Checks` says, and a run that was not stopped by
a check has evaluated every block. -/
theorem workerImprecise_spec (current : WorkerSettings) (flags : Nat → Bool)
    (fuel y0 y1 : Nat) (bits : Nat → Nat) (h01 : y0 ≤ y1)
    (hW31 : current.size.width < 2 ^ 31) (hy31 : y1 < 2 ^ 31)
    (hfuel : y1 - y0 < fuel) (hfuel4 : 4 < fuel) (hfuelW : current.size.width < fuel) :
    ∃ st r, workerImprecise current flags fuel y0 y1 bits = some st ∧
      st.evaluated ≤ (y1 - y0 + 3) / 4 * ((current.size.width + 3) / 4) ∧
      Written (coarsePixel current y0)
        (fun k => y0 ≤ k / current.size.width ∧ k / current.size.width < y1 ∧
          blockIndex current.size.width y0 k < st.evaluated)
        bits st.bits ∧
      Checks flags 0 st.evaluated r ∧
      (r = false → st.evaluated = (y1 - y0 + 3) / 4 * ((current.size.width + 3) / 4)) := by
  by_cases hW : current.size.width = 0
  · obtain ⟨st', h1, h2, h3⟩ := impreciseYLoop_width_zero current flags fuel y1 hW (by omega)
      fuel y0 { bits := bits, data := y0 * current.size.width, pixelsCnt := 0, evaluated := 0 }
      h01 hfuel
    simp only at h2 h3
    refine ⟨st', false, ?_, by rw [h3]; exact Nat.zero_le _, ?_, by rw [h3]; exact checks_refl _ _,
      fun _ => by rw [h3, hW]; simp⟩
    · unfold workerImprecise
      simp only
      rw [h1]
    · rw [h2, h3]
      exact written_nothing _ _ _ (fun k h => by omega)
  · have hsz : y1 * current.size.width + current.size.width < 2 ^ 64 := by
      have h1 : y1 * current.size.width ≤ 2 ^ 31 * 2 ^ 31 :=
        Nat.mul_le_mul (Nat.le_of_lt hy31) (Nat.le_of_lt hW31)
      omega
    obtain ⟨fl, hfl, _, a2, a4, a5, a6⟩ := impreciseYLoop_spec current flags fuel y0 y1
      (by omega) hsz (by omega) hfuel4 hfuelW fuel y0
      { bits := bits, data := y0 * current.size.width, pixelsCnt := 0, evaluated := 0 }
      (le_refl _) h01 (Or.inr (by simp)) hfuel (fun _ => rfl) (by simp) rfl
    refine ⟨fl.st, fl.isRet, ?_, a2, a4, a5, a6⟩
    unfold workerImprecise
    simp only
    rw [hfl]
    cases fl <;> rfl

theorem strip_rows_of_offset (W y0 y1 k : Nat) (hW : 0 < W)
    (hk : k < y0 * W ∨ y1 * W ≤ k) : ¬ (y0 ≤ k / W ∧ k / W < y1) := by
  rintro ⟨h1, h2⟩
  rcases hk with hk | hk
  · have : k / W < y0 := Nat.div_lt_of_lt_mul (by rw [Nat.mul_comm]; exact hk)
    omega
  · have : y1 ≤ k / W := (Nat.le_div_iff_mul_le hW).mpr hk
    omega

/-- C7: on a buffer of width `W` and a strip `[y0, y1)` with `y0 ≤ y1` and
`y0` a multiple of 4, a run of `workerImprecise` in which no flag read is
`true` ends with every pixel `(px, py)` of the strip equal to the colour of
the escape time at `current.c + (4 * (px / 4) + 2, 4 * (py / 4) + 2) * scale`,
the centre of its 4 × 4 block, and changes no pixel outside the rows of the
strip.  (The sizes are `int` values, below `2 ^ 31`; that `W` and `y1` are
multiples of 4 is not needed.) -/
theorem workerImprecise_fill (current : WorkerSettings) (flags : Nat → Bool)
    (fuel y0 y1 : Nat) (bits : Nat → Nat) (hflags : ∀ e, flags e = false)
    (h01 : y0 ≤ y1) (hy0 : y0 % 4 = 0)
    (hW31 : current.size.width < 2 ^ 31) (hy31 : y1 < 2 ^ 31)
    (hfuel : y1 - y0 < fuel) (hfuel4 : 4 < fuel) (hfuelW : current.size.width < fuel) :
    ∃ st, workerImprecise current flags fuel y0 y1 bits = some st ∧
      (∀ px py, px < current.size.width → y0 ≤ py → py < y1 →
        st.bits (py * current.size.width + px) =
          color current.iterationsCount (approxStepsPower2 ⟨0, 0⟩ 0
            (current.c +
              (⟨((4 * (px / 4) : Nat) : ℚ) + 2, ((4 * (py / 4) : Nat) : ℚ) + 2⟩ : Pos) *
                current.scale)
            current.iterationsCount current.EPS)) ∧
      (∀ k, (k < y0 * current.size.width ∨ y1 * current.size.width ≤ k) →
        st.bits k = bits k) := by
  obtain ⟨st, r, hst, _, hw, hc, hdone⟩ := workerImprecise_spec current flags fuel y0 y1 bits
    h01 hW31 hy31 hfuel hfuel4 hfuelW
  have he := hdone (checks_never hflags hc)
  refine ⟨st, hst, ?_, ?_⟩
  · intro px py hpx hpy0 hpy1
    have hW : 0 < current.size.width := by omega
    obtain ⟨hmod, hdiv⟩ := offset_mod_div current.size.width py px hpx
    have hrow : y0 ≤ (py * current.size.width + px) / current.size.width ∧
        (py * current.size.width + px) / current.size.width < y1 := by
      rw [hdiv]; exact ⟨hpy0, hpy1⟩
    rw [(hw _).1 ⟨hrow.1, hrow.2, by rw [he]; exact blockIndex_lt_total _ y0 y1 _ hW hrow⟩]
    unfold coarsePixel
    rw [hmod, hdiv]
    have hy : y0 + 4 * ((py - y0) / 4) = 4 * (py / 4) := by omega
    rw [hy]
    rfl
  · intro k hk
    by_cases hW : current.size.width = 0
    · apply (hw k).2
      rintro ⟨_, _, h3⟩
      rw [he, hW] at h3
      simp at h3
    · apply (hw k).2
      rintro ⟨h1, h2, _⟩
      exact strip_rows_of_offset _ y0 y1 k (by omega) hk ⟨h1, h2⟩


/-- C7 (witness): the coarse pass of the sample request (a 400 × 400 buffer)
on its first strip `[0, 104)`. -/
theorem workerImprecise_fill_witness :
    ∃ st, workerImprecise (prepareCurrent sampleCurrent 4) (fun _ => false) 401 0 104
        (fun _ => 0) = some st ∧
      ∀ k, (k < 0 * (prepareCurrent sampleCurrent 4).size.width ∨
          104 * (prepareCurrent sampleCurrent 4).size.width ≤ k) → st.bits k = 0 := by
  obtain ⟨st, h1, _, h3⟩ := workerImprecise_fill (prepareCurrent sampleCurrent 4)
    (fun _ => false) 401 0 104 (fun _ => 0) (fun _ => rfl) (by decide) (by decide)
    (by decide) (by decide) (by decide) (by decide) (by decide)
  exact ⟨st, h1, h3⟩

/-- C10: for any behaviour of the shared flags, both workers end (given
enough fuel) after evaluating some number `e` of blocks, respectively pixels,
and have written exactly the first `e` of them; the flags read `false` at
every multiple of `DROPPED_FRAME_CHECK_THRESHOLD` below `e`; a worker that
stopped early did so at a multiple of the threshold at which the flags read
`true`, and a worker that was not stopped has done the whole strip.  If the
flags read `true` throughout, `e` is `min (256, strip size)`. -/
theorem cancellation_granularity (current : WorkerSettings) (flags : Nat → Bool)
    (fuel y0 y1 : Nat) (bits : Nat → Nat) (h01 : y0 ≤ y1)
    (hW31 : current.size.width < 2 ^ 31) (hy31 : y1 < 2 ^ 31)
    (hfuel : y1 - y0 < fuel) (hfuel4 : 4 < fuel) (hfuelW : current.size.width < fuel) :
    (∃ st r, workerImprecise current flags fuel y0 y1 bits = some st ∧
      st.evaluated ≤ (y1 - y0 + 3) / 4 * ((current.size.width + 3) / 4) ∧
      Written (coarsePixel current y0)
        (fun k => y0 ≤ k / current.size.width ∧ k / current.size.width < y1 ∧
          blockIndex current.size.width y0 k < st.evaluated)
        bits st.bits ∧
      Checks flags 0 st.evaluated r ∧
      (r = false → st.evaluated = (y1 - y0 + 3) / 4 * ((current.size.width + 3) / 4)) ∧
      ((∀ e, flags e = true) →
        st.evaluated = min DROPPED_FRAME_CHECK_THRESHOLD
          ((y1 - y0 + 3) / 4 * ((current.size.width + 3) / 4)))) ∧
    (∃ st r, workerPrecise current flags fuel y0 y1 bits = some st ∧
      st.evaluated ≤ (y1 - y0) * current.size.width ∧
      Written (precisePixel current)
        (fun k => y0 * current.size.width ≤ k ∧ k < y0 * current.size.width + st.evaluated)
        bits st.bits ∧
      Checks flags 0 st.evaluated r ∧
      (r = false → st.evaluated = (y1 - y0) * current.size.width) ∧
      ((∀ e, flags e = true) →
        st.evaluated = min DROPPED_FRAME_CHECK_THRESHOLD ((y1 - y0) * current.size.width))) := by
  constructor
  · obtain ⟨st, r, h1, h2, h3, h4, h5⟩ := workerImprecise_spec current flags fuel y0 y1 bits
      h01 hW31 hy31 hfuel hfuel4 hfuelW
    exact ⟨st, r, h1, h2, h3, h4, h5, fun hf => checks_always hf h4 h2 h5⟩
  · obtain ⟨st, r, h1, h2, h3, h4, h5⟩ := workerPrecise_spec current flags fuel y0 y1 bits
      h01 hfuel hfuelW
    exact ⟨st, r, h1, h2, h3, h4, h5, fun hf => checks_always hf h4 h2 h5⟩

/-- C10 (witness): with the flags set from the start, on the strip `[0, 104)`
of a buffer 400 pixels wide `workerImprecise` evaluates 256 blocks and
`workerPrecise` evaluates 256 pixels. -/
theorem cancellation_granularity_witness :
    (∃ st, workerImprecise (prepareCurrent sampleCurrent 4) (fun _ => true) 401 0 104
        (fun _ => 0) = some st ∧ st.evaluated = 256) ∧
    (∃ st, workerPrecise (prepareCurrent sampleCurrent 4) (fun _ => true) 401 0 104
        (fun _ => 0) = some st ∧ st.evaluated = 256) := by
  obtain ⟨⟨st, _, h1, _, _, _, _, h6⟩, ⟨st', _, h1', _, _, _, _, h6'⟩⟩ :=
    cancellation_granularity (prepareCurrent sampleCurrent 4) (fun _ => true) 401 0 104
      (fun _ => 0) (by decide) (by decide) (by decide) (by decide) (by decide) (by decide)
  exact ⟨⟨st, h1, (h6 (fun _ => rfl)).trans (by decide)⟩,
    ⟨st', h1', (h6' (fun _ => rfl)).trans (by decide)⟩⟩


/-! ## Theorems: the vector pre-pass result and the snapshot cadence -/

/-- C19: for every batch of 4 points, held in the registers `c_r` and `c_i`,
and every step ceiling `m`, `approxStepsPower2AVX` returns a step count
`i ≤ m` and registers whose lane `j` is the `i`-th iterate of the orbit of
`c_j`; no lane has `|z|² ≥ 4` at a step below `i`; and `i = m` or some lane
has `|z_i|² ≥ 4`. -/
theorem approxStepsPower2AVX_batch (c_r c_i : __m256d) (m : Nat) :
    (approxStepsPower2AVX c_r c_i m).steps ≤ m ∧
    (∀ j, (⟨(approxStepsPower2AVX c_r c_i m).c_r j,
        (approxStepsPower2AVX c_r c_i m).c_i j⟩ : Pos) =
      orbit ⟨c_r j, c_i j⟩ (approxStepsPower2AVX c_r c_i m).steps) ∧
    (∀ k, k < (approxStepsPower2AVX c_r c_i m).steps →
      ∀ j, normSq (orbit ⟨c_r j, c_i j⟩ k) < 4) ∧
    ((approxStepsPower2AVX c_r c_i m).steps = m ∨
      ∃ j, 4 ≤ normSq (orbit ⟨c_r j, c_i j⟩ (approxStepsPower2AVX c_r c_i m).steps)) :=
  approxStepsPower2AVX_result (fun j => ⟨c_r j, c_i j⟩) m

theorem loopVarsAfter_succ (c : Pos) (k : Nat) :
    loopVarsAfter c (k + 1) =
      if PERIODICITY_CHECK_THRESHOLD < (loopVarsAfter c k).period + 1 then
        ⟨mandelStep c (loopVarsAfter c k).z, mandelStep c (loopVarsAfter c k).z, 0⟩
      else
        ⟨mandelStep c (loopVarsAfter c k).z, (loopVarsAfter c k).z_old,
          (loopVarsAfter c k).period + 1⟩ := rfl

/-- After `k` passes the loop holds the `k`-th iterate, the snapshot taken at
the last multiple of 20 and the count of passes since that snapshot. -/
theorem loopVarsAfter_eq (c : Pos) (k : Nat) :
    loopVarsAfter c k = ⟨orbit c k, orbit c (20 * (k / 20)), k % 20⟩ := by
  induction k with
  | zero => rfl
  | succ n ih =>
    rw [loopVarsAfter_succ, ih]
    simp only
    have hP : PERIODICITY_CHECK_THRESHOLD = 19 := rfl
    by_cases h : PERIODICITY_CHECK_THRESHOLD < n % 20 + 1
    · rw [if_pos h, ← orbit_succ]
      have h1 : 20 * ((n + 1) / 20) = n + 1 := by omega
      have h2 : (n + 1) % 20 = 0 := by omega
      rw [h1, h2]
    · rw [if_neg h, ← orbit_succ]
      have h1 : (n + 1) / 20 = n / 20 := by omega
      have h2 : (n + 1) % 20 = n % 20 + 1 := by omega
      rw [h1, h2]

/-- A cold-started run that took neither `return` in its first `k` passes
goes on as the loop entered at step `k` with the variables `loopVarsAfter c k`. -/
theorem approxStepsPower2_follow (c : Pos) (n : Nat) (EPS : ℚ) :
    ∀ k, k ≤ n →
      (∀ j, j < k → ¬ 4 ≤ normSq (orbit c j) ∧
        ¬ (|(orbit c (j + 1)).x - (orbit c (20 * (j / 20))).x| < EPS ∧
          |(orbit c (j + 1)).y - (orbit c (20 * (j / 20))).y| < EPS)) →
      approxStepsPower2 ⟨0, 0⟩ 0 c n EPS =
        approxLoop c n EPS (n - k) k (loopVarsAfter c k).z
          ⟨(loopVarsAfter c k).z.x * (loopVarsAfter c k).z.x,
            (loopVarsAfter c k).z.y * (loopVarsAfter c k).z.y⟩
          (loopVarsAfter c k).z_old (loopVarsAfter c k).period := by
  intro k
  induction k with
  | zero => intro _ _; rfl
  | succ m ih =>
    intro hk hrun
    rw [ih (by omega) (fun j hj => hrun j (by omega))]
    obtain ⟨hesc, hconv⟩ := hrun m (by omega)
    have hleft : n - m = (n - (m + 1)) + 1 := by omega
    rw [hleft, approxLoop_succ, loopVarsAfter_succ]
    have hv := loopVarsAfter_eq c m
    have hz : (loopVarsAfter c m).z = orbit c m := by rw [hv]
    have hzo : (loopVarsAfter c m).z_old = orbit c (20 * (m / 20)) := by rw [hv]
    rw [hz, hzo, ← orbit_succ, if_neg hesc, if_neg hconv]
    by_cases hp : PERIODICITY_CHECK_THRESHOLD < (loopVarsAfter c m).period + 1
    · rw [if_pos hp, if_pos hp]
    · rw [if_neg hp, if_neg hp]


/-- The orbit of `c = i`: `0, i, -1 + i, -i, -1 + i, -i, ...`. -/
theorem orbit_imaginary_unit (j : Nat) :
    orbit ⟨0, 1⟩ j =
      if j = 0 then ⟨0, 0⟩ else if j = 1 then ⟨0, 1⟩
      else if j % 2 = 0 then ⟨-1, 1⟩ else ⟨0, -1⟩ := by
  induction j with
  | zero => rfl
  | succ n ih =>
    rw [orbit_succ, ih]
    rcases Nat.eq_zero_or_pos n with h0 | h0
    · subst h0
      norm_num [mandelStep]
    · by_cases h1 : n = 1
      · subst h1
        norm_num [mandelStep]
      · have hn0 : n ≠ 0 := by omega
        have hs0 : n + 1 ≠ 0 := by omega
        have hs1 : n + 1 ≠ 1 := by omega
        rw [if_neg hn0, if_neg h1, if_neg hs0, if_neg hs1]
        by_cases hp : n % 2 = 0
        · have hq : ¬ (n + 1) % 2 = 0 := by omega
          rw [if_pos hp, if_neg hq]
          norm_num [mandelStep]
        · have hq : (n + 1) % 2 = 0 := by omega
          rw [if_neg hp, if_pos hq]
          norm_num [mandelStep]

/-- The run on `c = i` with epsilon `0.001`: in its first 21 passes it
neither escapes nor converges. -/
theorem imaginary_unit_run (j : Nat) (hj : j < 21) :
    ¬ 4 ≤ normSq (orbit ⟨0, 1⟩ j) ∧
      ¬ (|(orbit ⟨0, 1⟩ (j + 1)).x - (orbit ⟨0, 1⟩ (20 * (j / 20))).x| < 1 / 1000 ∧
        |(orbit ⟨0, 1⟩ (j + 1)).y - (orbit ⟨0, 1⟩ (20 * (j / 20))).y| < 1 / 1000) := by
  rw [orbit_imaginary_unit j, orbit_imaginary_unit (j + 1), orbit_imaginary_unit (20 * (j / 20))]
  interval_cases j <;> norm_num [normSq, abs_lt]


/-- C20 (claim as stated, refuted): the cold-started run on `c = i` with
budget 21 and epsilon `0.001` neither escapes nor converges (it returns 21
after 21 passes), yet after pass 19 the reference point is still `z_0 = 0`,
not the current `z_19 = -i`, and `period` is 19; the first replacement is at
the end of pass 20, where `z_old` becomes `z_20 = -1 + i`. -/
theorem snapshot_cadence_counterexample :
    (∀ j, j < 21 → ¬ 4 ≤ normSq (orbit ⟨0, 1⟩ j) ∧
      ¬ (|(orbit ⟨0, 1⟩ (j + 1)).x - (orbit ⟨0, 1⟩ (20 * (j / 20))).x| < 1 / 1000 ∧
        |(orbit ⟨0, 1⟩ (j + 1)).y - (orbit ⟨0, 1⟩ (20 * (j / 20))).y| < 1 / 1000)) ∧
    approxStepsPower2 ⟨0, 0⟩ 0 ⟨0, 1⟩ 21 (1 / 1000) = 21 ∧
    loopVarsAfter ⟨0, 1⟩ 19 = ⟨⟨0, -1⟩, ⟨0, 0⟩, 19⟩ ∧
    (loopVarsAfter ⟨0, 1⟩ 19).z_old ≠ (loopVarsAfter ⟨0, 1⟩ 19).z ∧
    loopVarsAfter ⟨0, 1⟩ 20 = ⟨⟨-1, 1⟩, ⟨-1, 1⟩, 0⟩ := by
  have h19 : loopVarsAfter ⟨0, 1⟩ 19 = ⟨⟨0, -1⟩, ⟨0, 0⟩, 19⟩ := by
    rw [loopVarsAfter_eq, orbit_imaginary_unit 19, orbit_imaginary_unit (20 * (19 / 20))]
    norm_num
  have h20 : loopVarsAfter ⟨0, 1⟩ 20 = ⟨⟨-1, 1⟩, ⟨-1, 1⟩, 0⟩ := by
    rw [loopVarsAfter_eq, orbit_imaginary_unit 20]
    norm_num
  refine ⟨imaginary_unit_run, ?_, h19, ?_, h20⟩
  · rw [approxStepsPower2_follow ⟨0, 1⟩ 21 (1 / 1000) 21 (le_refl _) imaginary_unit_run]
    rfl
  · rw [h19]
    simp

/-- C20 (amended): in a cold-started run of `approxStepsPower2` that took
neither `return` in its first `k ≤ n` passes, the loop variables after pass
`k` are `z = z_k`, `z_old = z_(20 * (k / 20))` and `period = k mod 20`, and
the run continues from them.  So the reference point is replaced by the
current `z` every `PERIODICITY_CHECK_THRESHOLD + 1 = 20` passes (at the end
of passes 20, 40, 60, ...), it is kept in every other pass, and the iterate
computed in pass `j + 1` is compared against the snapshot `z_(20 * (j / 20))`. -/
theorem snapshot_cadence (c : Pos) (n : Nat) (EPS : ℚ) (k : Nat) (hk : k ≤ n)
    (hrun : ∀ j, j < k → ¬ 4 ≤ normSq (orbit c j) ∧
      ¬ (|(orbit c (j + 1)).x - (orbit c (20 * (j / 20))).x| < EPS ∧
        |(orbit c (j + 1)).y - (orbit c (20 * (j / 20))).y| < EPS)) :
    loopVarsAfter c k = ⟨orbit c k, orbit c (20 * (k / 20)), k % 20⟩ ∧
    approxStepsPower2 ⟨0, 0⟩ 0 c n EPS =
      approxLoop c n EPS (n - k) k (orbit c k)
        ⟨(orbit c k).x * (orbit c k).x, (orbit c k).y * (orbit c k).y⟩
        (orbit c (20 * (k / 20))) (k % 20) ∧
    ((PERIODICITY_CHECK_THRESHOLD + 1) ∣ (k + 1) →
      (loopVarsAfter c (k + 1)).z_old = (loopVarsAfter c (k + 1)).z) ∧
    (¬ (PERIODICITY_CHECK_THRESHOLD + 1) ∣ (k + 1) →
      (loopVarsAfter c (k + 1)).z_old = (loopVarsAfter c k).z_old) := by
  have hP : PERIODICITY_CHECK_THRESHOLD + 1 = 20 := rfl
  refine ⟨loopVarsAfter_eq c k, ?_, ?_, ?_⟩
  · rw [approxStepsPower2_follow c n EPS k hk hrun, loopVarsAfter_eq]
  · intro hd
    rw [hP] at hd
    rw [loopVarsAfter_eq]
    have h1 : 20 * ((k + 1) / 20) = k + 1 := by omega
    simp only [h1]
  · intro hd
    rw [hP] at hd
    rw [loopVarsAfter_eq, loopVarsAfter_eq]
    have h1 : (k + 1) / 20 = k / 20 := by omega
    simp only [h1]

/-- C20 (witness): the run on `c = i` with budget 21 and epsilon `0.001`,
after 20 passes. -/
theorem snapshot_cadence_witness :
    loopVarsAfter ⟨0, 1⟩ 20 = ⟨orbit ⟨0, 1⟩ 20, orbit ⟨0, 1⟩ (20 * (20 / 20)), 20 % 20⟩ :=
  (snapshot_cadence ⟨0, 1⟩ 21 (1 / 1000) 20 (by decide)
    (fun j hj => imaginary_unit_run j (by omega))).1


/-! ## Theorems: settings and requests -/

theorem qBound_eq (lo v hi : Nat) : qBound lo v hi = max lo (min hi v) := rfl

theorem setSettings_threadsCount (ideal : Nat) (rs : RendererSettings) :
    (setSettings ideal rs).threadsCount =
      qBound 1 (if rs.threadsCountAuto then threadsCountAuto ideal else rs.threadsCount)
        (MAX_THREADS_COUNT ideal) := by
  unfold setSettings
  cases h : rs.threadsCountAuto <;> simp

theorem setSettings_iterationsCount (ideal : Nat) (rs : RendererSettings) :
    (setSettings ideal rs).iterationsCount =
      qBound MIN_ITERATIONS_BY_PIXEL rs.iterationsCount MAX_ITERATIONS_BY_PIXEL := by
  unfold setSettings
  cases h : rs.threadsCountAuto <;> simp

theorem setSettings_flags (ideal : Nat) (rs : RendererSettings) :
    (setSettings ideal rs).threadsCountAuto = rs.threadsCountAuto ∧
      (setSettings ideal rs).iterationsCountAuto = rs.iterationsCountAuto := by
  unfold setSettings
  cases h : rs.threadsCountAuto <;> simp [h]

theorem rendererSettings_ext (a b : RendererSettings) (h1 : a.threadsCount = b.threadsCount)
    (h2 : a.iterationsCount = b.iterationsCount) (h3 : a.threadsCountAuto = b.threadsCountAuto)
    (h4 : a.iterationsCountAuto = b.iterationsCountAuto) : a = b := by
  cases a; cases b
  simp only at h1 h2 h3 h4
  subst h1 h2 h3 h4
  rfl

/-- C15: for every `rs`, with `QThread::idealThreadCount() ≥ 1`, the settings
stored by `setSettings(rs)` have `threadsCount` in `[1, MAX_THREADS_COUNT]`
and `iterationsCount` in `[64, 2048]`; an `rs` whose thread count is not
"auto" and whose values are in range is stored unchanged; and `setSettings`
applied to its own stored result stores the same value again. -/
theorem setSettings_clamps (ideal : Nat) (hideal : 1 ≤ ideal) (rs : RendererSettings) :
    1 ≤ (setSettings ideal rs).threadsCount ∧
    (setSettings ideal rs).threadsCount ≤ MAX_THREADS_COUNT ideal ∧
    MIN_ITERATIONS_BY_PIXEL ≤ (setSettings ideal rs).iterationsCount ∧
    (setSettings ideal rs).iterationsCount ≤ MAX_ITERATIONS_BY_PIXEL ∧
    (rs.threadsCountAuto = false → 1 ≤ rs.threadsCount →
      rs.threadsCount ≤ MAX_THREADS_COUNT ideal →
      MIN_ITERATIONS_BY_PIXEL ≤ rs.iterationsCount →
      rs.iterationsCount ≤ MAX_ITERATIONS_BY_PIXEL → setSettings ideal rs = rs) ∧
    setSettings ideal (setSettings ideal rs) = setSettings ideal rs := by
  have ht := setSettings_threadsCount ideal rs
  have hi := setSettings_iterationsCount ideal rs
  obtain ⟨hf1, hf2⟩ := setSettings_flags ideal rs
  have hM : MAX_THREADS_COUNT ideal = ideal := rfl
  have hmin : MIN_ITERATIONS_BY_PIXEL = 64 := rfl
  have hmax : MAX_ITERATIONS_BY_PIXEL = 2048 := rfl
  rw [qBound_eq] at ht hi
  refine ⟨by omega, by omega, by omega, by omega, ?_, ?_⟩
  · intro ha h1 h2 h3 h4
    rw [ha] at ht
    simp only [Bool.false_eq_true, if_false] at ht
    exact rendererSettings_ext _ _ (by omega) (by omega) hf1 hf2
  · have ht' := setSettings_threadsCount ideal (setSettings ideal rs)
    have hi' := setSettings_iterationsCount ideal (setSettings ideal rs)
    obtain ⟨hf1', hf2'⟩ := setSettings_flags ideal (setSettings ideal rs)
    rw [qBound_eq] at ht' hi'
    rw [hf1] at ht'
    refine rendererSettings_ext _ _ ?_ (by omega) hf1' hf2'
    cases ha : rs.threadsCountAuto
    · rw [ha] at ht ht'
      simp only [Bool.false_eq_true, if_false] at ht ht'
      omega
    · rw [ha] at ht ht'
      simp only [if_true] at ht ht'
      omega

/-- C15 (witness): 8 hardware threads, requested 100 threads and 5 iterations. -/
theorem setSettings_clamps_witness :
    1 ≤ 8 ∧ setSettings 8 ⟨100, 5, false, false⟩ = ⟨8, 64, false, false⟩ ∧
      setSettings 8 (setSettings 8 ⟨100, 5, false, false⟩) =
        setSettings 8 ⟨100, 5, false, false⟩ :=
  ⟨by decide, by decide, (setSettings_clamps 8 (by decide) ⟨100, 5, false, false⟩).2.2.2.2.2⟩


theorem request_iterationsCount (settings : RendererSettings) (frameSeqId : Nat) (offset : Pos)
    (size : QSize) (scale scaleLog : ℚ) (lowResOnly : Bool) :
    (request settings frameSeqId offset size scale scaleLog lowResOnly).iterationsCount =
      if settings.iterationsCountAuto then iterationsCountAuto ⌊scaleLog⌋₊
      else settings.iterationsCount := by
  unfold request WorkerSettings.ofRendererSettings
  cases h : settings.iterationsCountAuto <;> simp

/-- What `request` publishes: the iteration budget is in `[64, 2048]` when the
stored settings come from `setSettings`, the "auto" budget being
`qBound(64, 30 * trunc(scaleLog), 2048)`; the thread count is the stored one;
`EPS = min (scale, 0.001)`; and the arguments are carried unchanged. -/
theorem request_resolved (ideal : Nat) (hideal : 1 ≤ ideal) (rs : RendererSettings)
    (frameSeqId : Nat) (offset : Pos) (size : QSize) (scale scaleLog : ℚ)
    (lowResOnly : Bool) :
    MIN_ITERATIONS_BY_PIXEL ≤
      (request (setSettings ideal rs) frameSeqId offset size scale scaleLog
        lowResOnly).iterationsCount ∧
    (request (setSettings ideal rs) frameSeqId offset size scale scaleLog
        lowResOnly).iterationsCount ≤ MAX_ITERATIONS_BY_PIXEL ∧
    (request (setSettings ideal rs) frameSeqId offset size scale scaleLog
        lowResOnly).iterationsCount =
      (if rs.iterationsCountAuto then
        qBound MIN_ITERATIONS_BY_PIXEL (30 * ⌊scaleLog⌋₊) MAX_ITERATIONS_BY_PIXEL
      else qBound MIN_ITERATIONS_BY_PIXEL rs.iterationsCount MAX_ITERATIONS_BY_PIXEL) ∧
    1 ≤ (request (setSettings ideal rs) frameSeqId offset size scale scaleLog
        lowResOnly).threadsCount ∧
    (request (setSettings ideal rs) frameSeqId offset size scale scaleLog
        lowResOnly).threadsCount ≤ MAX_THREADS_COUNT ideal ∧
    (request (setSettings ideal rs) frameSeqId offset size scale scaleLog lowResOnly).EPS =
      min scale (1 / 1000) ∧
    (request (setSettings ideal rs) frameSeqId offset size scale scaleLog
        lowResOnly).frameSeqId = frameSeqId ∧
    (request (setSettings ideal rs) frameSeqId offset size scale scaleLog lowResOnly).offset =
      offset ∧
    (request (setSettings ideal rs) frameSeqId offset size scale scaleLog
        lowResOnly).originalSize = size ∧
    (request (setSettings ideal rs) frameSeqId offset size scale scaleLog lowResOnly).scale =
      scale ∧
    (request (setSettings ideal rs) frameSeqId offset size scale scaleLog
        lowResOnly).lowResolutionOnly = lowResOnly := by
  have hit := request_iterationsCount (setSettings ideal rs) frameSeqId offset size scale
    scaleLog lowResOnly
  obtain ⟨c1, c2, c3, c4, _, _⟩ := setSettings_clamps ideal hideal rs
  obtain ⟨_, hf2⟩ := setSettings_flags ideal rs
  have hi := setSettings_iterationsCount ideal rs
  rw [hf2] at hit
  have hmin : MIN_ITERATIONS_BY_PIXEL = 64 := rfl
  have hmax : MAX_ITERATIONS_BY_PIXEL = 2048 := rfl
  have hfields : ∀ s : RendererSettings,
      (request s frameSeqId offset size scale scaleLog lowResOnly).threadsCount =
        s.threadsCount ∧
      (request s frameSeqId offset size scale scaleLog lowResOnly).EPS = min scale (1 / 1000) ∧
      (request s frameSeqId offset size scale scaleLog lowResOnly).frameSeqId = frameSeqId ∧
      (request s frameSeqId offset size scale scaleLog lowResOnly).offset = offset ∧
      (request s frameSeqId offset size scale scaleLog lowResOnly).originalSize = size ∧
      (request s frameSeqId offset size scale scaleLog lowResOnly).scale = scale ∧
      (request s frameSeqId offset size scale scaleLog lowResOnly).lowResolutionOnly =
        lowResOnly := by
    intro s
    unfold request WorkerSettings.ofRendererSettings
    cases h : s.iterationsCountAuto <;> simp
  obtain ⟨f1, f2, f3, f4, f5, f6, f7⟩ := hfields (setSettings ideal rs)
  have hauto : iterationsCountAuto ⌊scaleLog⌋₊ =
      qBound MIN_ITERATIONS_BY_PIXEL (30 * ⌊scaleLog⌋₊) MAX_ITERATIONS_BY_PIXEL := rfl
  have hrange : MIN_ITERATIONS_BY_PIXEL ≤
      (request (setSettings ideal rs) frameSeqId offset size scale scaleLog
        lowResOnly).iterationsCount ∧
      (request (setSettings ideal rs) frameSeqId offset size scale scaleLog
        lowResOnly).iterationsCount ≤ MAX_ITERATIONS_BY_PIXEL := by
    rw [hit]
    cases rs.iterationsCountAuto
    · simp only [Bool.false_eq_true, if_false]; exact ⟨c3, c4⟩
    · simp only [if_true]
      rw [hauto, qBound_eq]
      omega
  refine ⟨hrange.1, hrange.2, ?_, by rw [f1]; exact c1, by rw [f1]; exact c2, f2, f3, f4, f5,
    f6, f7⟩
  rw [hit]
  cases rs.iterationsCountAuto
  · simp only [Bool.false_eq_true, if_false]; exact hi
  · simp only [if_true]; exact hauto

/-- C16 (claim as stated, refuted): with the "auto" flag set, `setSettings`
stores 100 for `iterationsCount = 100` and 200 for `iterationsCount = 200`,
while the auto-derived value of zoom level 1 is 64; and when the latest
request (zoom level 1) was made with the explicit budget 100, `getSettings`
after `setSettings` with the "auto" flag reports 100. -/
theorem setSettings_auto_counterexample :
    (setSettings 8 ⟨4, 100, false, true⟩).iterationsCount = 100 ∧
    (setSettings 8 ⟨4, 200, false, true⟩).iterationsCount = 200 ∧
    iterationsCountAuto ⌊(1 : ℚ)⌋₊ = 64 ∧
    (getSettings (setSettings 8 ⟨4, 200, false, true⟩)
      (request (setSettings 8 ⟨4, 100, false, false⟩) 1 ⟨-1 / 2, 0⟩ ⟨100, 100⟩ (1 / 200) 1
        false)).iterationsCount = 100 := by
  refine ⟨by decide, by decide, ?_, ?_⟩
  · rw [Nat.floor_one]; decide
  · have h := request_iterationsCount (setSettings 8 ⟨4, 100, false, false⟩) 1 ⟨-1 / 2, 0⟩
      ⟨100, 100⟩ (1 / 200) 1 false
    have hs : setSettings 8 ⟨4, 100, false, false⟩ = ⟨4, 100, false, false⟩ := by decide
    have hs' : setSettings 8 ⟨4, 200, false, true⟩ = ⟨4, 200, false, true⟩ := by decide
    rw [hs] at h
    simp only [Bool.false_eq_true, if_false] at h
    rw [hs, hs']
    unfold getSettings
    simp only [if_true]
    exact h

/-- C16 (amended): for every `rs` with the "auto" iteration flag set,
`setSettings(rs)` stores the clamped `rs.iterationsCount` (the "auto" value is
not resolved there); `getSettings()` then reports the `iterationsCount` of the
latest published request; a `request()` made after this `setSettings`
publishes `iterationsCountAuto` of its zoom level, whatever `rs.iterationsCount`
is, and `getSettings()` after that request reports this value. -/
theorem setSettings_auto_iterations (ideal : Nat) (rs : RendererSettings)
    (hauto : rs.iterationsCountAuto = true) (requested : WorkerSettings) (frameSeqId : Nat)
    (offset : Pos) (size : QSize) (scale scaleLog : ℚ) (lowResOnly : Bool) :
    (setSettings ideal rs).iterationsCount =
      qBound MIN_ITERATIONS_BY_PIXEL rs.iterationsCount MAX_ITERATIONS_BY_PIXEL ∧
    (getSettings (setSettings ideal rs) requested).iterationsCount =
      requested.iterationsCount ∧
    (request (setSettings ideal rs) frameSeqId offset size scale scaleLog
      lowResOnly).iterationsCount = iterationsCountAuto ⌊scaleLog⌋₊ ∧
    (getSettings (setSettings ideal rs)
      (request (setSettings ideal rs) frameSeqId offset size scale scaleLog
        lowResOnly)).iterationsCount = iterationsCountAuto ⌊scaleLog⌋₊ := by
  obtain ⟨_, hf2⟩ := setSettings_flags ideal rs
  rw [hauto] at hf2
  have hget : ∀ r : WorkerSettings,
      (getSettings (setSettings ideal rs) r).iterationsCount = r.iterationsCount := by
    intro r
    unfold getSettings
    simp only [hf2, if_true]
  have hreq := request_iterationsCount (setSettings ideal rs) frameSeqId offset size scale
    scaleLog lowResOnly
  rw [hf2] at hreq
  simp only [if_true] at hreq
  exact ⟨setSettings_iterationsCount ideal rs, hget requested, hreq, by rw [hget, hreq]⟩

/-- C16 (witness): "auto" settings with `iterationsCount = 200`, then a
request at zoom level 3. -/
theorem setSettings_auto_iterations_witness :
    (request (setSettings 8 ⟨4, 200, false, true⟩) 1 ⟨-1 / 2, 0⟩ ⟨100, 100⟩ (1 / 200) 3
      false).iterationsCount = iterationsCountAuto ⌊(3 : ℚ)⌋₊ :=
  (setSettings_auto_iterations 8 ⟨4, 200, false, true⟩ rfl
    (WorkerSettings.ofRendererSettings ⟨4, 200, false, true⟩) 1 ⟨-1 / 2, 0⟩ ⟨100, 100⟩
    (1 / 200) 3 false).2.2.1

/-- C17 (the code at the failing input): with the "auto" flag set, a request
at zoom level `scaleLog = 2.5` publishes `iterationsCount = 64`, the clamp of
`30 * 2 = 60`, because the `double` is truncated to the `size_t` parameter of
`iterationsCountAuto` before the multiplication; the value
`min (max (floor (30 * 2.5), 64), 2048)` is 75. -/
theorem request_fractional_zoom :
    (1 : ℚ) ≤ 5 / 2 ∧ (5 / 2 : ℚ) ≤ (MAX_SCALE_LOG : ℚ) ∧
    (request (setSettings 8 ⟨4, 100, true, true⟩) 7 ⟨-1 / 2, 0⟩ ⟨100, 100⟩ (1 / 100) (5 / 2)
      false).iterationsCount = 64 ∧
    min (max ⌊(30 : ℚ) * (5 / 2)⌋₊ 64) 2048 = 75 := by
  have hfl : ⌊(5 / 2 : ℚ)⌋₊ = 2 :=
    (Nat.floor_eq_iff (by norm_num)).mpr ⟨by norm_num, by norm_num⟩
  have hfl2 : ⌊(30 : ℚ) * (5 / 2)⌋₊ = 75 :=
    (Nat.floor_eq_iff (by norm_num)).mpr ⟨by norm_num, by norm_num⟩
  refine ⟨by norm_num, by norm_num [MAX_SCALE_LOG], ?_, by rw [hfl2]; decide⟩
  rw [request_iterationsCount, (setSettings_flags 8 ⟨4, 100, true, true⟩).2]
  simp only [if_true]
  rw [hfl]
  decide


/-! ## Theorems: the controller protocol -/

theorem callerStep_delivered (s : Sys) : (callerStep s).delivered = s.delivered := by
  unfold callerStep
  split <;> try rfl
  all_goals split <;> rfl

theorem workerCheck_delivered (k : Nat) (s : Sys) : (workerCheck k s).delivered = s.delivered := by
  unfold workerCheck
  split
  · split <;> rfl
  · rfl

theorem workerFinish_delivered (k : Nat) (s : Sys) :
    (workerFinish k s).delivered = s.delivered := by
  unfold workerFinish
  split
  · split <;> rfl
  · rfl

/-- The controller emits a frame only at line 126-128, and only when
`dropFrame` reads `false`. -/
theorem controllerStep_delivered (s : Sys) :
    (controllerStep s).delivered = s.delivered ∨
      ∃ d c, s.controller = ControllerPc.deliver d c ∧ s.dropFrame = false ∧
        (controllerStep s).delivered = s.delivered ++ [⟨d, s.current.frameSeqId, c⟩] := by
  unfold controllerStep
  split
  · left; rfl
  · left; split <;> rfl
  · left; rfl
  · left; split <;> rfl
  · rename_i d c hc
    by_cases hd : s.dropFrame = true
    · left; rw [if_pos hd]
    · right
      refine ⟨d, c, hc, by simpa using hd, ?_⟩
      rw [if_neg hd]
  · left; split <;> rfl
  · left; split <;> rfl
  · left; split <;> rfl
  · left; rfl

/-- Every atomic step leaves the emitted frames as they are, except the step
of the controller at line 126 with `dropFrame` read `false`, which appends one
frame. -/
theorem step_delivered (a : Action) (s : Sys) :
    (step a s).delivered = s.delivered ∨
      (a = Action.controllerStep ∧
        ∃ d c, s.controller = ControllerPc.deliver d c ∧ s.dropFrame = false ∧
          (step a s).delivered = s.delivered ++ [⟨d, s.current.frameSeqId, c⟩]) := by
  cases a with
  | callRequest i o sz sc sl l => left; unfold step; simp only; split <;> rfl
  | callStop => left; unfold step; simp only; split <;> rfl
  | callSetSettings i rs => left; unfold step; simp only; split <;> rfl
  | callerStep => left; exact callerStep_delivered s
  | controllerStep =>
    rcases controllerStep_delivered s with h | h
    · left; exact h
    · right; exact ⟨rfl, h⟩
  | workerCheck k => left; exact workerCheck_delivered k s
  | workerFinish k => left; exact workerFinish_delivered k s


theorem coarseDelivered_append (id : Nat) (l : List FrameEvent) (e : FrameEvent)
    (h : CoarseDelivered id l) : CoarseDelivered id (l ++ [e]) := by
  obtain ⟨c, hc⟩ := h
  exact ⟨c, List.mem_append_left _ hc⟩

theorem coarseFirst_append (l : List FrameEvent) (e : FrameEvent) (h : CoarseFirst l)
    (he : e.downscaled = false → CoarseDelivered e.frameSeqId l) : CoarseFirst (l ++ [e]) := by
  intro i id c hi
  by_cases hlt : i < l.length
  · rw [List.getElem?_append_left hlt] at hi
    obtain ⟨j, c', hj, hjc⟩ := h i id c hi
    exact ⟨j, c', hj, by rw [List.getElem?_append_left (by omega)]; exact hjc⟩
  · have hge : l.length ≤ i := by omega
    rw [List.getElem?_append_right hge] at hi
    have hi0 : i - l.length = 0 := by
      by_contra hne
      obtain ⟨m, hm⟩ : ∃ m, i - l.length = m + 1 := ⟨i - l.length - 1, by omega⟩
      rw [hm] at hi
      simp at hi
    rw [hi0] at hi
    simp only [List.getElem?_cons_zero, Option.some.injEq] at hi
    subst hi
    obtain ⟨c', hc'⟩ := he rfl
    obtain ⟨j, hj, hjc⟩ := List.getElem_of_mem hc'
    refine ⟨j, c', by omega, ?_⟩
    rw [List.getElem?_append_left hj, List.getElem?_eq_getElem hj, hjc]

theorem inv_initial (settings : RendererSettings) (requested : WorkerSettings) :
    Inv (initial settings requested) := by
  refine ⟨fun _ => rfl, fun h => ?_, fun h => ?_, fun i id c hi => ?_⟩
  · simp [initial, ControllerPc.isAfterCoarse] at h
  · simp [initial, ControllerPc.isPrecise] at h
  · simp [initial] at hi

theorem prepareCurrent_frameSeqId (current : WorkerSettings) (m : Nat) :
    (prepareCurrent current m).frameSeqId = current.frameSeqId := rfl

theorem prepareCurrent_threadsCount (current : WorkerSettings) (m : Nat) :
    (prepareCurrent current m).threadsCount = current.threadsCount := rfl


theorem inv_callerStep (s : Sys) (h : Inv s) : Inv (callerStep s) := by
  obtain ⟨h1, h2, h3, h4⟩ := h
  unfold callerStep
  split
  · exact ⟨h1, h2, h3, h4⟩
  · rename_i hc
    split
    · rename_i hn
      exact ⟨fun _ => hn, h2, h3, h4⟩
    · exact ⟨fun hs => by simp [CallerPc.isStarting] at hs, h2, h3, h4⟩
  · rename_i hc
    have hn : s.controller = ControllerPc.notRunning := h1 (by rw [hc]; rfl)
    exact ⟨fun _ => hn, h2, h3, h4⟩
  · rename_i hc
    have hn : s.controller = ControllerPc.notRunning := h1 (by rw [hc]; rfl)
    refine ⟨fun _ => hn, fun ha => ?_, h3, h4⟩
    simp only [hn, ControllerPc.isAfterCoarse] at ha
    cases ha
  · rename_i hc
    split
    · refine ⟨fun hs => by simp [CallerPc.isStarting] at hs, fun ha => ?_, fun ha => ?_, h4⟩
      · simp [ControllerPc.isAfterCoarse] at ha
      · simp [ControllerPc.isPrecise] at ha
    · exact ⟨fun hs => by simp [CallerPc.isStarting] at hs, h2, h3, h4⟩
  · exact ⟨fun hs => by simp [CallerPc.isStarting] at hs, fun _ => Or.inl rfl, h3, h4⟩
  · exact ⟨fun hs => by simp [CallerPc.isStarting] at hs, fun _ => Or.inl rfl, h3, h4⟩

theorem inv_workerCheck (k : Nat) (s : Sys) (h : Inv s) : Inv (workerCheck k s) := by
  obtain ⟨h1, h2, h3, h4⟩ := h
  unfold workerCheck
  split
  · rename_i d ws hc
    have hstart : s.caller.isStarting = true → False := by
      intro hs
      rw [h1 hs] at hc
      cases hc
    have hprec : ∀ ws' : List WorkerPc,
        (ControllerPc.pass d ws').isPrecise = true →
          CoarseDelivered s.current.frameSeqId s.delivered := by
      intro ws' hp
      apply h3
      rw [hc]
      cases d <;> simp_all [ControllerPc.isPrecise]
    split
    · exact ⟨fun hs => (hstart hs).elim,
        fun ha => by simp [ControllerPc.isAfterCoarse] at ha, hprec _, h4⟩
    · exact ⟨fun hs => (hstart hs).elim,
        fun ha => by simp [ControllerPc.isAfterCoarse] at ha, hprec _, h4⟩
    · exact ⟨h1, h2, h3, h4⟩
  · exact ⟨h1, h2, h3, h4⟩

theorem inv_workerFinish (k : Nat) (s : Sys) (h : Inv s) : Inv (workerFinish k s) := by
  obtain ⟨h1, h2, h3, h4⟩ := h
  unfold workerFinish
  split
  · rename_i d ws hc
    have hstart : s.caller.isStarting = true → False := by
      intro hs
      rw [h1 hs] at hc
      cases hc
    have hprec : ∀ ws' : List WorkerPc,
        (ControllerPc.pass d ws').isPrecise = true →
          CoarseDelivered s.current.frameSeqId s.delivered := by
      intro ws' hp
      apply h3
      rw [hc]
      cases d <;> simp_all [ControllerPc.isPrecise]
    split
    · exact ⟨fun hs => (hstart hs).elim,
        fun ha => by simp [ControllerPc.isAfterCoarse] at ha, hprec _, h4⟩
    · exact ⟨h1, h2, h3, h4⟩
  · exact ⟨h1, h2, h3, h4⟩


theorem inv_controllerStep (s : Sys) (h : Inv s) : Inv (controllerStep s) := by
  obtain ⟨h1, h2, h3, h4⟩ := h
  have hstart : s.controller ≠ ControllerPc.notRunning → s.caller.isStarting = true → False :=
    fun hne hs => hne (h1 hs)
  unfold controllerStep
  split
  · exact ⟨h1, h2, h3, h4⟩
  · rename_i hc
    have hne : s.controller ≠ ControllerPc.notRunning := by rw [hc]; intro h; cases h
    split
    · exact ⟨fun _ => rfl, fun ha => by simp [ControllerPc.isAfterCoarse] at ha,
        fun ha => by simp [ControllerPc.isPrecise] at ha, h4⟩
    · exact ⟨fun hs => (hstart hne hs).elim,
        fun ha => by simp [ControllerPc.isAfterCoarse] at ha,
        fun ha => by simp [ControllerPc.isPrecise] at ha, h4⟩
  · rename_i hc
    have hne : s.controller ≠ ControllerPc.notRunning := by rw [hc]; intro h; cases h
    exact ⟨fun hs => (hstart hne hs).elim,
      fun ha => by simp [ControllerPc.isAfterCoarse] at ha,
      fun ha => by simp [ControllerPc.isPrecise] at ha, h4⟩
  · rename_i d ws hc
    have hne : s.controller ≠ ControllerPc.notRunning := by rw [hc]; intro h; cases h
    split
    · refine ⟨fun hs => (hstart hne hs).elim,
        fun ha => by simp [ControllerPc.isAfterCoarse] at ha, fun ha => ?_, h4⟩
      apply h3
      rw [hc]
      cases d <;> simp_all [ControllerPc.isPrecise]
    · exact ⟨h1, h2, h3, h4⟩
  · rename_i d c hc
    have hne : s.controller ≠ ControllerPc.notRunning := by rw [hc]; intro h; cases h
    split
    · rename_i hdrop
      refine ⟨fun hs => (hstart hne hs).elim, fun _ => Or.inl hdrop, fun ha => ?_, h4⟩
      cases d <;> simp [ControllerPc.isPrecise] at ha
    · have hpre : d = false → CoarseDelivered s.current.frameSeqId s.delivered := by
        intro hd
        apply h3
        rw [hc, hd]
        rfl
      refine ⟨fun hs => (hstart hne hs).elim, fun ha => ?_, fun ha => ?_, ?_⟩
      · right
        cases d
        · simp [ControllerPc.isAfterCoarse] at ha
        · exact ⟨c, List.mem_append_right _ (List.mem_singleton.mpr rfl)⟩
      · cases d
        · exact coarseDelivered_append _ _ _ (hpre rfl)
        · simp [ControllerPc.isPrecise] at ha
      · exact coarseFirst_append _ _ h4 hpre
  · rename_i d hc
    have hne : s.controller ≠ ControllerPc.notRunning := by rw [hc]; intro h; cases h
    split
    · refine ⟨fun hs => (hstart hne hs).elim, fun ha => ?_, fun ha => ?_, h4⟩
      · apply h2
        rw [hc]
        cases d
        · simp [ControllerPc.isAfterCoarse] at ha
        · rfl
      · cases d <;> simp [ControllerPc.isPrecise] at ha
    · exact ⟨h1, h2, h3, h4⟩
  · rename_i hc
    have hne : s.controller ≠ ControllerPc.notRunning := by rw [hc]; intro h; cases h
    split
    · rename_i hcond
      refine ⟨fun hs => (hstart hne hs).elim,
        fun ha => by simp [ControllerPc.isAfterCoarse] at ha, fun _ => ?_, h4⟩
      rcases h2 (by rw [hc]; rfl) with hd | hd
      · simp [hd] at hcond
      · exact hd
    · exact ⟨fun hs => (hstart hne hs).elim,
        fun ha => by simp [ControllerPc.isAfterCoarse] at ha,
        fun ha => by simp [ControllerPc.isPrecise] at ha, h4⟩
  · rename_i hc
    have hne : s.controller ≠ ControllerPc.notRunning := by rw [hc]; intro h; cases h
    split
    · exact ⟨fun hs => (hstart hne hs).elim,
        fun ha => by simp [ControllerPc.isAfterCoarse] at ha,
        fun ha => by simp [ControllerPc.isPrecise] at ha, h4⟩
    · exact ⟨h1, h2, h3, h4⟩
  · rename_i hc
    have hne : s.controller ≠ ControllerPc.notRunning := by rw [hc]; intro h; cases h
    exact ⟨fun hs => (hstart hne hs).elim,
      fun ha => by simp [ControllerPc.isAfterCoarse] at ha,
      fun ha => by simp [ControllerPc.isPrecise] at ha, h4⟩

theorem inv_step (a : Action) (s : Sys) (h : Inv s) : Inv (step a s) := by
  cases a with
  | callRequest i o sz sc sl l =>
    obtain ⟨h1, h2, h3, h4⟩ := h
    unfold step
    simp only
    split
    · exact ⟨fun hs => by simp [CallerPc.isStarting] at hs, h2, h3, h4⟩
    · exact ⟨h1, h2, h3, h4⟩
  | callStop =>
    obtain ⟨h1, h2, h3, h4⟩ := h
    unfold step
    simp only
    split
    · exact ⟨fun hs => by simp [CallerPc.isStarting] at hs, h2, h3, h4⟩
    · exact ⟨h1, h2, h3, h4⟩
  | callSetSettings i rs =>
    obtain ⟨h1, h2, h3, h4⟩ := h
    unfold step
    simp only
    split
    · exact ⟨h1, h2, h3, h4⟩
    · exact ⟨h1, h2, h3, h4⟩
  | callerStep => exact inv_callerStep s h
  | controllerStep => exact inv_controllerStep s h
  | workerCheck k => exact inv_workerCheck k s h
  | workerFinish k => exact inv_workerFinish k s h

theorem inv_exec (actions : List Action) : ∀ s : Sys, Inv s → Inv (exec actions s) := by
  induction actions with
  | nil => intro s h; exact h
  | cons a rest ih =>
    intro s h
    exact ih (step a s) (inv_step a s h)


/-- How an atomic step can change `shutdown`: `stop` sets it, and the store
of line 29 in `request` clears it. -/
theorem step_shutdown (a : Action) (s : Sys) :
    (step a s).shutdown = s.shutdown ∨
      (a = Action.callStop ∧ s.caller = CallerPc.idle ∧ (step a s).shutdown = true) ∨
      (a = Action.callerStep ∧ s.caller = CallerPc.requestShutdown ∧
        (step a s).shutdown = false) := by
  cases a with
  | callRequest i o sz sc sl l => left; unfold step; simp only; split <;> rfl
  | callStop =>
    by_cases hc : s.caller = CallerPc.idle
    · right; left
      refine ⟨rfl, hc, ?_⟩
      unfold step
      simp only
      rw [if_pos hc]
    · left
      unfold step
      simp only
      rw [if_neg hc]
  | callSetSettings i rs => left; unfold step; simp only; split <;> rfl
  | callerStep =>
    unfold step
    simp only
    unfold callerStep
    split
    · left; rfl
    · left; split <;> rfl
    · rename_i hc
      right; right
      exact ⟨trivial, hc, rfl⟩
    · left; rfl
    · left; split <;> rfl
    · left; rfl
    · left; rfl
  | controllerStep =>
    left
    unfold step
    simp only
    unfold controllerStep
    split <;> try rfl
    all_goals split <;> rfl
  | workerCheck k =>
    left
    unfold step
    simp only
    unfold workerCheck
    split
    · split <;> rfl
    · rfl
  | workerFinish k =>
    left
    unfold step
    simp only
    unfold workerFinish
    split
    · split <;> rfl
    · rfl

/-- A controller thread that does not run is started only by the call of
`start` in `request` (line 33). -/
theorem step_start (a : Action) (s : Sys) (hn : s.controller = ControllerPc.notRunning) :
    (step a s).controller = ControllerPc.notRunning ∨
      (a = Action.callerStep ∧ s.caller = CallerPc.requestStart ∧
        (step a s).controller = ControllerPc.loopHead) := by
  cases a with
  | callRequest i o sz sc sl l => left; unfold step; simp only; split <;> exact hn
  | callStop => left; unfold step; simp only; split <;> exact hn
  | callSetSettings i rs => left; unfold step; simp only; split <;> exact hn
  | callerStep =>
    unfold step
    simp only
    unfold callerStep
    split
    · left; exact hn
    · left; split <;> exact hn
    · left; exact hn
    · left; exact hn
    · rename_i hc
      right
      refine ⟨trivial, hc, ?_⟩
      rw [if_pos hn]
    · left; exact hn
    · left; exact hn
  | controllerStep =>
    left
    unfold step
    simp only
    unfold controllerStep
    rw [hn]
    exact hn
  | workerCheck k =>
    left
    unfold step
    simp only
    unfold workerCheck
    rw [hn]
    exact hn
  | workerFinish k =>
    left
    unfold step
    simp only
    unfold workerFinish
    rw [hn]
    exact hn


/-! ## Theorems: the controller protocol -/

/-- C11. Completion policy of `runWorkers`. When all workers of a pass are
joined and the controller is at the load of `dropFrame` (line 126): if the
flag reads `false`, exactly one frame is appended to the delivered frames,
carrying the coarse flag of the pass and `current.frameSeqId`, and the
controller is inside the blocking `emit`; if it reads `true`, no frame is
delivered and the controller has left `runWorkers`. The controller reaches this
load only once every worker has ended, and no other atomic step of any thread
delivers a frame. -/
theorem runWorkers_delivery (s : Sys) (d c : Bool)
    (h : s.controller = ControllerPc.deliver d c) :
    (s.dropFrame = false →
      (step Action.controllerStep s).delivered =
          s.delivered ++ [FrameEvent.mk d s.current.frameSeqId c] ∧
        (step Action.controllerStep s).controller = ControllerPc.emitting d) ∧
    (s.dropFrame = true →
      (step Action.controllerStep s).delivered = s.delivered ∧
        (step Action.controllerStep s).controller =
          (if d then ControllerPc.gate else ControllerPc.waiting)) ∧
    (∀ (t : Sys) (d' : Bool) (workers : List WorkerPc),
      t.controller = ControllerPc.pass d' workers →
        (step Action.controllerStep t).controller =
          (if workers.all WorkerPc.ended then
            ControllerPc.deliver d' (workers.all WorkerPc.complete)
          else ControllerPc.pass d' workers)) ∧
    (∀ (a : Action) (t : Sys), (step a t).delivered ≠ t.delivered →
      a = Action.controllerStep ∧
        ∃ d' c', t.controller = ControllerPc.deliver d' c' ∧ t.dropFrame = false ∧
          (step a t).delivered = t.delivered ++ [FrameEvent.mk d' t.current.frameSeqId c']) := by
  refine ⟨?_, ?_, ?_, ?_⟩
  · intro hd
    have e : step Action.controllerStep s = controllerStep s := rfl
    rw [e]
    unfold controllerStep
    rw [h]
    simp only [hd]
    exact ⟨rfl, rfl⟩
  · intro hd
    have e : step Action.controllerStep s = controllerStep s := rfl
    rw [e]
    unfold controllerStep
    rw [h]
    simp only [hd]
    exact ⟨rfl, rfl⟩
  · intro t d' workers ht
    have e : step Action.controllerStep t = controllerStep t := rfl
    rw [e]
    unfold controllerStep
    rw [ht]
    simp only
    split
    · rfl
    · exact ht
  · intro a t hne
    rcases step_delivered a t with h1 | ⟨ha, d', c', h2, h3, h4⟩
    · exact absurd h1 hne
    · exact ⟨ha, d', c', h2, h3, h4⟩

/-- Witness for C11: in the state where the coarse pass of the sample
request is joined and `dropFrame` is `false`, the coarse frame is delivered. -/
theorem runWorkers_delivery_witness :
    (step Action.controllerStep
        { initial ⟨2, 64, false, false⟩ sampleCurrent with
          controller := ControllerPc.deliver true true }).delivered =
      [FrameEvent.mk true sampleCurrent.frameSeqId true] :=
  ((runWorkers_delivery
      { initial ⟨2, 64, false, false⟩ sampleCurrent with
        controller := ControllerPc.deliver true true } true true rfl).1 rfl).1


/-- C12. A partially filled buffer is published. The calling thread requests
frame 1 with two workers; worker 1 writes its whole strip; the calling thread
enters `stop` and stores `shutdown` (line 41); worker 0 reads `shutdown` in its
cancellation check and returns early; the controller joins both workers and
reads `dropFrame`, which `stop` has not stored yet (line 42), so it emits the
coarse frame of a pass in which worker 0 has not written its whole strip. -/
theorem stop_publishes_partial_frame :
    (exec
        [Action.callRequest 1 ⟨-1 / 2, 0⟩ ⟨100, 100⟩ (1 / 100) 1 false,
          Action.callerStep, Action.callerStep, Action.callerStep, Action.callerStep,
          Action.controllerStep, Action.controllerStep, Action.workerFinish 1,
          Action.callStop, Action.workerCheck 0]
        (initial ⟨2, 64, false, false⟩ sampleCurrent)).controller =
      ControllerPc.pass true [WorkerPc.returned, WorkerPc.finished] ∧
    (exec
        [Action.callRequest 1 ⟨-1 / 2, 0⟩ ⟨100, 100⟩ (1 / 100) 1 false,
          Action.callerStep, Action.callerStep, Action.callerStep, Action.callerStep,
          Action.controllerStep, Action.controllerStep, Action.workerFinish 1,
          Action.callStop, Action.workerCheck 0,
          Action.controllerStep, Action.controllerStep]
        (initial ⟨2, 64, false, false⟩ sampleCurrent)).delivered =
      [FrameEvent.mk true 1 false] := by
  constructor
  · decide
  · decide


/-- The controller is in the precise pass only if it was there before the
step, or the step is the controller passing the condition of line 83 with
`lowResolutionOnly` and `dropFrame` both `false`. -/
theorem step_precise_pass (a : Action) (s : Sys) (workers : List WorkerPc)
    (h : (step a s).controller = ControllerPc.pass false workers) :
    (∃ ws, s.controller = ControllerPc.pass false ws) ∨
      (a = Action.controllerStep ∧ s.controller = ControllerPc.gate ∧
        s.current.lowResolutionOnly = false ∧ s.dropFrame = false) := by
  cases a with
  | callRequest i o sz sc sl l =>
    left
    refine ⟨workers, ?_⟩
    unfold step at h
    simp only at h
    split at h <;> exact h
  | callStop =>
    left
    refine ⟨workers, ?_⟩
    unfold step at h
    simp only at h
    split at h <;> exact h
  | callSetSettings i rs =>
    left
    refine ⟨workers, ?_⟩
    unfold step at h
    simp only at h
    split at h <;> exact h
  | callerStep =>
    left
    refine ⟨workers, ?_⟩
    unfold step at h
    simp only at h
    unfold callerStep at h
    split at h
    · exact h
    · split at h <;> exact h
    · exact h
    · exact h
    · split at h
      · exact absurd h (by simp)
      · exact h
    · exact h
    · exact h
  | controllerStep =>
    unfold step at h
    simp only at h
    unfold controllerStep at h
    split at h
    · rename_i hc
      rw [hc] at h
      exact absurd h (by simp)
    · split at h <;> exact absurd h (by simp)
    · exact absurd h (by simp)
    · rename_i d ws hc
      split at h
      · exact absurd h (by simp)
      · left
        rw [hc] at h
        simp only [ControllerPc.pass.injEq] at h
        exact ⟨ws, by rw [hc, h.1]⟩
    · split at h
      · simp only at h
        split at h <;> exact absurd h (by simp)
      · exact absurd h (by simp)
    · rename_i d hc
      split at h
      · simp only at h
        split at h <;> exact absurd h (by simp)
      · rw [hc] at h
        exact absurd h (by simp)
    · rename_i hc
      split at h
      · rename_i hg
        right
        simp only [Bool.and_eq_true, Bool.not_eq_true'] at hg
        exact ⟨rfl, hc, hg.1, hg.2⟩
      · exact absurd h (by simp)
    · rename_i hc
      split at h
      · exact absurd h (by simp)
      · rw [hc] at h
        exact absurd h (by simp)
    · exact absurd h (by simp)
  | workerCheck k =>
    left
    unfold step at h
    simp only at h
    unfold workerCheck at h
    split at h
    · rename_i d ws hc
      split at h
      · simp only [ControllerPc.pass.injEq] at h
        exact ⟨ws, by rw [hc, h.1]⟩
      · simp only [ControllerPc.pass.injEq] at h
        exact ⟨ws, by rw [hc, h.1]⟩
      · exact ⟨workers, h⟩
    · exact ⟨workers, h⟩
  | workerFinish k =>
    left
    unfold step at h
    simp only at h
    unfold workerFinish at h
    split at h
    · rename_i d ws hc
      split at h
      · simp only [ControllerPc.pass.injEq] at h
        exact ⟨ws, by rw [hc, h.1]⟩
      · exact ⟨workers, h⟩
    · exact ⟨workers, h⟩

/-- The controller is at the condition of line 83 only if it was there
before the step, or the step is the controller leaving the `runWorkers` call of
the coarse pass. -/
theorem step_gate (a : Action) (s : Sys) (h : (step a s).controller = ControllerPc.gate) :
    s.controller = ControllerPc.gate ∨
      (a = Action.controllerStep ∧
        ((∃ c, s.controller = ControllerPc.deliver true c ∧ s.dropFrame = true) ∨
          s.controller = ControllerPc.emitting true)) := by
  cases a with
  | callRequest i o sz sc sl l =>
    left
    unfold step at h
    simp only at h
    split at h <;> exact h
  | callStop =>
    left
    unfold step at h
    simp only at h
    split at h <;> exact h
  | callSetSettings i rs =>
    left
    unfold step at h
    simp only at h
    split at h <;> exact h
  | callerStep =>
    left
    unfold step at h
    simp only at h
    unfold callerStep at h
    split at h
    · exact h
    · split at h <;> exact h
    · exact h
    · exact h
    · split at h
      · exact absurd h (by simp)
      · exact h
    · exact h
    · exact h
  | controllerStep =>
    unfold step at h
    simp only at h
    unfold controllerStep at h
    split at h
    · left; exact h
    · split at h <;> exact absurd h (by simp)
    · exact absurd h (by simp)
    · rename_i d ws hc
      split at h
      · exact absurd h (by simp)
      · left; exact h
    · rename_i d c hc
      split at h
      · rename_i hd
        simp only at h
        split at h
        · rename_i hdt
          right
          subst hdt
          exact ⟨rfl, Or.inl ⟨c, hc, hd⟩⟩
        · exact absurd h (by simp)
      · exact absurd h (by simp)
    · rename_i d hc
      split at h
      · simp only at h
        split at h
        · rename_i hdt
          right
          subst hdt
          exact ⟨rfl, Or.inr hc⟩
        · exact absurd h (by simp)
      · left; exact h
    · left; assumption
    · split at h
      · exact absurd h (by simp)
      · left; exact h
    · exact absurd h (by simp)
  | workerCheck k =>
    left
    unfold step at h
    simp only at h
    unfold workerCheck at h
    split at h
    · split at h
      · exact absurd h (by simp)
      · exact absurd h (by simp)
      · exact h
    · exact h
  | workerFinish k =>
    left
    unfold step at h
    simp only at h
    unfold workerFinish at h
    split at h
    · split at h
      · exact absurd h (by simp)
      · exact h
    · exact h


/-- C13. Two-pass ordering in `run`. After `current = requested.load()` the
controller launches the coarse pass. At the condition of line 83, which it
reaches only on leaving the `runWorkers` call of the coarse pass, it launches
the precise pass for the same request if and only if `lowResolutionOnly` is
`false` and `dropFrame` reads `false`; the precise pass is entered in no other
way. Consequently, in every execution from the initial state, every delivered
precise frame is preceded by a delivered coarse frame with the same sequence
id. -/
theorem run_two_pass_ordering (settings : RendererSettings) (requested : WorkerSettings)
    (actions : List Action) :
    (∀ s : Sys, s.controller = ControllerPc.loadRequest →
      (step Action.controllerStep s).current =
          prepareCurrent s.requested DOWNSCALED_IMAGE_SIZE_MULTIPLIER ∧
        (step Action.controllerStep s).controller =
          ControllerPc.pass true (List.replicate s.requested.threadsCount WorkerPc.working)) ∧
    (∀ s : Sys, s.controller = ControllerPc.gate →
      ((∃ ws, (step Action.controllerStep s).controller = ControllerPc.pass false ws) ↔
          (s.current.lowResolutionOnly = false ∧ s.dropFrame = false)) ∧
        (step Action.controllerStep s).current.frameSeqId = s.current.frameSeqId) ∧
    (∀ (a : Action) (s : Sys) (ws : List WorkerPc),
      (step a s).controller = ControllerPc.pass false ws →
        (∃ ws', s.controller = ControllerPc.pass false ws') ∨
          (a = Action.controllerStep ∧ s.controller = ControllerPc.gate ∧
            s.current.lowResolutionOnly = false ∧ s.dropFrame = false)) ∧
    (∀ (a : Action) (s : Sys), (step a s).controller = ControllerPc.gate →
      s.controller = ControllerPc.gate ∨
        (a = Action.controllerStep ∧
          ((∃ c, s.controller = ControllerPc.deliver true c ∧ s.dropFrame = true) ∨
            s.controller = ControllerPc.emitting true))) ∧
    CoarseFirst (exec actions (initial settings requested)).delivered := by
  refine ⟨?_, ?_, step_precise_pass, step_gate, ?_⟩
  · intro s hs
    have e : step Action.controllerStep s = controllerStep s := rfl
    rw [e]
    unfold controllerStep
    rw [hs]
    exact ⟨rfl, rfl⟩
  · intro s hs
    have e : step Action.controllerStep s = controllerStep s := rfl
    rw [e]
    unfold controllerStep
    rw [hs]
    simp only
    split
    · rename_i hg
      simp only [Bool.and_eq_true, Bool.not_eq_true'] at hg
      exact ⟨⟨fun _ => hg, fun _ => ⟨_, rfl⟩⟩, rfl⟩
    · rename_i hg
      simp only [Bool.and_eq_true, Bool.not_eq_true'] at hg
      refine ⟨⟨fun h => ?_, fun h => absurd h hg⟩, rfl⟩
      obtain ⟨ws, hws⟩ := h
      exact absurd hws (by simp)
  · exact (inv_exec actions _ (inv_initial settings requested)).2.2.2


/-- Counterexample for C14 as stated. The calling thread requests frame 1 and
calls `stop`; the controller thread sees `shutdown` and leaves `run`. In that
state `shutdown` is `true` and no thread runs. A second `request` finds
`isRunning()` false, stores `shutdown = false` (line 29) and starts the
controller thread again (line 33). -/
theorem shutdown_reset_counterexample :
    (exec
        [Action.callRequest 1 ⟨-1 / 2, 0⟩ ⟨100, 100⟩ (1 / 100) 1 false,
          Action.callerStep, Action.callerStep, Action.callerStep, Action.callerStep,
          Action.callStop, Action.callerStep, Action.controllerStep]
        (initial ⟨2, 64, false, false⟩ sampleCurrent)).shutdown = true ∧
    (exec
        [Action.callRequest 1 ⟨-1 / 2, 0⟩ ⟨100, 100⟩ (1 / 100) 1 false,
          Action.callerStep, Action.callerStep, Action.callerStep, Action.callerStep,
          Action.callStop, Action.callerStep, Action.controllerStep]
        (initial ⟨2, 64, false, false⟩ sampleCurrent)).controller = ControllerPc.notRunning ∧
    (exec
        [Action.callRequest 1 ⟨-1 / 2, 0⟩ ⟨100, 100⟩ (1 / 100) 1 false,
          Action.callerStep, Action.callerStep, Action.callerStep, Action.callerStep,
          Action.callStop, Action.callerStep, Action.controllerStep,
          Action.callRequest 2 ⟨-1 / 2, 0⟩ ⟨100, 100⟩ (1 / 100) 1 false,
          Action.callerStep, Action.callerStep, Action.callerStep, Action.callerStep]
        (initial ⟨2, 64, false, false⟩ sampleCurrent)).shutdown = false ∧
    (exec
        [Action.callRequest 1 ⟨-1 / 2, 0⟩ ⟨100, 100⟩ (1 / 100) 1 false,
          Action.callerStep, Action.callerStep, Action.callerStep, Action.callerStep,
          Action.callStop, Action.callerStep, Action.controllerStep,
          Action.callRequest 2 ⟨-1 / 2, 0⟩ ⟨100, 100⟩ (1 / 100) 1 false,
          Action.callerStep, Action.callerStep, Action.callerStep, Action.callerStep]
        (initial ⟨2, 64, false, false⟩ sampleCurrent)).controller = ControllerPc.loopHead := by
  refine ⟨?_, ?_, ?_, ?_⟩ <;> decide

/-- C14 (amended). In every state `s` reachable from the initial state and
for every atomic step: `shutdown` changes only when `stop` stores `true`
(line 41) or when a `request` that found the controller thread not running
stores `false` (line 29), and at that store the thread is still not running;
so while the controller thread runs, a `shutdown` that is `true` stays `true`.
A controller thread that does not run is started only by the `start` call of
such a `request` (line 33). -/
theorem shutdown_transitions (settings : RendererSettings) (requested : WorkerSettings)
    (actions : List Action) (a : Action) (s : Sys)
    (hs : s = exec actions (initial settings requested)) :
    ((step a s).shutdown ≠ s.shutdown →
      (a = Action.callStop ∧ s.caller = CallerPc.idle ∧ (step a s).shutdown = true) ∨
        (a = Action.callerStep ∧ s.caller = CallerPc.requestShutdown ∧
          s.controller = ControllerPc.notRunning ∧ (step a s).shutdown = false)) ∧
    (s.controller ≠ ControllerPc.notRunning → s.shutdown = true →
      (step a s).shutdown = true) ∧
    (s.controller = ControllerPc.notRunning →
      (step a s).controller ≠ ControllerPc.notRunning →
        a = Action.callerStep ∧ s.caller = CallerPc.requestStart ∧
          (step a s).controller = ControllerPc.loopHead) := by
  have hinv : Inv s := by
    rw [hs]
    exact inv_exec actions _ (inv_initial settings requested)
  refine ⟨?_, ?_, ?_⟩
  · intro hne
    rcases step_shutdown a s with h | h | ⟨ha, hc, hf⟩
    · exact absurd h hne
    · exact Or.inl h
    · refine Or.inr ⟨ha, hc, hinv.1 ?_, hf⟩
      rw [hc]
      rfl
  · intro hrun htrue
    rcases step_shutdown a s with h | ⟨_, _, h⟩ | ⟨_, hc, _⟩
    · rw [h, htrue]
    · exact h
    · refine absurd (hinv.1 ?_) hrun
      rw [hc]
      rfl
  · intro hn hne
    rcases step_start a s hn with h | h
    · exact absurd h hne
    · exact h

/-- Witness for C14 (amended): the state after a request and a completed
`stop`, in which the controller thread still runs, and the step in which the
controller reads `shutdown`. -/
theorem shutdown_transitions_witness :
    (step Action.controllerStep
        (exec
          [Action.callRequest 1 ⟨-1 / 2, 0⟩ ⟨100, 100⟩ (1 / 100) 1 false,
            Action.callerStep, Action.callerStep, Action.callerStep, Action.callerStep,
            Action.callStop, Action.callerStep]
          (initial ⟨2, 64, false, false⟩ sampleCurrent))).shutdown = true :=
  (shutdown_transitions ⟨2, 64, false, false⟩ sampleCurrent
      [Action.callRequest 1 ⟨-1 / 2, 0⟩ ⟨100, 100⟩ (1 / 100) 1 false,
        Action.callerStep, Action.callerStep, Action.callerStep, Action.callerStep,
        Action.callStop, Action.callerStep]
      Action.controllerStep _ rfl).2.1 (by decide) (by decide)


/-! ## Theorems: the ranges handed to the workers -/

/-- The end of every launched range is at most the image height. -/
theorem stripTo_le (H T i : Nat) : stripTo H T i ≤ H := by
  unfold stripTo
  exact min_le_right _ _

/-- The range of worker `i` has `from ≤ to` exactly when its start is not
beyond the image height. -/
theorem stripFrom_le_stripTo_iff (H T i : Nat) :
    stripFrom H T i ≤ stripTo H T i ↔ stripFrom H T i ≤ H := by
  unfold stripTo
  constructor
  · intro h
    exact le_trans h (min_le_right _ _)
  · intro h
    exact le_min (Nat.le_add_right _ _) h

/-- The scalar `workerPrecise` on a range with `y1 < y`: the loop condition
`y != y1` holds, so the row loop runs on row `y` and writes the pixel at offset
`y * width`, and unless it returned at a cancellation check the outer loop
goes on with row `y + 1`. -/
theorem preciseYLoop_inverted (current : WorkerSettings) (flags : Nat → Bool)
    (fuel0 y1 fuel y : Nat) (st : WorkerState) (hW : 0 < current.size.width)
    (hfuel0 : current.size.width < fuel0) (hy : y1 < y)
    (hdata : st.data = y * current.size.width) (hcnt : st.pixelsCnt = st.evaluated % 256) :
    ∃ fl, preciseXLoop current flags y fuel0 0 st = some fl ∧
      fl.st.bits (y * current.size.width) = precisePixel current (y * current.size.width) ∧
      preciseYLoop current flags fuel0 y1 (fuel + 1) y st =
        (if fl.isRet then some (Flow.ret fl.st)
          else preciseYLoop current flags fuel0 y1 fuel (y + 1) fl.st) := by
  obtain ⟨fl, h1, h2, _, h4, h5, h6, h7⟩ :=
    preciseXLoop_spec current flags y fuel0 0 st (Nat.zero_le _) (by omega) (by omega) hcnt
  refine ⟨fl, h1, ?_, ?_⟩
  · have hlt : st.evaluated < fl.st.evaluated := by
      cases hr : fl.isRet with
      | true => exact (h6.2.1 hr).1
      | false =>
        have := (h7 hr).1
        omega
    have hk := (h5 (y * current.size.width)).1 ⟨by omega, by omega⟩
    exact hk
  · have hne : ¬ y = y1 := by omega
    rw [preciseYLoop]
    rw [if_neg hne, h1]
    cases fl with
    | next s => rfl
    | ret s => rfl


/-- C21 (the code at the failing input). For an image of height 100 and 16
threads `stripHeight` is 8, and the launching loop hands worker 13 the range
`(104, 100)`, whose start is beyond its end and beyond the image; likewise
height 5 with 4 threads gives worker 2 the range `(8, 5)`. On the range
`(104, 100)` of the 100 × 100 buffer of the sample request the row loop of
`workerPrecise` runs on row 104 and writes the pixel at offset
`104 * 100`, which is not below the pixel count `100 * 100` of the buffer. -/
theorem runWorkers_inverted_range :
    (strips 100 16)[13]? = some (104, 100) ∧ 16 ≤ MAX_THREADS_COUNT 16 ∧
    (strips 5 4)[2]? = some (8, 5) ∧ 4 ≤ MAX_THREADS_COUNT 4 ∧
    ∀ (flags : Nat → Bool) (bits : Nat → Nat),
      ∃ fl, preciseXLoop (prepareCurrent sampleCurrent 1) flags 104 101 0
            ⟨bits, 104 * 100, 0, 0⟩ = some fl ∧
        fl.st.bits (104 * 100) = precisePixel (prepareCurrent sampleCurrent 1) (104 * 100) ∧
        (prepareCurrent sampleCurrent 1).size.width *
            (prepareCurrent sampleCurrent 1).size.height ≤ 104 * 100 := by
  refine ⟨by decide, by decide, by decide, by decide, fun flags bits => ?_⟩
  obtain ⟨fl, h1, h2, _⟩ :=
    preciseYLoop_inverted (prepareCurrent sampleCurrent 1) flags 101 100 0 104
      ⟨bits, 104 * 100, 0, 0⟩ (by decide) (by decide) (by decide) rfl rfl
  exact ⟨fl, h1, h2, by decide⟩


/-! ## Theorems: the evaluator against the reference loop -/

/-- The update `z = z * z + c` of the reference loop is `mandelStep`. -/
theorem basicCheckLoop_succ (c : Pos) (n left i : Nat) (z : Pos) :
    basicCheckLoop c n (left + 1) i z =
      if 4 ≤ normSq z then i else basicCheckLoop c n left (i + 1) (mandelStep c z) := by
  have e1 : (z.y * z.y + z.x * z.x ≥ 4) = (4 ≤ normSq z) := by
    unfold normSq
    rw [add_comm]
  have e2 : (⟨z.x * z.x - z.y * z.y + c.x, z.x * z.y + z.y * z.x + c.y⟩ : Pos) =
      mandelStep c z := by
    unfold mandelStep
    congr 1
    ring
  rw [basicCheckLoop]
  simp only [e1, e2]

/-- The reference loop entered at step `i` with the `i`-th iterate, when no
earlier iterate escaped, returns the escape time. -/
theorem basicCheckLoop_exact (c : Pos) (n : Nat) :
    ∀ (left i : Nat), i + left = n → (∀ j, j < i → normSq (orbit c j) < 4) →
      IsEscapeTime c n (basicCheckLoop c n left i (orbit c i)) := by
  intro left
  induction left with
  | zero =>
    intro i hi hpre
    left
    have hin : i = n := by omega
    refine ⟨rfl, fun j hj => hpre j (by omega)⟩
  | succ k ih =>
    intro i hi hpre
    rw [basicCheckLoop_succ]
    by_cases hesc : 4 ≤ normSq (orbit c i)
    · rw [if_pos hesc]
      right
      exact ⟨by omega, hesc, hpre⟩
    · rw [if_neg hesc, ← orbit_succ]
      refine ih (i + 1) (by omega) (fun j hj => ?_)
      by_cases hji : j < i
      · exact hpre j hji
      · have e : j = i := by omega
        rw [e]
        exact lt_of_not_le hesc

/-- The reference loop returns the escape time. -/
theorem basicCheck_exact (c : Pos) (n : Nat) : IsEscapeTime c n (basicCheck c n) := by
  unfold basicCheck
  have h := basicCheckLoop_exact c n n 0 (by omega) (fun j hj => absurd hj (by omega))
  rw [orbit_zero] at h
  exact h

/-- C22. With `EPS ≤ 0` the cold-started evaluator is the naive escape-time
loop: for every `c` and budget `n` it returns what the reference loop of the
function's comment returns (with `n` for "inside"), that is, the least
`j < n` with `|z_j|² ≥ 4` if there is one and `n` otherwise, for the exact
orbit `z_0 = 0`, `z_(j+1) = z_j² + c`. -/
theorem approxStepsPower2_naive (c : Pos) (n : Nat) (EPS : ℚ) (hEPS : EPS ≤ 0) :
    approxStepsPower2 ⟨0, 0⟩ 0 c n EPS = basicCheck c n ∧
    ((∃ j, j < n ∧ 4 ≤ normSq (orbit c j)) →
      approxStepsPower2 ⟨0, 0⟩ 0 c n EPS < n ∧
        4 ≤ normSq (orbit c (approxStepsPower2 ⟨0, 0⟩ 0 c n EPS)) ∧
        ∀ j, j < approxStepsPower2 ⟨0, 0⟩ 0 c n EPS → normSq (orbit c j) < 4) ∧
    ((∀ j, j < n → normSq (orbit c j) < 4) → approxStepsPower2 ⟨0, 0⟩ 0 c n EPS = n) := by
  have h := approxStepsPower2_cold_exact c n EPS hEPS
  refine ⟨isEscapeTime_unique h (basicCheck_exact c n), ?_, ?_⟩
  · rintro ⟨j, hj, hesc⟩
    rcases h with ⟨_, h2⟩ | h
    · exact absurd (h2 j hj) (not_lt.mpr hesc)
    · exact h
  · intro hin
    rcases h with ⟨h1, _⟩ | ⟨h1, h2, _⟩
    · exact h1
    · exact absurd (hin _ h1) (not_lt.mpr h2)

/-- Witness for C22: the point `c = 1` with budget 64 and epsilon 0. -/
theorem approxStepsPower2_naive_witness :
    (0 : ℚ) ≤ 0 ∧ approxStepsPower2 ⟨0, 0⟩ 0 ⟨1, 0⟩ 64 0 = basicCheck ⟨1, 0⟩ 64 :=
  ⟨le_refl 0, (approxStepsPower2_naive ⟨1, 0⟩ 64 0 (le_refl 0)).1⟩


/-- C23. Warm-start handoff with the convergence test off. For every batch
of 4 points, every budget `n`, every `EPS ≤ 0` and every lane `i`: the scalar
evaluator resumed from the lane's `z` and the step count that
`approxStepsPower2AVX` returns for the ceiling `min (n, AVX_APPROXIMATION_STEPS)`
(the batched path of `workerPrecise`) returns what the cold-started scalar
evaluator returns on the lane's point, namely the escape time of the exact
orbit under budget `n`. -/
theorem batchedSteps_handoff (P : Fin 4 → Pos) (n : Nat) (EPS : ℚ) (hEPS : EPS ≤ 0)
    (i : Fin 4) :
    approxStepsPower2
        ⟨(approxStepsPower2AVX (fun j => (P j).x) (fun j => (P j).y)
            (min n AVX_APPROXIMATION_STEPS)).c_r i,
          (approxStepsPower2AVX (fun j => (P j).x) (fun j => (P j).y)
            (min n AVX_APPROXIMATION_STEPS)).c_i i⟩
        (approxStepsPower2AVX (fun j => (P j).x) (fun j => (P j).y)
          (min n AVX_APPROXIMATION_STEPS)).steps (P i) n EPS =
      approxStepsPower2 ⟨0, 0⟩ 0 (P i) n EPS ∧
    batchedSteps P n EPS i = approxStepsPower2 ⟨0, 0⟩ 0 (P i) n EPS ∧
    IsEscapeTime (P i) n (batchedSteps P n EPS i) := by
  have hb := batchedSteps_exact P n EPS hEPS i
  have hs := approxStepsPower2_cold_exact (P i) n EPS hEPS
  have e : batchedSteps P n EPS i = approxStepsPower2 ⟨0, 0⟩ 0 (P i) n EPS :=
    isEscapeTime_unique hb hs
  exact ⟨e, e, hb⟩

/-- Witness for C23: lane 1 of `divergingBatch` with budget 64 and epsilon
`-1`. -/
theorem batchedSteps_handoff_witness :
    (-1 : ℚ) ≤ 0 ∧ batchedSteps divergingBatch 64 (-1) 1 =
      approxStepsPower2 ⟨0, 0⟩ 0 (divergingBatch 1) 64 (-1) :=
  ⟨by norm_num, (batchedSteps_handoff divergingBatch 64 (-1) (by norm_num) 1).2.1⟩


end Renderer

/-! ## Theorems: the viewport -/

/-- C18. Stale-frame rejection: for every viewport state and every delivered
frame whose sequence id differs from the viewport's `frameSeqId`,
`Viewport::updateFrame` leaves every data member as it is (among them
`downscaledFrame`, `detailedFrame`, `delayedFrame` and `rendererState`) and
neither calls `update()` nor emits `widgetInfoDelivery`. -/
theorem Viewport.updateFrame_stale (v : Viewport) (frame : QImage) (downscaled : Bool)
    (frameSeqId : Nat) (h : frameSeqId ≠ v.frameSeqId) :
    v.updateFrame frame downscaled frameSeqId = (v, []) := by
  unfold Viewport.updateFrame
  rw [if_pos h]

/-- Witness for C18: a viewport that expects frame 2 and shows nothing yet
receives the coarse frame of request 1. -/
theorem Viewport.updateFrame_stale_witness :
    Viewport.updateFrame
        { scale := 1 / 200, centerOffset := ⟨-1 / 2, 0⟩, scaleLog := 1,
          downscaledFrame := ⟨none, ⟨0, 0⟩, 1, ⟨0, 0⟩, 1⟩,
          detailedFrame := ⟨none, ⟨0, 0⟩, 1, ⟨0, 0⟩, 1⟩,
          delayedFrame := none, prevDragPos := ⟨0, 0⟩, cursorDependentZoom := true,
          lowResolution := false, rendererState := mandelbrot.RendererState.INITIAL_RENDERING,
          renderer := Renderer.initial ⟨2, 64, false, false⟩ Renderer.sampleCurrent,
          frameSeqId := 2 }
        (some (⟨400, 400⟩, [])) true 1 =
      ({ scale := 1 / 200, centerOffset := ⟨-1 / 2, 0⟩, scaleLog := 1,
          downscaledFrame := ⟨none, ⟨0, 0⟩, 1, ⟨0, 0⟩, 1⟩,
          detailedFrame := ⟨none, ⟨0, 0⟩, 1, ⟨0, 0⟩, 1⟩,
          delayedFrame := none, prevDragPos := ⟨0, 0⟩, cursorDependentZoom := true,
          lowResolution := false, rendererState := mandelbrot.RendererState.INITIAL_RENDERING,
          renderer := Renderer.initial ⟨2, 64, false, false⟩ Renderer.sampleCurrent,
          frameSeqId := 2 }, []) :=
  Viewport.updateFrame_stale _ _ true 1 (by decide)
